import Mathlib

/-!
# Verification of the llm-toolkit Markdown ↔ rich-document pipeline

This file shallowly embeds the core pure logic of the `llmtk` repository
(style deep-merging, markdown cleanup, diagram block replacement, history
resolution, and the Phase-2 structural styling pass) as executable Lean
definitions, and proves or refutes the specification claims about them.

Conventions:
* Python strings are modelled as `List Char`.
* Python `re.sub` calls are modelled by explicit left-to-right scanners with
  the same leftmost, non-overlapping match semantics (including the
  backtracking behaviour of the concrete patterns used by the source).
* JSON-like dynamic dicts are modelled by `JVal` / `JEntries` association
  lists that preserve insertion order, mirroring Python dict semantics.
* Fallible Python code (raising exceptions) is modelled with `Except`.
-/

namespace LlmTk

/-! ## Python-style character classes -/

/-- Python whitespace, as matched by `str.strip()` / regex `\s` for `str`
(ASCII whitespace, the C1 controls `\x1c`-`\x1f`, `\x85`, and the Unicode
space separators). -/
def isPySpace (c : Char) : Bool :=
  c = ' ' || c = '\t' || c = '\n' || (9 ≤ c.toNat && c.toNat ≤ 13) ||
  (28 ≤ c.toNat && c.toNat ≤ 31) || c.toNat = 0x85 || c.toNat = 0xa0 ||
  c.toNat = 0x1680 || (0x2000 ≤ c.toNat && c.toNat ≤ 0x200a) ||
  c.toNat = 0x2028 || c.toNat = 0x2029 || c.toNat = 0x202f ||
  c.toNat = 0x205f || c.toNat = 0x3000

/-- Hexadecimal digit test (for Python `int(s, 16)`). -/
def isHexDigit (c : Char) : Bool :=
  ('0' ≤ c && c ≤ '9') || ('a' ≤ c && c ≤ 'f') || ('A' ≤ c && c ≤ 'F')

/-- Substring containment test (`needle in haystack` on Python strings). -/
def containsSub (haystack needle : List Char) : Bool :=
  match haystack with
  | [] => needle.isEmpty
  | _ :: rest =>
    needle.isPrefixOf haystack || containsSub rest needle

/-! ## JSON-like dynamic values

`JVal` models the values that appear in the style dictionaries and in
parsed `styles.json` override files.  Entry lists are a separate mutual
inductive so that the deep-merge recursion below is structural (hence
computable by `rfl`/`decide`). -/

mutual

inductive JVal : Type where
  | obj (entries : JEntries)
  | arr (items : JList)
  | str (s : String)
  | num (q : ℚ)
  | bool (b : Bool)
  | null
  deriving Repr

inductive JEntries : Type where
  | nil
  | cons (k : String) (v : JVal) (rest : JEntries)
  deriving Repr

inductive JList : Type where
  | nil
  | cons (v : JVal) (rest : JList)
  deriving Repr

end

/-- Python dict membership `k in d`. -/
def keyMem (k : String) : JEntries → Bool
  | .nil => false
  | .cons k' _ rest => k = k' || keyMem k rest

/-- Python dict lookup `d[k]` / `d.get(k)` (first, i.e. unique, occurrence). -/
def lookupKey : JEntries → String → Option JVal
  | .nil, _ => none
  | .cons k' v rest, k => if k = k' then some v else lookupKey rest k

/-- Python dict assignment `d[k] = v`: update in place (keeping the key's
insertion position) if present, else append. -/
def setKey : JEntries → String → JVal → JEntries
  | .nil, k, v => .cons k v .nil
  | .cons k' v' rest, k, v =>
    if k = k' then .cons k' v rest else .cons k' v' (setKey rest k v)

/-! ## `styles._deep_merge`

```python
def _deep_merge(base: dict, overrides: dict) -> dict:
    result = base.copy()
    for key, value in overrides.items():
        if key in result and isinstance(result[key], dict) and isinstance(value, dict):
            result[key] = _deep_merge(result[key], value)
        else:
            result[key] = value
    return result
```
-/

mutual

/-- The loop of `_deep_merge`: fold the override entries into the
accumulated result (which starts as a copy of `base`). -/
def deepMergeEntries : JEntries → JEntries → JEntries
  | base, .nil => base
  | base, .cons k v rest => deepMergeEntries (mergeStep base k v) rest

/-- One iteration of the `_deep_merge` loop: process override entry
`(k, v)` against the accumulated dict. -/
def mergeStep : JEntries → String → JVal → JEntries
  | base, k, v =>
    match lookupKey base k, v with
    | some (.obj be), .obj oe => setKey base k (.obj (deepMergeEntries be oe))
    | _, _ => setKey base k v

end

/-! ## Well-formedness: Python dicts have unique keys, recursively. -/

mutual

def wfVal : JVal → Bool
  | .obj e => wfEntries e
  | .arr l => wfList l
  | _ => true

def wfEntries : JEntries → Bool
  | .nil => true
  | .cons k v rest => !keyMem k rest && wfVal v && wfEntries rest

def wfList : JList → Bool
  | .nil => true
  | .cons v rest => wfVal v && wfList rest

end

/-! ### Basic lemmas about lookup / set -/

theorem lookupKey_setKey_self :
    ∀ (l : JEntries) (k : String) (v : JVal),
      lookupKey (setKey l k v) k = some v
  | .nil, k, v => by simp [setKey, lookupKey]
  | .cons k' v' rest, k, v => by
    by_cases h : k = k' <;>
      simp [setKey, lookupKey, h, lookupKey_setKey_self rest k v]

theorem lookupKey_setKey_ne :
    ∀ (l : JEntries) (k k' : String) (v : JVal), k' ≠ k →
      lookupKey (setKey l k v) k' = lookupKey l k'
  | .nil, k, k', v, h => by simp [setKey, lookupKey, h]
  | .cons ka va rest, k, k', v, h => by
    by_cases hk : k = ka
    · subst hk; simp [setKey, lookupKey, h]
    · by_cases hk' : k' = ka <;>
        simp [setKey, lookupKey, hk, hk', lookupKey_setKey_ne rest k k' v h]

theorem setKey_eq_of_lookup :
    ∀ (l : JEntries) (k : String) (v : JVal),
      lookupKey l k = some v → setKey l k v = l
  | .nil, k, v, h => by simp [lookupKey] at h
  | .cons k' v' rest, k, v, h => by
    by_cases hk : k = k'
    · subst hk
      simp [lookupKey] at h
      simp [setKey, h]
    · simp [lookupKey, hk] at h
      simp [setKey, hk, setKey_eq_of_lookup rest k v h]

theorem keyMem_setKey :
    ∀ (l : JEntries) (k k' : String) (v : JVal),
      keyMem k' (setKey l k v) = (k' = k || keyMem k' l)
  | .nil, k, k', v => by
    by_cases h : k' = k <;> simp [setKey, keyMem, h]
  | .cons ka va rest, k, k', v => by
    by_cases hk : k = ka
    · subst hk
      by_cases h : k' = k <;> simp [setKey, keyMem, h]
    · by_cases h : k' = ka
      · subst h; simp [setKey, keyMem, hk]
      · simp [setKey, keyMem, hk, h, keyMem_setKey rest k k' v]

/-! ### Deep-merge lemmas -/

/-- The value the `_deep_merge` loop stores for key `k`, as a function of the
accumulated dict's current value at `k` and the override value. -/
def mergeResultFor : Option JVal → JVal → JVal
  | some (.obj be), .obj oe => .obj (deepMergeEntries be oe)
  | _, v => v

theorem mergeStep_eq (base : JEntries) (k : String) (v : JVal) :
    mergeStep base k v = setKey base k (mergeResultFor (lookupKey base k) v) := by
  unfold mergeStep mergeResultFor
  cases lookupKey base k with
  | none => cases v <;> rfl
  | some bv => cases bv <;> cases v <;> rfl

/-- Keys not mentioned by the override are untouched by the merge. -/
theorem lookupKey_merge_notMem :
    ∀ (o : JEntries) (b : JEntries) (k : String), keyMem k o = false →
      lookupKey (deepMergeEntries b o) k = lookupKey b k
  | .nil, b, k, _ => rfl
  | .cons k1 v1 rest, b, k, h => by
    simp [keyMem] at h
    rw [deepMergeEntries, lookupKey_merge_notMem rest _ k (by simp [h.2]),
      mergeStep_eq, lookupKey_setKey_ne _ _ _ _ h.1]

/-- Entry membership in an entry list (Python `(k, v) in d.items()`). -/
def entMem (k : String) (v : JVal) : JEntries → Prop
  | .nil => False
  | .cons k' v' rest => (k = k' ∧ v = v') ∨ entMem k v rest

theorem entMem_keyMem :
    ∀ (l : JEntries) (k : String) (v : JVal), entMem k v l → keyMem k l = true
  | .cons k' _ rest, k, v, h => by
    rcases h with ⟨h1, _⟩ | h
    · simp [keyMem, h1]
    · simp [keyMem, entMem_keyMem rest k v h]

theorem lookup_of_entMem :
    ∀ (l : JEntries) (k : String) (v : JVal), entMem k v l →
      wfEntries l = true → lookupKey l k = some v
  | .cons k' v' rest, k, v, h, hwf => by
    simp [wfEntries] at hwf
    rcases h with ⟨h1, h2⟩ | h
    · subst h1; subst h2; simp [lookupKey]
    · have hk : k ≠ k' := by
        intro he; subst he
        exact absurd (entMem_keyMem rest k v h) (by simp [hwf.1.1])
      simp [lookupKey, hk, lookup_of_entMem rest k v h hwf.2]

theorem wfVal_of_entMem :
    ∀ (l : JEntries) (k : String) (v : JVal), entMem k v l →
      wfEntries l = true → wfVal v = true
  | .cons k' v' rest, k, v, h, hwf => by
    simp [wfEntries] at hwf
    rcases h with ⟨_, h2⟩ | h
    · subst h2; exact hwf.1.2
    · exact wfVal_of_entMem rest k v h hwf.2

theorem entMem_sizeOf :
    ∀ (l : JEntries) (k : String) (v : JVal), entMem k v l →
      sizeOf v < sizeOf l
  | .cons k' v' rest, k, v, h => by
    rcases h with ⟨_, h2⟩ | h
    · subst h2; simp; omega
    · have := entMem_sizeOf rest k v h
      simp; omega

/-- The value the merge result holds at an override key. -/
theorem lookupKey_merge_of_mem :
    ∀ (o : JEntries) (b : JEntries) (k : String) (v : JVal),
      lookupKey o k = some v → wfEntries o = true →
      lookupKey (deepMergeEntries b o) k = some (mergeResultFor (lookupKey b k) v)
  | .cons k1 v1 rest, b, k, v, hl, hwf => by
    simp [wfEntries] at hwf
    by_cases hk : k = k1
    · subst hk
      simp [lookupKey] at hl
      subst hl
      rw [deepMergeEntries, lookupKey_merge_notMem rest _ k (by simp [hwf.1.1]),
        mergeStep_eq, lookupKey_setKey_self]
    · simp [lookupKey, hk] at hl
      rw [deepMergeEntries,
        lookupKey_merge_of_mem rest _ k v hl hwf.2,
        mergeStep_eq, lookupKey_setKey_ne _ _ _ _ hk]

/-- If every single loop iteration fixes the accumulator, the whole merge
fixes it. -/
theorem merge_eq_of_steps :
    ∀ (o : JEntries) (m : JEntries),
      (∀ k v, entMem k v o → mergeStep m k v = m) →
      deepMergeEntries m o = m
  | .nil, m, _ => rfl
  | .cons k1 v1 rest, m, h => by
    rw [deepMergeEntries, h k1 v1 (Or.inl ⟨rfl, rfl⟩)]
    exact merge_eq_of_steps rest m fun k v hm => h k v (Or.inr hm)

/-- Merging a well-formed dict into itself is the identity. -/
theorem merge_self_aux :
    ∀ (n : Nat) (d : JEntries), sizeOf d ≤ n → wfEntries d = true →
      deepMergeEntries d d = d := by
  intro n
  induction n with
  | zero => intro d hd; cases d <;> simp_all
  | succ n ih =>
    intro d hd hwf
    apply merge_eq_of_steps
    intro k v hm
    have hl : lookupKey d k = some v := lookup_of_entMem d k v hm hwf
    rw [mergeStep_eq, hl]
    cases v with
    | obj oe =>
      have hoe : deepMergeEntries oe oe = oe := by
        have h1 : sizeOf oe ≤ n := by
          have h2 := entMem_sizeOf d k (.obj oe) hm
          have h3 : sizeOf oe < sizeOf (JVal.obj oe) := by simp
          omega
        exact ih oe h1 (wfVal_of_entMem d k (.obj oe) hm hwf)
      rw [show mergeResultFor (some (.obj oe)) (.obj oe)
            = .obj (deepMergeEntries oe oe) from rfl, hoe]
      exact setKey_eq_of_lookup d k (.obj oe) hl
    | arr l => exact setKey_eq_of_lookup d k _ hl
    | str s => exact setKey_eq_of_lookup d k _ hl
    | num q => exact setKey_eq_of_lookup d k _ hl
    | bool b => exact setKey_eq_of_lookup d k _ hl
    | null => exact setKey_eq_of_lookup d k _ hl

theorem merge_self (d : JEntries) (hwf : wfEntries d = true) :
    deepMergeEntries d d = d :=
  merge_self_aux (sizeOf d) d (Nat.le_refl _) hwf

/-- Python `isinstance(v, dict)`. -/
def isObjVal : JVal → Bool
  | .obj _ => true
  | _ => false

theorem mergeResultFor_of_not_obj (ov : Option JVal) (v : JVal)
    (h : isObjVal v = false) : mergeResultFor ov v = v := by
  cases v <;> simp [isObjVal] at h ⊢ <;>
    (cases ov with
     | none => rfl
     | some bv => cases bv <;> rfl)

/-- `_deep_merge` is idempotent in its override argument. -/
theorem merge_idem_aux :
    ∀ (n : Nat) (o : JEntries) (b : JEntries), sizeOf o ≤ n →
      wfEntries o = true →
      deepMergeEntries (deepMergeEntries b o) o = deepMergeEntries b o := by
  intro n
  induction n with
  | zero => intro o b ho; cases o <;> simp_all
  | succ n ih =>
    intro o b ho hwf
    apply merge_eq_of_steps
    intro k v hm
    have hlo : lookupKey o k = some v := lookup_of_entMem o k v hm hwf
    have hlm := lookupKey_merge_of_mem o b k v hlo hwf
    rw [mergeStep_eq, hlm]
    by_cases hv : isObjVal v = true
    · cases v with
      | obj oe =>
        have hsz : sizeOf oe ≤ n := by
          have h2 := entMem_sizeOf o k (.obj oe) hm
          have h3 : sizeOf oe < sizeOf (JVal.obj oe) := by simp
          omega
        have hwoe : wfEntries oe = true := wfVal_of_entMem o k (.obj oe) hm hwf
        have hX : ∃ Xe, mergeResultFor (lookupKey b k) (.obj oe) = .obj Xe ∧
            deepMergeEntries Xe oe = Xe := by
          cases hb : lookupKey b k with
          | none => exact ⟨oe, rfl, merge_self oe hwoe⟩
          | some bv =>
            cases bv with
            | obj be => exact ⟨deepMergeEntries be oe, rfl, ih oe be hsz hwoe⟩
            | arr l => exact ⟨oe, rfl, merge_self oe hwoe⟩
            | str s => exact ⟨oe, rfl, merge_self oe hwoe⟩
            | num q => exact ⟨oe, rfl, merge_self oe hwoe⟩
            | bool bb => exact ⟨oe, rfl, merge_self oe hwoe⟩
            | null => exact ⟨oe, rfl, merge_self oe hwoe⟩
        obtain ⟨Xe, hX1, hX2⟩ := hX
        rw [hX1] at hlm ⊢
        rw [show mergeResultFor (some (.obj Xe)) (.obj oe)
              = .obj (deepMergeEntries Xe oe) from rfl, hX2]
        exact setKey_eq_of_lookup _ k _ hlm
      | arr l => simp [isObjVal] at hv
      | str s => simp [isObjVal] at hv
      | num q => simp [isObjVal] at hv
      | bool bb => simp [isObjVal] at hv
      | null => simp [isObjVal] at hv
    · have hnv : isObjVal v = false := by simpa using hv
      rw [mergeResultFor_of_not_obj _ _ hnv] at hlm ⊢
      exact setKey_eq_of_lookup _ k _ hlm

theorem merge_idem (b o : JEntries) (hwf : wfEntries o = true) :
    deepMergeEntries (deepMergeEntries b o) o = deepMergeEntries b o :=
  merge_idem_aux (sizeOf o) o b (Nat.le_refl _) hwf

/-- C7: style deep-merge is idempotent (`merge(merge(b,o),o) = merge(b,o)`),
has `{}` as a right identity (`merge(b,{}) = b`), and overriding one leaf
key of a nested group preserves every sibling leaf of that group. -/
theorem c7_deep_merge_idem_identity_siblings
    (b o ge : JEntries) (g k1 k2 : String) (v1 w : JVal)
    (ho : wfEntries o = true)
    (hg : lookupKey b g = some (.obj ge)) (hk : k2 ≠ k1)
    (hw : lookupKey ge k2 = some w) :
    deepMergeEntries (deepMergeEntries b o) o = deepMergeEntries b o ∧
    deepMergeEntries b .nil = b ∧
    ∃ ge2,
      lookupKey (deepMergeEntries b (.cons g (.obj (.cons k1 v1 .nil)) .nil)) g
        = some (.obj ge2) ∧
      lookupKey ge2 k2 = some w := by
  refine ⟨merge_idem b o ho, rfl, ?_⟩
  refine ⟨setKey ge k1 (mergeResultFor (lookupKey ge k1) v1), ?_, ?_⟩
  · rw [deepMergeEntries, deepMergeEntries, mergeStep_eq, hg]
    rw [show mergeResultFor (some (.obj ge)) (.obj (.cons k1 v1 .nil))
          = .obj (deepMergeEntries ge (.cons k1 v1 .nil)) from rfl]
    rw [show deepMergeEntries ge (.cons k1 v1 .nil)
          = deepMergeEntries (mergeStep ge k1 v1) .nil from rfl]
    rw [deepMergeEntries, mergeStep_eq, lookupKey_setKey_self]
  · rw [lookupKey_setKey_ne ge k1 k2 _ hk]
    exact hw

/-- Concrete base dict for the C7 witness: the shape of the `BODY` default
group inside the resolved styles. -/
def c7BaseEx : JEntries :=
  .cons "body" (.obj (.cons "font" (.str "Inter") (.cons "size" (.num 11) .nil)))
    (.cons "code" (.obj (.cons "font" (.str "Roboto Mono") .nil)) .nil)

/-- Concrete override dict for the C7 witness (`{"body": {"size": 12}}`). -/
def c7OvEx : JEntries :=
  .cons "body" (.obj (.cons "size" (.num 12) .nil)) .nil

/-- Witness for C7 at a concrete base and override. -/
theorem c7_deep_merge_idem_identity_siblings_witness :
    wfEntries c7OvEx = true ∧
    lookupKey c7BaseEx "body"
      = some (.obj (.cons "font" (.str "Inter") (.cons "size" (.num 11) .nil))) ∧
    ("font" : String) ≠ "size" ∧
    lookupKey (.cons "font" (.str "Inter") (.cons "size" (.num 11) .nil)) "font"
      = some (.str "Inter") ∧
    (deepMergeEntries (deepMergeEntries c7BaseEx c7OvEx) c7OvEx
        = deepMergeEntries c7BaseEx c7OvEx ∧
      deepMergeEntries c7BaseEx .nil = c7BaseEx ∧
      ∃ ge2,
        lookupKey
            (deepMergeEntries c7BaseEx
              (.cons "body" (.obj (.cons "size" (.num 12) .nil)) .nil)) "body"
          = some (.obj ge2) ∧
        lookupKey ge2 "font" = some (.str "Inter")) :=
  ⟨rfl, rfl, by decide, rfl,
    c7_deep_merge_idem_identity_siblings c7BaseEx c7OvEx
      (.cons "font" (.str "Inter") (.cons "size" (.num 11) .nil))
      "body" "size" "font" (.num 12) (.str "Inter")
      rfl rfl (by decide) rfl⟩

/-! ## `diagram.render._replace_blocks`

```python
def _replace_blocks(md_content: str, replacements: list[tuple]) -> str:
    result = md_content
    for start, end, image_ref in reversed(replacements):
        result = result[:start] + image_ref + result[end:]
    return result
```
-/

/-- One loop iteration: `result = result[:start] + image_ref + result[end:]`. -/
def applyReplacement (s : List Char) (r : Nat × Nat × List Char) : List Char :=
  s.take r.1 ++ r.2.2 ++ s.drop r.2.1

/-- `_replace_blocks`: apply the replacements in reverse order. -/
def replaceBlocks (md : List Char) (replacements : List (Nat × Nat × List Char)) :
    List Char :=
  replacements.reverse.foldl applyReplacement md

/-- Specification-side description of the intended result: the original
text outside the spans, interleaved with the image references, span by span
in order of appearance. -/
def spliceSpec (s : List Char) : Nat → List (Nat × Nat × List Char) → List Char
  | pos, [] => s.drop pos
  | pos, (st, en, ref) :: rest => (s.drop pos).take (st - pos) ++ ref ++ spliceSpec s en rest

/-- The spans are in order of appearance, non-overlapping, and in bounds. -/
def spansChain : Nat → List (Nat × Nat × List Char) → Nat → Bool
  | pos, [], len => pos ≤ len
  | pos, (st, en, _) :: rest, len => pos ≤ st && st ≤ en && spansChain en rest len

theorem spansChain_mono :
    ∀ (reps : List (Nat × Nat × List Char)) (p q len : Nat),
      spansChain p reps len = true → q ≤ p → spansChain q reps len = true
  | [], p, q, len, h, hq => by
    simp [spansChain] at h ⊢; omega
  | (st, en, ref) :: rest, p, q, len, h, hq => by
    simp [spansChain] at h ⊢
    exact ⟨by omega, h.2⟩

theorem spansChain_le :
    ∀ (reps : List (Nat × Nat × List Char)) (p len : Nat),
      spansChain p reps len = true → p ≤ len
  | [], p, len, h => by simpa [spansChain] using h
  | (st, en, ref) :: rest, p, len, h => by
    simp [spansChain] at h
    have := spansChain_le rest en len h.2
    omega

theorem spliceSpec_split :
    ∀ (reps : List (Nat × Nat × List Char)) (s : List Char) (pos q len : Nat),
      spansChain q reps len = true → pos ≤ q →
      spliceSpec s pos reps = (s.drop pos).take (q - pos) ++ spliceSpec s q reps
  | [], s, pos, q, len, h, hpq => by
    simp only [spliceSpec]
    rw [show s.drop q = (s.drop pos).drop (q - pos) by
      rw [List.drop_drop, Nat.add_sub_cancel' hpq]]
    exact (List.take_append_drop _ _).symm
  | (st, en, ref) :: rest, s, pos, q, len, h, hpq => by
    simp only [spansChain, Bool.and_eq_true, decide_eq_true_eq] at h
    have hqst : q ≤ st := h.1.1
    simp only [spliceSpec]
    have hdq : s.drop q = (s.drop pos).drop (q - pos) := by
      rw [List.drop_drop, Nat.add_sub_cancel' hpq]
    have hA : (s.drop pos).take (st - pos)
        = (s.drop pos).take (q - pos) ++ (s.drop q).take (st - q) := by
      rw [hdq, ← List.take_add]
      congr 1
      omega
    rw [hA]
    simp [List.append_assoc]

/-- C8 (main lemma): under ordered, non-overlapping, in-bounds spans, the
reverse-order replacement loop produces exactly the original text outside
the spans with each span replaced by its reference. -/
theorem replaceBlocks_eq_spliceSpec :
    ∀ (reps : List (Nat × Nat × List Char)) (s : List Char),
      spansChain 0 reps s.length = true →
      replaceBlocks s reps = spliceSpec s 0 reps
  | [], s, _ => by simp [replaceBlocks, spliceSpec]
  | (st, en, ref) :: rest, s, h => by
    simp only [spansChain, Bool.and_eq_true, decide_eq_true_eq] at h
    have hsten : st ≤ en := h.1.2
    have hrest : spansChain en rest s.length = true := h.2
    have hen_len : en ≤ s.length := spansChain_le rest en s.length hrest
    have hrest0 : spansChain 0 rest s.length = true :=
      spansChain_mono rest en 0 s.length hrest (Nat.zero_le _)
    have hloop : replaceBlocks s ((st, en, ref) :: rest)
        = applyReplacement (replaceBlocks s rest) (st, en, ref) := by
      simp [replaceBlocks, List.foldl_append]
    rw [hloop, replaceBlocks_eq_spliceSpec rest s hrest0]
    have hsplit := spliceSpec_split rest s 0 en s.length hrest (Nat.zero_le _)
    rw [List.drop_zero, Nat.sub_zero] at hsplit
    rw [hsplit]
    have hlen_take : (s.take en).length = en := by
      rw [List.length_take]; omega
    simp only [applyReplacement]
    have htake : (s.take en ++ spliceSpec s en rest).take st = s.take st := by
      rw [List.take_append_of_le_length (by omega), List.take_take,
        Nat.min_eq_left hsten]
    have hdrop : (s.take en ++ spliceSpec s en rest).drop en = spliceSpec s en rest := by
      rw [List.drop_append_of_le_length (by omega)]
      rw [List.drop_eq_nil_of_le (by omega), List.nil_append]
    rw [htake, hdrop]
    simp [spliceSpec]

/-- C8: inline replacement over ordered, non-overlapping diagram spans
preserves every character outside the replaced spans byte-for-byte and
substitutes each span by its image reference (for any subset of
successfully rendered blocks, which is again such a span list). -/
theorem c8_replace_blocks_preserves_text (md : List Char)
    (reps : List (Nat × Nat × List Char))
    (h : spansChain 0 reps md.length = true) :
    replaceBlocks md reps = spliceSpec md 0 reps :=
  replaceBlocks_eq_spliceSpec reps md h

/-- Witness input for C8: two spans of `"abcdef"`. -/
def c8RepsEx : List (Nat × Nat × List Char) :=
  [(1, 2, ['x', 'y']), (4, 6, ['z'])]

/-- Witness for C8 at a concrete markdown text and span list. -/
theorem c8_replace_blocks_preserves_text_witness :
    spansChain 0 c8RepsEx ('a' :: 'b' :: 'c' :: 'd' :: 'e' :: ['f']).length = true ∧
    replaceBlocks ('a' :: 'b' :: 'c' :: 'd' :: 'e' :: ['f']) c8RepsEx
      = spliceSpec ('a' :: 'b' :: 'c' :: 'd' :: 'e' :: ['f']) 0 c8RepsEx :=
  ⟨by decide,
    c8_replace_blocks_preserves_text ('a' :: 'b' :: 'c' :: 'd' :: 'e' :: ['f'])
      c8RepsEx (by decide)⟩

/-! ## `gdoc.history.find_by_id` and `gdoc.pull_content` update-mode resolution

```python
def find_by_id(doc_id: str) -> str | None:
    ...
    for entry in reversed(history):
        if entry.get('id') == doc_id:
            source = entry.get('source', '')
            if source and source != 'stdin':
                return source
            return None
    return None
```
-/

/-- One record of the history JSON list (each field via `entry.get(...)`,
hence optional). -/
structure HEntry where
  idVal : Option String
  title : Option String
  source : Option String
  url : Option String
  date : Option String
  deriving Repr, DecidableEq

/-- The `for entry in reversed(history)` loop body of `find_by_id`. -/
def findScan : List HEntry → String → Option String
  | [], _ => none
  | e :: rest, d =>
    if e.idVal = some d then
      let s := e.source.getD ""
      if s ≠ "" ∧ s ≠ "stdin" then some s else none
    else findScan rest d

/-- `history.find_by_id` (the history list is ordered oldest to newest). -/
def findById (history : List HEntry) (docId : String) : Option String :=
  findScan history.reverse docId

/-- Resolution as worded by the spec/claim: the source path of the most
recent entry whose id matches *and* whose source is a real path — older
matching entries still count.  (Spec-side definition, for comparison.) -/
def specFindById (history : List HEntry) (docId : String) : Option String :=
  (history.reverse.find? fun e =>
    decide (e.idVal = some docId) &&
      (e.source.getD "" != "" && e.source.getD "" != "stdin")).bind
    (fun e => e.source)

/-- Outcome of `pull_content`'s output-destination logic. -/
inductive PullOutcome where
  | updatedFile (path : String)
  | wroteOutput (path : String)
  | printedStdout
  | errorExit
  deriving Repr, DecidableEq

/-- The destination branch of `pull_content` (lines 54-74): update mode
first, then `--output`, else print.  `parentExists` is the filesystem
oracle for `target.parent.exists()` on the resolved history path. -/
def pullDestination (update : Bool) (output : Option String)
    (history : List HEntry) (docId : String)
    (parentExists : String → Bool) : PullOutcome :=
  if update then
    match findById history docId with
    | none => .errorExit
    | some sp => if parentExists sp then .updatedFile sp else .errorExit
  else
    match output with
    | some o => .wroteOutput o
    | none => .printedStdout

theorem findScan_some_iff :
    ∀ (l : List HEntry) (d p : String),
      findScan l d = some p ↔
      ∃ l1 e l2, l = l1 ++ e :: l2 ∧ (∀ x ∈ l1, x.idVal ≠ some d) ∧
        e.idVal = some d ∧ e.source = some p ∧ p ≠ "" ∧ p ≠ "stdin"
  | [], d, p => by
    constructor
    · intro h; simp [findScan] at h
    · rintro ⟨l1, e, l2, hl, -⟩
      exact absurd hl (by cases l1 <;> simp)
  | e0 :: rest, d, p => by
    by_cases hid : e0.idVal = some d
    · constructor
      · intro h
        simp only [findScan, hid, if_pos] at h
        by_cases hs : (e0.source.getD "" ≠ "" ∧ e0.source.getD "" ≠ "stdin")
        · rw [if_pos hs] at h
          have hsp : e0.source.getD "" = p := by
            simpa using h
          refine ⟨[], e0, rest, rfl, by simp, hid, ?_, ?_, ?_⟩
          · cases hso : e0.source with
            | none =>
              rw [hso] at hs
              simp at hs
            | some s => rw [hso] at hsp; simp at hsp; rw [hsp]
          · rw [← hsp]; exact hs.1
          · rw [← hsp]; exact hs.2
        · rw [if_neg hs] at h; cases h
      · rintro ⟨l1, e, l2, hl, hnone, hide, hsrc, hp1, hp2⟩
        cases l1 with
        | nil =>
          simp only [List.nil_append, List.cons.injEq] at hl
          obtain ⟨he, -⟩ := hl
          subst he
          simp [findScan, hid, hsrc, hp1, hp2]
        | cons x l1' =>
          simp only [List.cons_append, List.cons.injEq] at hl
          obtain ⟨hx, -⟩ := hl
          subst hx
          exact absurd hid (hnone e0 (by simp))
    · have hstep : findScan (e0 :: rest) d = findScan rest d := by
        simp [findScan, hid]
      rw [hstep, findScan_some_iff rest d p]
      constructor
      · rintro ⟨l1, e, l2, hl, hnone, hide, h4, h5, h6⟩
        refine ⟨e0 :: l1, e, l2, by simp [hl], ?_, hide, h4, h5, h6⟩
        intro x hx
        rcases List.mem_cons.mp hx with hx | hx
        · subst hx; exact hid
        · exact hnone x hx
      · rintro ⟨l1, e, l2, hl, hnone, hide, h4, h5, h6⟩
        cases l1 with
        | nil =>
          simp only [List.nil_append, List.cons.injEq] at hl
          obtain ⟨he, -⟩ := hl
          subst he
          exact absurd hide hid
        | cons x l1' =>
          simp only [List.cons_append, List.cons.injEq] at hl
          obtain ⟨hx, hrest⟩ := hl
          subst hx
          exact ⟨l1', e, l2, hrest, fun y hy => hnone y (by simp [hy]),
            hide, h4, h5, h6⟩

/-- Characterization of `find_by_id`: it succeeds exactly when the *most
recent* id-matching entry itself carries a real (non-stdin, non-empty)
source path; real-sourced *older* matching entries do not count. -/
theorem findById_some_iff (h : List HEntry) (d p : String) :
    findById h d = some p ↔
    ∃ pre e post, h = pre ++ e :: post ∧ (∀ x ∈ post, x.idVal ≠ some d) ∧
      e.idVal = some d ∧ e.source = some p ∧ p ≠ "" ∧ p ≠ "stdin" := by
  rw [findById, findScan_some_iff]
  constructor
  · rintro ⟨l1, e, l2, hl, hn, h3, h4, h5, h6⟩
    refine ⟨l2.reverse, e, l1.reverse, ?_, fun x hx => hn x (by simpa using hx),
      h3, h4, h5, h6⟩
    have hrev := congrArg List.reverse hl
    rw [List.reverse_reverse] at hrev
    rw [hrev]
    simp
  · rintro ⟨pre, e, post, hl, hn, h3, h4, h5, h6⟩
    refine ⟨post.reverse, e, pre.reverse, ?_, fun x hx => hn x (by simpa using hx),
      h3, h4, h5, h6⟩
    subst hl
    simp

/-- C2 (amended): update-mode resolution uses only the most recent
id-matching history entry; it returns its source exactly when that source
is a real path (older matching entries are not consulted).  In update mode
`pull_content` never prints: it writes the resolved file when the parent
directory exists and otherwise exits with an explicit error, as it does
when resolution fails. -/
theorem c2_update_mode_resolution (history : List HEntry) (docId : String)
    (output : Option String) (parentExists : String → Bool) :
    (∀ p, findById history docId = some p ↔
      ∃ pre e post, history = pre ++ e :: post ∧
        (∀ x ∈ post, x.idVal ≠ some docId) ∧
        e.idVal = some docId ∧ e.source = some p ∧ p ≠ "" ∧ p ≠ "stdin") ∧
    pullDestination true output history docId parentExists ≠ .printedStdout ∧
    (findById history docId = none →
      pullDestination true output history docId parentExists = .errorExit) ∧
    (∀ p, findById history docId = some p → parentExists p = false →
      pullDestination true output history docId parentExists = .errorExit) ∧
    (∀ p, findById history docId = some p → parentExists p = true →
      pullDestination true output history docId parentExists = .updatedFile p) := by
  refine ⟨fun p => findById_some_iff history docId p, ?_, ?_, ?_, ?_⟩
  · cases hf : findById history docId with
    | none => simp [pullDestination, hf]
    | some sp =>
      by_cases hp : parentExists sp = true <;>
        simp [pullDestination, hf, hp]
  · intro hf; simp [pullDestination, hf]
  · intro p hf hp; simp [pullDestination, hf, hp]
  · intro p hf hp; simp [pullDestination, hf, hp]

/-- Concrete history for C2: the most recent entry for `"doc1"` records
`"stdin"`, while an older entry records a real path. -/
def c2HistEx : List HEntry :=
  [⟨some "doc1", some "Notes", some "/home/user/notes.md", some "u1",
      some "2024-01-01 10:00"⟩,
   ⟨some "doc1", some "Notes", some "stdin", some "u1",
      some "2024-01-02 10:00"⟩]

/-- Counterexample for C2 as stated: the claim (formalized by
`specFindById`, which lets older matching entries count) resolves to the
older real path, but the code returns `none`, and update mode error-exits
even though the older entry's path exists. -/
theorem c2_counterexample :
    specFindById c2HistEx "doc1" = some "/home/user/notes.md" ∧
    findById c2HistEx "doc1" = none ∧
    pullDestination true none c2HistEx "doc1" (fun _ => true) = .errorExit :=
  ⟨rfl, rfl, rfl⟩

/-- Witness for C2 (amended) at a concrete history with a real most-recent
entry. -/
theorem c2_update_mode_resolution_witness :
    (findById [(⟨some "doc1", some "Notes", some "/home/user/notes.md",
        some "u1", some "2024-01-01 10:00"⟩ : HEntry)] "doc1"
      = some "/home/user/notes.md") ∧
    pullDestination true none
      [(⟨some "doc1", some "Notes", some "/home/user/notes.md",
          some "u1", some "2024-01-01 10:00"⟩ : HEntry)] "doc1"
      (fun _ => true) = .updatedFile "/home/user/notes.md" :=
  ⟨rfl,
    (c2_update_mode_resolution
      [⟨some "doc1", some "Notes", some "/home/user/notes.md",
          some "u1", some "2024-01-01 10:00"⟩] "doc1" none
      (fun _ => true)).2.2.2.2 "/home/user/notes.md" rfl rfl⟩

/-! ## Markdown cleanup

Models `pull_content._clean_markdown` and `ingest.convert._clean_markdown`.
Each `re.sub` becomes an explicit scanner with Python's leftmost,
non-overlapping match semantics.  Scanners take a fuel argument (the input
length suffices) so that all definitions are structurally recursive and
compute by `rfl`. -/

/-- Python line-boundary characters used by `str.splitlines()`. -/
def isLineBreak (c : Char) : Bool :=
  c = '\n' || c = '\r' || c.toNat = 0x0b || c.toNat = 0x0c ||
  c.toNat = 0x1c || c.toNat = 0x1d || c.toNat = 0x1e || c.toNat = 0x85 ||
  c.toNat = 0x2028 || c.toNat = 0x2029

/-- Worker for `str.splitlines()`: accumulate the current line (reversed);
`\r\n` counts as a single boundary; a trailing boundary does not produce a
final empty line. -/
def splitGo : Nat → List Char → List Char → List (List Char)
  | _, cur, [] => [cur.reverse]
  | 0, cur, _ => [cur.reverse]
  | fuel + 1, cur, c :: rest =>
    if c = '\r' then
      match rest with
      | '\n' :: rest2 =>
        cur.reverse :: (if rest2.isEmpty then [] else splitGo fuel [] rest2)
      | _ =>
        cur.reverse :: (if rest.isEmpty then [] else splitGo fuel [] rest)
    else if isLineBreak c then
      cur.reverse :: (if rest.isEmpty then [] else splitGo fuel [] rest)
    else splitGo fuel (c :: cur) rest

/-- Python `str.splitlines()`. -/
def pySplitlines (s : List Char) : List (List Char) :=
  if s.isEmpty then [] else splitGo s.length [] s

/-- Python `str.rstrip()` (no argument: strip trailing whitespace). -/
def pyRstrip : List Char → List Char
  | [] => []
  | c :: rest =>
    let r := pyRstrip rest
    if r.isEmpty && isPySpace c then [] else c :: r

/-- Python `str.rstrip('\n')`. -/
def rstripNlEnd : List Char → List Char
  | [] => []
  | c :: rest =>
    let r := rstripNlEnd rest
    if r.isEmpty && c = '\n' then [] else c :: r

/-- Python `str.lstrip('\n')`. -/
def lstripNl (s : List Char) : List Char := s.dropWhile (· = '\n')

/-- `'\n'.join(lines)`. -/
def joinNl : List (List Char) → List Char
  | [] => []
  | [l] => l
  | l :: rest => l ++ '\n' :: joinNl rest

/-- `'\n'.join(line.rstrip() for line in md.splitlines())` (lines 119-121 /
159-161). -/
def rstripLines (s : List Char) : List Char :=
  joinNl ((pySplitlines s).map pyRstrip)

/-- Worker for `re.sub(r'\n{3,}', '\n\n', md)`: emit at most the first two
newlines of every newline run (`k` counts the newlines of the current run
already emitted or skipped). -/
def collapseGo : Nat → List Char → List Char
  | _, [] => []
  | k, c :: rest =>
    if c = '\n' then
      if k ≥ 2 then collapseGo (k + 1) rest
      else '\n' :: collapseGo (k + 1) rest
    else c :: collapseGo 0 rest

/-- `re.sub(r'\n{3,}', '\n\n', md)` (line 124 / 164). -/
def collapseBlankRuns (s : List Char) : List Char := collapseGo 0 s

/-- Match `tok \s* tok` at the head of `s`; on success return the
remainder after the match. -/
def emphMatch (tok : List Char) (s : List Char) : Option (List Char) :=
  if tok.isPrefixOf s then
    let t := (s.drop tok.length).dropWhile isPySpace
    if tok.isPrefixOf t then some (t.drop tok.length) else none
  else none

/-- Scanner for `re.sub(tok + r'\s*' + tok, '', md)` (empty-emphasis
removal, lines 127-129 / 167-168). -/
def scrubEmphGo (tok : List Char) : Nat → List Char → List Char
  | 0, s => s
  | _, [] => []
  | fuel + 1, c :: rest =>
    match emphMatch tok (c :: rest) with
    | some rem => scrubEmphGo tok fuel rem
    | none => c :: scrubEmphGo tok fuel rest

def scrubEmph (tok : List Char) (s : List Char) : List Char :=
  scrubEmphGo tok s.length s

/-- Match `\[([^\]]*)\]\(\s*\)` at the head of `s`; on success return the
captured text and the remainder. -/
def linkMatch (s : List Char) : Option (List Char × List Char) :=
  match s with
  | c0 :: rest =>
    if c0 = '[' then
      let text := rest.takeWhile (· ≠ ']')
      match rest.drop text.length with
      | ']' :: '(' :: rest2 =>
        match rest2.drop (rest2.takeWhile isPySpace).length with
        | ')' :: rem => some (text, rem)
        | _ => none
      | _ => none
    else none
  | _ => none

/-- Scanner for `re.sub(r'\[([^\]]*)\]\(\s*\)', r'\1', md)` (lines
132 / 171). -/
def collapseLinksGo : Nat → List Char → List Char
  | 0, s => s
  | _, [] => []
  | fuel + 1, c :: rest =>
    match linkMatch (c :: rest) with
    | some (text, rem) => text ++ collapseLinksGo fuel rem
    | none => c :: collapseLinksGo fuel rest

def collapseEmptyLinks (s : List Char) : List Char :=
  collapseLinksGo s.length s

/-- Match `!\[\]\([^)]*googleusercontent[^)]*\)` at the head of `s`. -/
def imageMatch (s : List Char) : Option (List Char) :=
  match s with
  | c0 :: c1 :: rest01 =>
    if c0 = '!' && c1 = '[' then
      match rest01 with
      | ']' :: '(' :: rest =>
        let inner := rest.takeWhile (· ≠ ')')
        match rest.drop inner.length with
        | ')' :: rem =>
          if containsSub inner "googleusercontent".toList then some rem else none
        | _ => none
      | _ => none
    else none
  | _ => none

/-- Scanner for the internal-image removal (line 135). -/
def scrubImagesGo : Nat → List Char → List Char
  | 0, s => s
  | _, [] => []
  | fuel + 1, c :: rest =>
    match imageMatch (c :: rest) with
    | some rem => scrubImagesGo fuel rem
    | none => c :: scrubImagesGo fuel rest

def scrubGoogleImages (s : List Char) : List Char :=
  scrubImagesGo s.length s

/-- Suffixes after each `(?:\s*\|)` loop iteration (greedy `\s*` then a
literal `|`), first iteration first. -/
def pipeIters : Nat → List Char → List (List Char)
  | 0, _ => []
  | fuel + 1, s =>
    match s.dropWhile isPySpace with
    | '|' :: r => r :: pipeIters fuel r
    | _ => []

/-- Index of the last `'\n'` in a list, if any. -/
def lastNlIdx (w : List Char) : Option Nat :=
  match w.reverse.findIdx? (· = '\n') with
  | some j => some (w.length - 1 - j)
  | none => none

/-- Tail `\s*$\n` of the pipe-row pattern with its backtracking: consume
the whitespace run up to and including its *last* newline (`$` matches
just before it); fail if the run has no newline. -/
def pipeTail (p : List Char) : Option (List Char) :=
  match lastNlIdx (p.takeWhile isPySpace) with
  | some i => some (p.drop (i + 1))
  | none => none

/-- Try the loop backtracking order: the most iterations first. -/
def firstPipeTail : List (List Char) → Option (List Char)
  | [] => none
  | p :: rest =>
    match pipeTail p with
    | some r => some r
    | none => firstPipeTail rest

/-- Match `^\|(?:\s*\|)+\s*$\n` at a line start. -/
def pipeRowMatch (s : List Char) : Option (List Char) :=
  match s with
  | c0 :: rest =>
    if c0 = '|' then firstPipeTail (pipeIters (rest.length + 1) rest).reverse
    else none
  | _ => none

/-- Scanner for `re.sub(r'^\|(?:\s*\|)+\s*$\n', '', md, flags=re.MULTILINE)`
(line 139).  `atStart` tracks whether the scanner sits at a line start
(`^`); a successful match ends right after a newline, hence at a line
start. -/
def scrubPipeRowsGo : Nat → Bool → List Char → List Char
  | 0, _, s => s
  | _, _, [] => []
  | fuel + 1, atStart, c :: rest =>
    if atStart then
      match pipeRowMatch (c :: rest) with
      | some rem => scrubPipeRowsGo fuel true rem
      | none => c :: scrubPipeRowsGo fuel (c = '\n') rest
    else c :: scrubPipeRowsGo fuel (c = '\n') rest

def scrubPipeRows (s : List Char) : List Char :=
  scrubPipeRowsGo s.length true s

/-- Characters of the `[-*_]` class of the horizontal-rule pattern. -/
def isRuleChar (c : Char) : Bool := c = '-' || c = '*' || c = '_'

/-- Match `^[\s]*[-*_]{3,}[\s]*$` at a line start.  Returns the remainder
after the match and whether that position is again a line start.  The
trailing `[\s]*$` backtracks: `$` matches at end of string (consuming the
whole trailing whitespace run) or just before the run's last newline
(consuming the run up to, excluding, that newline). -/
def hruleMatch (s : List Char) : Option (List Char × Bool) :=
  let afterW := s.drop (s.takeWhile isPySpace).length
  let r := afterW.takeWhile isRuleChar
  if r.length ≥ 3 then
    let afterR := afterW.drop r.length
    let t := afterR.takeWhile isPySpace
    match afterR.drop t.length with
    | [] => some ([], false)
    | _ =>
      match lastNlIdx t with
      | some i =>
        some (afterR.drop i, decide (1 ≤ i) && (t.getD (i - 1) ' ' = '\n'))
      | none => none
  else none

/-- Scanner for
`re.sub(r'^[\s]*[-*_]{3,}[\s]*$', '---', md, flags=re.MULTILINE)`
(line 142 / 174). -/
def normalizeHrulesGo : Nat → Bool → List Char → List Char
  | 0, _, s => s
  | _, _, [] => []
  | fuel + 1, atStart, c :: rest =>
    if atStart then
      match hruleMatch (c :: rest) with
      | some (rem, flag) => '-' :: '-' :: '-' :: normalizeHrulesGo fuel flag rem
      | none => c :: normalizeHrulesGo fuel (c = '\n') rest
    else c :: normalizeHrulesGo fuel (c = '\n') rest

def normalizeHrules (s : List Char) : List Char :=
  normalizeHrulesGo s.length true s

/-- `pull_content._clean_markdown` (lines 105-150). -/
def cleanMarkdownPull (md : List Char) : List Char :=
  let m1 := md.map (fun c => if c = '\u00A0' then ' ' else c)
  let m2 := m1.filter (fun c => c ≠ '\u200B')
  let m3 := m2.filter (fun c => c ≠ '\uFEFF')
  let m4 := rstripLines m3
  let m5 := collapseBlankRuns m4
  let m6 := scrubEmph ['*', '*'] m5
  let m7 := scrubEmph ['_'] m6
  let m8 := scrubEmph ['*'] m7
  let m9 := collapseEmptyLinks m8
  let m10 := scrubGoogleImages m9
  let m11 := scrubPipeRows m10
  let m12 := normalizeHrules m11
  let m13 := lstripNl m12
  rstripNlEnd m13 ++ ['\n']

/-- `ingest.convert._clean_markdown` (lines 153-181). -/
def cleanMarkdownIngest (md : List Char) : List Char :=
  let m1 := rstripLines md
  let m2 := collapseBlankRuns m1
  let m3 := scrubEmph ['*', '*'] m2
  let m4 := scrubEmph ['_', '_'] m3
  let m5 := collapseEmptyLinks m4
  let m6 := normalizeHrules m5
  let m7 := lstripNl m6
  rstripNlEnd m7 ++ ['\n']

/-! ### C3 / C4: counterexamples -/

/-- Counterexample to C3 as stated: `"a\n\n\nb"` contains a run of exactly
two blank lines; the claim says runs of exactly two blank lines are left
unchanged, but both cleanup variants collapse it to one blank line (the
regex counts newline characters, not blank lines). -/
theorem c3_counterexample :
    cleanMarkdownPull "a\n\n\nb".toList = "a\n\nb\n".toList ∧
    cleanMarkdownIngest "a\n\n\nb".toList = "a\n\nb\n".toList ∧
    collapseBlankRuns "a\n\n\nb".toList = "a\n\nb".toList :=
  ⟨rfl, rfl, rfl⟩

/-- Counterexample to C4 as stated: cleanup is not idempotent.  For the
pull variant, collapsing the empty links in `"[*]()[*]()"` creates `"**"`,
which only a second pass removes; for the ingest variant, removing
`"__ __"` from `"a __ __"` leaves trailing whitespace that only a second
pass strips. -/
theorem c4_counterexample :
    cleanMarkdownPull "[*]()[*]()".toList = "**\n".toList ∧
    cleanMarkdownPull (cleanMarkdownPull "[*]()[*]()".toList) = "\n".toList ∧
    cleanMarkdownPull (cleanMarkdownPull "[*]()[*]()".toList)
      ≠ cleanMarkdownPull "[*]()[*]()".toList ∧
    cleanMarkdownIngest "a __ __".toList = "a \n".toList ∧
    cleanMarkdownIngest (cleanMarkdownIngest "a __ __".toList) = "a\n".toList ∧
    cleanMarkdownIngest (cleanMarkdownIngest "a __ __".toList)
      ≠ cleanMarkdownIngest "a __ __".toList :=
  ⟨rfl, rfl, by decide, rfl, rfl, by decide⟩

/-! ### C3 (amended): exact behaviour of the newline-run collapse -/

theorem collapseGo_nl_high {k : Nat} (hk : 2 ≤ k) (rest : List Char) :
    collapseGo k ('\n' :: rest) = collapseGo (k + 1) rest := by
  simp [collapseGo, hk]

theorem collapseGo_nl_low {k : Nat} (hk : ¬ 2 ≤ k) (rest : List Char) :
    collapseGo k ('\n' :: rest) = '\n' :: collapseGo (k + 1) rest := by
  simp [collapseGo, hk]

theorem collapseGo_cons_ne {c : Char} (hc : c ≠ '\n') (k : Nat)
    (rest : List Char) : collapseGo k (c :: rest) = c :: collapseGo 0 rest := by
  simp [collapseGo, hc]

theorem collapseGo_nlFree :
    ∀ (t : List Char), (∀ c ∈ t, c ≠ '\n') → ∀ k, collapseGo k t = t
  | [], _, _ => rfl
  | c :: rest, h, k => by
    rw [collapseGo_cons_ne (h c (by simp)) k rest,
      collapseGo_nlFree rest (fun x hx => h x (by simp [hx])) 0]

theorem collapseGo_skip :
    ∀ (n k : Nat) (b : List Char), 2 ≤ k → (∀ c ∈ b, c ≠ '\n') →
      collapseGo k (List.replicate n '\n' ++ b) = b
  | 0, k, b, hk, hb => by
    simpa using collapseGo_nlFree b hb k
  | n + 1, k, b, hk, hb => by
    rw [List.replicate_succ, List.cons_append, collapseGo_nl_high hk]
    exact collapseGo_skip n (k + 1) b (by omega) hb

theorem collapseGo_run1 (m : Nat) (b : List Char) (hb : ∀ c ∈ b, c ≠ '\n') :
    collapseGo 1 (List.replicate m '\n' ++ b)
      = List.replicate (min m 1) '\n' ++ b := by
  cases m with
  | zero => simpa using collapseGo_nlFree b hb 1
  | succ m =>
    rw [List.replicate_succ, List.cons_append,
      collapseGo_nl_low (by omega), collapseGo_skip m 2 b (by omega) hb]
    rw [Nat.min_eq_right (by omega : 1 ≤ m + 1)]
    rfl

theorem collapseGo_run0 (n : Nat) (b : List Char) (hb : ∀ c ∈ b, c ≠ '\n') :
    collapseGo 0 (List.replicate n '\n' ++ b)
      = List.replicate (min n 2) '\n' ++ b := by
  cases n with
  | zero => simpa using collapseGo_nlFree b hb 0
  | succ n =>
    rw [List.replicate_succ, List.cons_append,
      collapseGo_nl_low (by omega), collapseGo_run1 n b hb]
    rw [show min (n + 1) 2 = 1 + min n 1 by omega, List.replicate_add]
    simp

theorem collapseGo_prefix :
    ∀ (a rest : List Char), (∀ c ∈ a, c ≠ '\n') →
      collapseGo 0 (a ++ rest) = a ++ collapseGo 0 rest
  | [], rest, _ => by simp
  | c :: a', rest, h => by
    rw [List.cons_append, collapseGo_cons_ne (h c (by simp)),
      collapseGo_prefix a' rest (fun x hx => h x (by simp [hx])),
      List.cons_append]

/-- C3 (amended): the collapse step rewrites each maximal run of `n ≥ 3`
newline characters to exactly two newlines — so two or more consecutive
blank lines become exactly one blank line — and leaves runs of at most two
newlines (at most one blank line) unchanged. -/
theorem c3_collapse_newline_runs (a b : List Char) (n : Nat)
    (ha : ∀ c ∈ a, c ≠ '\n') (hb : ∀ c ∈ b, c ≠ '\n') :
    collapseBlankRuns (a ++ List.replicate n '\n' ++ b)
      = a ++ List.replicate (min n 2) '\n' ++ b := by
  rw [collapseBlankRuns, List.append_assoc, collapseGo_prefix a _ ha,
    collapseGo_run0 n b hb, List.append_assoc]

/-- Witness for C3 (amended): a run of four newlines (three blank lines)
between `'a'` and `'b'` collapses to exactly two newlines. -/
theorem c3_collapse_newline_runs_witness :
    (∀ c ∈ ['a'], c ≠ '\n') ∧ (∀ c ∈ ['b'], c ≠ '\n') ∧
    collapseBlankRuns (['a'] ++ List.replicate 4 '\n' ++ ['b'])
      = ['a'] ++ List.replicate (min 4 2) '\n' ++ ['b'] :=
  ⟨by decide, by decide,
    c3_collapse_newline_runs ['a'] ['b'] 4 (by decide) (by decide)⟩

/-! ### C4 (amended): idempotence on markup-free text

The cleanup transforms are not idempotent in general (see
`c4_counterexample`), but they are idempotent on text made of ordinary
characters: printable ASCII plus tab and newline, without the markup
characters `* _ [ | -` that drive the artifact-rewriting substitutions. -/

/-- Ordinary text characters: newline, tab, printable ASCII except the
markup characters `* _ [ | -`. -/
def tameChar (c : Char) : Bool :=
  c = '\n' || c = '\t' ||
  (32 ≤ c.toNat && c.toNat ≤ 126 &&
    !(c = '*' || c = '_' || c = '[' || c = '|' || c = '-'))

theorem tameChar_props {c : Char} (h : tameChar c = true) :
    c ≠ '*' ∧ c ≠ '_' ∧ c ≠ '[' ∧ c ≠ '|' ∧ isRuleChar c = false ∧
    (isLineBreak c = true → c = '\n') ∧
    c ≠ '\u00A0' ∧ c ≠ '\u200B' ∧ c ≠ '\uFEFF' := by
  simp only [tameChar, Bool.or_eq_true, Bool.and_eq_true, decide_eq_true_eq,
    Bool.not_eq_true', Bool.or_eq_false_iff, decide_eq_false_iff_not] at h
  rcases h with (h | h) | h
  · subst h
    refine ⟨by decide, by decide, by decide, by decide, by decide,
      fun _ => rfl, by decide, by decide, by decide⟩
  · subst h
    refine ⟨by decide, by decide, by decide, by decide, by decide,
      ?_, by decide, by decide, by decide⟩
    intro hb; exact absurd hb (by decide)
  · have hA : 32 ≤ c.toNat := by tauto
    have hB : c.toNat ≤ 126 := by tauto
    have h3 : ¬ c = '*' := by tauto
    have h4 : ¬ c = '_' := by tauto
    have h5 : ¬ c = '[' := by tauto
    have h6 : ¬ c = '|' := by tauto
    have h7 : ¬ c = '-' := by tauto
    refine ⟨h3, h4, h5, h6, by simp [isRuleChar, h3, h4, h7], ?_, ?_, ?_, ?_⟩
    · intro hb
      simp only [isLineBreak, Bool.or_eq_true, decide_eq_true_eq] at hb
      rcases hb with (((((((((hb | hb) | hb) | hb) | hb) | hb) | hb) | hb) | hb) | hb)
      · exact hb
      · subst hb; exact absurd hA (by decide)
      · exact absurd hb (by omega)
      · exact absurd hb (by omega)
      · exact absurd hb (by omega)
      · exact absurd hb (by omega)
      · exact absurd hb (by omega)
      · exact absurd hb (by omega)
      · exact absurd hb (by omega)
      · exact absurd hb (by omega)
    · intro he; subst he; exact absurd hB (by decide)
    · intro he; subst he; exact absurd hB (by decide)
    · intro he; subst he; exact absurd hB (by decide)

section NoopScanners

/- `isPySpace` and `lastNlIdx` are only used abstractly in the proofs
below; keeping them reducible makes `whnf` explore their numeric
comparisons and blow up. -/
attribute [local irreducible] isPySpace lastNlIdx

/-! Scanner no-op lemmas: without its trigger character each substitution
scanner is the identity. -/

theorem emphMatch_none {h0 : Char} {t0 s : List Char}
    (h : ∀ c ∈ s, c ≠ h0) : emphMatch (h0 :: t0) s = none := by
  cases s with
  | nil => rfl
  | cons c rest =>
    have hc : (h0 == c) = false := by
      simp [h c (by simp)]
      exact fun he => absurd he.symm (h c (by simp))
    simp [emphMatch, List.isPrefixOf, hc]

theorem scrubEmphGo_id {h0 : Char} {t0 : List Char} :
    ∀ (fuel : Nat) (s : List Char), (∀ c ∈ s, c ≠ h0) →
      scrubEmphGo (h0 :: t0) fuel s = s
  | 0, s, _ => by cases s <;> rfl
  | _ + 1, [], _ => rfl
  | fuel + 1, c :: rest, h => by
    rw [scrubEmphGo, emphMatch_none h]
    rw [scrubEmphGo_id fuel rest (fun x hx => h x (by simp [hx]))]

theorem linkMatch_none : ∀ {s : List Char}, (∀ c ∈ s, c ≠ '[') →
    linkMatch s = none := by
  intro s h
  cases s with
  | nil => rfl
  | cons c rest => simp [linkMatch, h c (by simp)]

theorem collapseLinksGo_id :
    ∀ (fuel : Nat) (s : List Char), (∀ c ∈ s, c ≠ '[') →
      collapseLinksGo fuel s = s
  | 0, s, _ => by cases s <;> rfl
  | _ + 1, [], _ => rfl
  | fuel + 1, c :: rest, h => by
    rw [collapseLinksGo, linkMatch_none h]
    rw [collapseLinksGo_id fuel rest (fun x hx => h x (by simp [hx]))]

theorem imageMatch_none : ∀ {s : List Char}, (∀ c ∈ s, c ≠ '[') →
    imageMatch s = none := by
  intro s h
  match s with
  | [] => rfl
  | [c0] => rfl
  | c0 :: c1 :: rest01 =>
    have h1 : c1 ≠ '[' := h c1 (by simp)
    simp [imageMatch, h1]

theorem scrubImagesGo_id :
    ∀ (fuel : Nat) (s : List Char), (∀ c ∈ s, c ≠ '[') →
      scrubImagesGo fuel s = s
  | 0, s, _ => by cases s <;> rfl
  | _ + 1, [], _ => rfl
  | fuel + 1, c :: rest, h => by
    rw [scrubImagesGo, imageMatch_none h]
    rw [scrubImagesGo_id fuel rest (fun x hx => h x (by simp [hx]))]

theorem pipeRowMatch_none : ∀ {s : List Char}, (∀ c ∈ s, c ≠ '|') →
    pipeRowMatch s = none := by
  intro s h
  cases s with
  | nil => rfl
  | cons c rest => simp [pipeRowMatch, h c (by simp)]

theorem scrubPipeRowsGo_id :
    ∀ (fuel : Nat) (flag : Bool) (s : List Char), (∀ c ∈ s, c ≠ '|') →
      scrubPipeRowsGo fuel flag s = s
  | 0, _, s, _ => by cases s <;> rfl
  | _ + 1, _, [], _ => rfl
  | fuel + 1, flag, c :: rest, h => by
    have ih := scrubPipeRowsGo_id fuel (c = '\n') rest
      (fun x hx => h x (by simp [hx]))
    have hm : pipeRowMatch (c :: rest) = none := pipeRowMatch_none h
    cases flag with
    | true => simp [scrubPipeRowsGo, hm, ih]
    | false => simp [scrubPipeRowsGo, ih]

theorem hruleMatch_none : ∀ {s : List Char}, (∀ c ∈ s, isRuleChar c = false) →
    hruleMatch s = none := by
  intro s h
  have hlen : ((s.drop (s.takeWhile isPySpace).length).takeWhile isRuleChar).length = 0 := by
    cases hd : s.drop (s.takeWhile isPySpace).length with
    | nil => simp
    | cons c rest =>
      have hc : c ∈ s := by
        have hm : c ∈ s.drop (s.takeWhile isPySpace).length := by rw [hd]; simp
        exact List.mem_of_mem_drop hm
      simp [List.takeWhile, h c hc]
  simp [hruleMatch, hlen]

theorem normalizeHrulesGo_id :
    ∀ (fuel : Nat) (flag : Bool) (s : List Char),
      (∀ c ∈ s, isRuleChar c = false) →
      normalizeHrulesGo fuel flag s = s
  | 0, _, s, _ => by cases s <;> rfl
  | _ + 1, _, [], _ => rfl
  | fuel + 1, flag, c :: rest, h => by
    have ih := normalizeHrulesGo_id fuel (c = '\n') rest
      (fun x hx => h x (by simp [hx]))
    have hm : hruleMatch (c :: rest) = none := hruleMatch_none h
    cases flag with
    | true => simp [normalizeHrulesGo, hm, ih]
    | false => simp [normalizeHrulesGo, ih]

theorem map_id_of_ne {x y : Char} :
    ∀ (s : List Char), (∀ c ∈ s, c ≠ x) →
      s.map (fun c => if c = x then y else c) = s
  | [], _ => rfl
  | c :: rest, h => by
    simp only [List.map_cons, if_neg (h c (by simp))]
    rw [map_id_of_ne rest (fun z hz => h z (by simp [hz]))]

theorem filter_id_of_ne {x : Char} :
    ∀ (s : List Char), (∀ c ∈ s, c ≠ x) →
      s.filter (fun c => c ≠ x) = s
  | [], _ => rfl
  | c :: rest, h => by
    have hc : c ≠ x := h c (by simp)
    have ih := filter_id_of_ne rest (fun z hz => h z (by simp [hz]))
    rw [List.filter_cons, if_pos (by simp [hc]), ih]

end NoopScanners

/-! Machinery for the idempotence proof: the `'\n'`-split view of a string
and two invariants of cleaned text — `wsokB` (no whitespace dangling
before a newline or before the end) and `noTriple` (no three consecutive
newlines). -/

/-- The `'\n'`-split view of a string (always a non-empty list of
newline-free lines). -/
def splitNl : List Char → List (List Char)
  | [] => [[]]
  | c :: rest =>
    if c = '\n' then [] :: splitNl rest
    else
      match splitNl rest with
      | l :: ls => (c :: l) :: ls
      | [] => [[c]]

theorem splitNl_ne_nil : ∀ (t : List Char), splitNl t ≠ []
  | [] => by simp [splitNl]
  | c :: rest => by
    by_cases hc : c = '\n'
    · simp [splitNl, hc]
    · simp only [splitNl, hc, if_false]
      cases h : splitNl rest <;> simp

theorem joinNl_splitNl : ∀ (t : List Char), joinNl (splitNl t) = t
  | [] => rfl
  | c :: rest => by
    have ih := joinNl_splitNl rest
    by_cases hc : c = '\n'
    · subst hc
      simp only [splitNl, if_pos rfl]
      cases h : splitNl rest with
      | nil => exact absurd h (splitNl_ne_nil rest)
      | cons l ls =>
        rw [h] at ih
        simp [joinNl, ← ih]
    · simp only [splitNl, hc, if_false]
      cases h : splitNl rest with
      | nil => exact absurd h (splitNl_ne_nil rest)
      | cons l ls =>
        rw [h] at ih
        cases ls with
        | nil => simpa [joinNl] using congrArg (c :: ·) ih
        | cons l2 ls2 => simpa [joinNl] using congrArg (c :: ·) ih

theorem nlFree_mem_splitNl :
    ∀ (t : List Char) (l : List Char), l ∈ splitNl t → '\n' ∉ l
  | [], l, hl => by
    have h : l = [] := by simpa [splitNl] using hl
    subst h; simp
  | c :: rest, l, hl => by
    by_cases hc : c = '\n'
    · subst hc
      have heq : splitNl ('\n' :: rest) = [] :: splitNl rest := by
        simp [splitNl]
      rw [heq] at hl
      rcases List.mem_cons.mp hl with h2 | h2
      · subst h2; simp
      · exact nlFree_mem_splitNl rest l h2
    · cases h : splitNl rest with
      | nil => exact absurd h (splitNl_ne_nil rest)
      | cons l1 ls =>
        have heq : splitNl (c :: rest) = (c :: l1) :: ls := by
          simp [splitNl, hc, h]
        rw [heq] at hl
        rcases List.mem_cons.mp hl with h2 | h2
        · subst h2
          intro hmem
          rcases List.mem_cons.mp hmem with he | he
          · exact hc he.symm
          · exact nlFree_mem_splitNl rest l1 (h ▸ List.mem_cons_self l1 ls) he
        · exact nlFree_mem_splitNl rest l (h ▸ List.mem_cons.mpr (Or.inr h2))

/-- Characters that only break lines at `'\n'`. -/
def onlyNlBreaks (t : List Char) : Prop :=
  ∀ c ∈ t, isLineBreak c = true → c = '\n'

theorem splitGo_only_nl :
    ∀ (u : List Char) (fuel : Nat) (acc : List Char),
      u.length < fuel → onlyNlBreaks u →
      ∃ l ls, splitNl u = l :: ls ∧
        splitGo fuel acc (u ++ ['\n']) = (acc.reverse ++ l) :: ls
  | [], fuel, acc, hf, _ => by
    obtain ⟨f, rfl⟩ : ∃ f, fuel = f + 1 := ⟨fuel - 1, by omega⟩
    refine ⟨[], [], rfl, ?_⟩
    have h1 : ('\n' : Char) ≠ '\r' := by decide
    have h2 : isLineBreak '\n' = true := by decide
    simp [splitGo, h1, h2]
  | c :: u', fuel, acc, hf, honly => by
    obtain ⟨f, rfl⟩ : ∃ f, fuel = f + 1 := ⟨fuel - 1, by omega⟩
    have hf' : u'.length < f := by
      simp only [List.length_cons] at hf; omega
    by_cases hc : c = '\n'
    · subst hc
      obtain ⟨l, ls, hs, hg⟩ := splitGo_only_nl u' f [] hf'
        (fun x hx hb => honly x (by simp [hx]) hb)
      refine ⟨[], l :: ls, by simp [splitNl, hs], ?_⟩
      have h1 : ('\n' : Char) ≠ '\r' := by decide
      have h2 : isLineBreak '\n' = true := by decide
      have hne : (u' ++ ['\n']).isEmpty = false := by
        cases u' <;> simp
      simp [splitGo, h1, h2, hne, hg]
    · have hcr : c ≠ '\r' := by
        intro he
        exact absurd (honly c (by simp) (by rw [he]; decide)) (by
          rw [he] at hc ⊢; exact hc)
      have hbr : isLineBreak c = false := by
        cases hb : isLineBreak c
        · rfl
        · exact absurd (honly c (by simp) hb) hc
      obtain ⟨l, ls, hs, hg⟩ := splitGo_only_nl u' f (c :: acc) hf'
        (fun x hx hb => honly x (by simp [hx]) hb)
      refine ⟨c :: l, ls, by simp [splitNl, hc, hs], ?_⟩
      rw [List.cons_append]
      rw [show splitGo (f + 1) acc (c :: (u' ++ ['\n']))
            = splitGo f (c :: acc) (u' ++ ['\n']) by
          simp [splitGo, hcr, hbr]]
      rw [hg]
      simp

theorem pySplitlines_append_nl (t : List Char) (h : onlyNlBreaks t) :
    pySplitlines (t ++ ['\n']) = splitNl t := by
  obtain ⟨l, ls, hs, hg⟩ :=
    splitGo_only_nl t (t.length + 1) [] (by omega) h
  have hne : (t ++ ['\n']).isEmpty = false := by cases t <;> simp
  rw [pySplitlines]
  simp only [hne, Bool.false_eq_true, if_false]
  rw [show (t ++ ['\n']).length = t.length + 1 by simp]
  rw [hg, hs]
  simp

/-- `t` has no non-newline whitespace immediately before a `'\n'` or at
the end (the shape `'\n'.join(rstripped lines)` guarantees). -/
def wsokB : List Char → Bool
  | [] => true
  | [c] => !(isPySpace c && !(c = '\n'))
  | c :: c2 :: rest =>
    !(isPySpace c && !(c = '\n') && (c2 = '\n')) && wsokB (c2 :: rest)

/-- `t` has no three consecutive newline characters. -/
def noTriple : List Char → Bool
  | c1 :: c2 :: c3 :: rest =>
    !((c1 = '\n') && (c2 = '\n') && (c3 = '\n')) && noTriple (c2 :: c3 :: rest)
  | _ => true

/-- Number of leading `'\n'` characters. -/
def countHeadNl (t : List Char) : Nat := (t.takeWhile (· = '\n')).length

/-- The first character, if any, is not `'\n'`. -/
def noHeadNl : List Char → Bool
  | [] => true
  | c :: _ => !(c = '\n')

/-- The last character, if any, is not `'\n'`. -/
def noTailNl : List Char → Bool
  | [] => true
  | [c] => !(c = '\n')
  | _ :: rest => noTailNl rest

/-- The whitespace core shared by both cleanup pipelines: per-line rstrip,
blank-run collapsing, and edge trimming (the markup scrubbers between
these steps are no-ops on tame text). -/
def coreClean (s : List Char) : List Char :=
  rstripNlEnd (lstripNl (collapseBlankRuns (rstripLines s)))

theorem countHeadNl_cons_nl (t : List Char) :
    countHeadNl ('\n' :: t) = countHeadNl t + 1 := by
  simp [countHeadNl, List.takeWhile_cons]

theorem countHeadNl_cons_ne {c : Char} (hc : ¬ c = '\n') (t : List Char) :
    countHeadNl (c :: t) = 0 := by
  simp [countHeadNl, List.takeWhile_cons, hc]

theorem wsok_tail {c : Char} {rest : List Char}
    (h : wsokB (c :: rest) = true) : wsokB rest = true := by
  cases rest with
  | nil => simp [wsokB]
  | cons c2 r =>
    simp only [wsokB, Bool.and_eq_true] at h
    exact h.2

theorem wsok_head {c c2 : Char} {r : List Char}
    (h : wsokB (c :: c2 :: r) = true) :
    (isPySpace c && !(c = '\n') && (c2 = '\n')) = false := by
  simp only [wsokB, Bool.and_eq_true, Bool.not_eq_true'] at h
  simp only [Bool.and_eq_false_iff] at h ⊢
  rcases h.1 with h1 | h1
  · exact Or.inl h1
  · exact Or.inr h1

theorem wsok_cons_nl : ∀ {t : List Char}, wsokB t = true →
    wsokB ('\n' :: t) = true := by
  intro t h
  cases t with
  | nil => simp [wsokB]
  | cons c2 r => simp [wsokB, h]

theorem noTriple_tail {c : Char} {t : List Char}
    (h : noTriple (c :: t) = true) : noTriple t = true := by
  cases t with
  | nil => rfl
  | cons x r =>
    cases r with
    | nil => rfl
    | cons y r' =>
      simp only [noTriple, Bool.and_eq_true] at h
      exact h.2

theorem noTriple_cons_of_ne {c : Char} {X : List Char} (hc : ¬ c = '\n')
    (h : noTriple X = true) : noTriple (c :: X) = true := by
  cases X with
  | nil => rfl
  | cons x r =>
    cases r with
    | nil => rfl
    | cons y r' => simp [noTriple, hc, h]

theorem noTriple_cons_nl_of_head {X : List Char}
    (hcount : countHeadNl X ≤ 1) (h : noTriple X = true) :
    noTriple ('\n' :: X) = true := by
  cases X with
  | nil => rfl
  | cons x r =>
    cases r with
    | nil => rfl
    | cons y r' =>
      by_cases hx : x = '\n'
      · subst hx
        by_cases hy : y = '\n'
        · exfalso
          rw [hy, countHeadNl_cons_nl, countHeadNl_cons_nl] at hcount
          omega
        · simp [noTriple, hy, h]
      · simp [noTriple, hx, h]

theorem pyRstrip_idem : ∀ (l : List Char), pyRstrip (pyRstrip l) = pyRstrip l
  | [] => rfl
  | c :: rest => by
    simp only [pyRstrip]
    split
    · rfl
    next hb =>
      simp only [pyRstrip, pyRstrip_idem rest]
      rw [if_neg hb]

theorem mem_pyRstrip : ∀ {l : List Char} {c : Char}, c ∈ pyRstrip l → c ∈ l := by
  intro l
  induction l with
  | nil => intro c hc; simpa [pyRstrip] using hc
  | cons x rest ih =>
    intro c hc
    simp only [pyRstrip] at hc
    split at hc
    · simp at hc
    · rcases List.mem_cons.mp hc with rfl | hc
      · exact List.mem_cons_self _ _
      · exact List.mem_cons.mpr (Or.inr (ih hc))

theorem rstripNlEnd_peel {t : List Char} {d : Char} {X : List Char}
    (h : rstripNlEnd t = d :: X) : ∃ t', t = d :: t' ∧ rstripNlEnd t' = X := by
  cases t with
  | nil => exact absurd h (by simp [rstripNlEnd])
  | cons c rest =>
    simp only [rstripNlEnd] at h
    split at h
    · exact absurd h (by simp)
    · injection h with h1 h2
      exact ⟨rest, by rw [h1], h2⟩

theorem rstripNlEnd_nil_all :
    ∀ (t : List Char), rstripNlEnd t = [] → ∀ c ∈ t, c = '\n'
  | [], _, c, hc => absurd hc (by simp)
  | c0 :: rest, h, c, hc => by
    simp only [rstripNlEnd] at h
    split at h
    next hb =>
      simp only [Bool.and_eq_true, List.isEmpty_iff, decide_eq_true_eq] at hb
      rcases List.mem_cons.mp hc with rfl | hmem
      · exact hb.2
      · exact rstripNlEnd_nil_all rest hb.1 c hmem
    next hb => exact absurd h (List.cons_ne_nil _ _)

theorem mem_rstripNlEnd : ∀ {t : List Char} {c : Char},
    c ∈ rstripNlEnd t → c ∈ t := by
  intro t
  induction t with
  | nil => intro c hc; simpa [rstripNlEnd] using hc
  | cons x rest ih =>
    intro c hc
    simp only [rstripNlEnd] at hc
    split at hc
    · simp at hc
    · rcases List.mem_cons.mp hc with rfl | hc
      · exact List.mem_cons_self _ _
      · exact List.mem_cons.mpr (Or.inr (ih hc))

theorem rstripNlEnd_cons (c : Char) (rest : List Char) :
    rstripNlEnd (c :: rest) =
      if ((rstripNlEnd rest).isEmpty && (c = '\n' : Bool)) = true then []
      else c :: rstripNlEnd rest := rfl

theorem rstripNlEnd_id_of_noTailNl :
    ∀ (t : List Char), noTailNl t = true → rstripNlEnd t = t
  | [], _ => rfl
  | [c], h => by
    simp only [noTailNl, Bool.not_eq_true', decide_eq_false_iff_not] at h
    simp [rstripNlEnd, h]
  | c :: d :: rest, h => by
    have htail : noTailNl (d :: rest) = true := h
    have ih := rstripNlEnd_id_of_noTailNl (d :: rest) htail
    rw [rstripNlEnd_cons, ih]
    simp

theorem noTailNl_rstripNlEnd : ∀ (t : List Char), noTailNl (rstripNlEnd t) = true
  | [] => rfl
  | c :: rest => by
    simp only [rstripNlEnd]
    split
    · rfl
    next hb =>
      have ih := noTailNl_rstripNlEnd rest
      cases hR : rstripNlEnd rest with
      | nil =>
        rw [hR] at hb
        simp only [List.isEmpty_nil, Bool.true_and] at hb
        simp [noTailNl, hb]
      | cons d R' =>
        rw [hR] at ih
        simpa [noTailNl] using ih

theorem mem_collapseGo : ∀ (k : Nat) (t : List Char) (c : Char),
    c ∈ collapseGo k t → c ∈ t
  | _, [], c, hc => by simpa [collapseGo] using hc
  | k, x :: rest, c, hc => by
    by_cases hx : x = '\n'
    · subst hx
      by_cases hk : 2 ≤ k
      · rw [collapseGo_nl_high hk] at hc
        exact List.mem_cons.mpr (Or.inr (mem_collapseGo (k + 1) rest c hc))
      · rw [collapseGo_nl_low hk] at hc
        rcases List.mem_cons.mp hc with rfl | hc
        · exact List.mem_cons_self _ _
        · exact List.mem_cons.mpr (Or.inr (mem_collapseGo (k + 1) rest c hc))
    · rw [collapseGo_cons_ne hx] at hc
      rcases List.mem_cons.mp hc with rfl | hc
      · exact List.mem_cons_self _ _
      · exact List.mem_cons.mpr (Or.inr (mem_collapseGo 0 rest c hc))

theorem mem_lstripNl {t : List Char} {c : Char} (hc : c ∈ lstripNl t) :
    c ∈ t :=
  (List.dropWhile_sublist _).subset hc

theorem mem_joinNl : ∀ (ls : List (List Char)) (c : Char),
    c ∈ joinNl ls → c = '\n' ∨ ∃ l ∈ ls, c ∈ l
  | [], c, hc => by simp [joinNl] at hc
  | [l], c, hc => Or.inr ⟨l, by simp, by simpa [joinNl] using hc⟩
  | l :: l2 :: rest, c, hc => by
    rw [show joinNl (l :: l2 :: rest) = l ++ '\n' :: joinNl (l2 :: rest)
      from rfl] at hc
    rcases List.mem_append.mp hc with hc | hc
    · exact Or.inr ⟨l, by simp, hc⟩
    · rcases List.mem_cons.mp hc with rfl | hc
      · exact Or.inl rfl
      · rcases mem_joinNl (l2 :: rest) c hc with h | ⟨l', hl', hcl'⟩
        · exact Or.inl h
        · exact Or.inr ⟨l', List.mem_cons.mpr (Or.inr hl'), hcl'⟩

theorem splitGo_nil (fuel : Nat) (cur : List Char) :
    splitGo fuel cur [] = [cur.reverse] := by
  cases fuel <;> rfl

theorem splitGo_zero (cur s : List Char) : splitGo 0 cur s = [cur.reverse] := by
  cases s <;> rfl

theorem splitGo_crlf (fuel : Nat) (cur rest2 : List Char) :
    splitGo (fuel + 1) cur ('\r' :: '\n' :: rest2) =
      cur.reverse :: (if rest2.isEmpty then [] else splitGo fuel [] rest2) :=
  rfl

theorem splitGo_cr_nil (fuel : Nat) (cur : List Char) :
    splitGo (fuel + 1) cur ['\r'] = [cur.reverse] := rfl

theorem splitGo_cr_other (fuel : Nat) (cur : List Char) {r0 : Char}
    (h : ¬ r0 = '\n') (rest2 : List Char) :
    splitGo (fuel + 1) cur ('\r' :: r0 :: rest2) =
      cur.reverse :: splitGo fuel [] (r0 :: rest2) := by
  rw [splitGo, if_pos rfl]
  split
  next hemp => simp at hemp
  next => rfl
  intro rest2' heq2
  injection heq2 with h1 h2
  exact h h1

theorem splitGo_break (fuel : Nat) (cur : List Char) {c : Char}
    (hcr : ¬ c = '\r') (hb : isLineBreak c = true) (rest : List Char) :
    splitGo (fuel + 1) cur (c :: rest) =
      cur.reverse :: (if rest.isEmpty then [] else splitGo fuel [] rest) := by
  simp [splitGo, hcr, hb]

theorem splitGo_char (fuel : Nat) (cur : List Char) {c : Char}
    (hcr : ¬ c = '\r') (hb : isLineBreak c = false) (rest : List Char) :
    splitGo (fuel + 1) cur (c :: rest) = splitGo fuel (c :: cur) rest := by
  simp [splitGo, hcr, hb]

/-- Every character of every line produced by the `splitlines` worker
comes from the accumulator or the input, and is not a line break. -/
theorem splitGo_lines :
    ∀ (fuel : Nat) (cur s : List Char),
      (∀ c ∈ cur, isLineBreak c = false) →
      ∀ l ∈ splitGo fuel cur s, ∀ c ∈ l,
        (c ∈ cur ∨ c ∈ s) ∧ isLineBreak c = false
  | 0, cur, s, hcur, l, hl, c, hc => by
    rw [splitGo_zero] at hl
    simp only [List.mem_singleton] at hl
    subst hl
    have := List.mem_reverse.mp hc
    exact ⟨Or.inl this, hcur c this⟩
  | fuel + 1, cur, s, hcur, l, hl, c, hc => by
    cases s with
    | nil =>
      rw [splitGo_nil] at hl
      simp only [List.mem_singleton] at hl
      subst hl
      have := List.mem_reverse.mp hc
      exact ⟨Or.inl this, hcur c this⟩
    | cons c0 rest =>
      by_cases hcr : c0 = '\r'
      · subst hcr
        cases rest with
        | nil =>
          rw [splitGo_cr_nil] at hl
          simp only [List.mem_singleton] at hl
          subst hl
          have := List.mem_reverse.mp hc
          exact ⟨Or.inl this, hcur c this⟩
        | cons r0 rest2 =>
          by_cases hr0 : r0 = '\n'
          · subst hr0
            rw [splitGo_crlf] at hl
            rcases List.mem_cons.mp hl with rfl | hl
            · have := List.mem_reverse.mp hc
              exact ⟨Or.inl this, hcur c this⟩
            · split at hl
              · simp at hl
              · have := splitGo_lines fuel [] rest2 (by simp) l hl c hc
                rcases this.1 with h0 | h0
                · simp at h0
                · exact ⟨Or.inr (by simp [h0]), this.2⟩
          · rw [splitGo_cr_other fuel cur hr0 rest2] at hl
            rcases List.mem_cons.mp hl with rfl | hl
            · have := List.mem_reverse.mp hc
              exact ⟨Or.inl this, hcur c this⟩
            · have := splitGo_lines fuel [] (r0 :: rest2) (by simp) l hl c hc
              rcases this.1 with h0 | h0
              · simp at h0
              · exact ⟨Or.inr (by simp [List.mem_cons.mp h0]), this.2⟩
      · cases hb : isLineBreak c0 with
        | true =>
          rw [splitGo_break fuel cur hcr hb] at hl
          rcases List.mem_cons.mp hl with rfl | hl
          · have := List.mem_reverse.mp hc
            exact ⟨Or.inl this, hcur c this⟩
          · split at hl
            · simp at hl
            · have := splitGo_lines fuel [] rest (by simp) l hl c hc
              rcases this.1 with h0 | h0
              · simp at h0
              · exact ⟨Or.inr (by simp [h0]), this.2⟩
        | false =>
          rw [splitGo_char fuel cur hcr hb] at hl
          have hcur' : ∀ x ∈ c0 :: cur, isLineBreak x = false := by
            intro x hx
            rcases List.mem_cons.mp hx with rfl | hx
            · exact hb
            · exact hcur x hx
          have := splitGo_lines fuel (c0 :: cur) rest hcur' l hl c hc
          rcases this.1 with h0 | h0
          · rcases List.mem_cons.mp h0 with rfl | h0
            · exact ⟨Or.inr (by simp), this.2⟩
            · exact ⟨Or.inl h0, this.2⟩
          · exact ⟨Or.inr (by simp [h0]), this.2⟩

/-- Lines of `str.splitlines()` consist of input characters and contain
no line-break character. -/
theorem pySplitlines_lines (s : List Char) :
    ∀ l ∈ pySplitlines s, ∀ c ∈ l, c ∈ s ∧ isLineBreak c = false := by
  intro l hl c hc
  rw [pySplitlines] at hl
  split at hl
  · simp at hl
  · have := splitGo_lines s.length [] s (by simp) l hl c hc
    rcases this.1 with h0 | h0
    · simp at h0
    · exact ⟨h0, this.2⟩

theorem pyRstrip_cons (c : Char) (rest : List Char) :
    pyRstrip (c :: rest) =
      if ((pyRstrip rest).isEmpty && isPySpace c) = true then []
      else c :: pyRstrip rest := rfl

theorem rstrip_fixed_single {c : Char} (h : pyRstrip [c] = [c]) :
    isPySpace c = false := by
  cases hws : isPySpace c
  · rfl
  · rw [pyRstrip_cons] at h
    simp [pyRstrip, hws] at h

theorem rstrip_fixed_tail {c : Char} {x : List Char}
    (h : pyRstrip (c :: x) = c :: x) : pyRstrip x = x := by
  rw [pyRstrip_cons] at h
  split at h
  · exact absurd h (by simp)
  · injection h

/-- On a whitespace-clean string, each line of the `'\n'`-split view is
`rstrip`-fixed. -/
theorem rstrip_fixed_of_wsok :
    ∀ (t : List Char), wsokB t = true → ∀ l ∈ splitNl t, pyRstrip l = l
  | [], _, l, hl => by
    have h : l = [] := by simpa [splitNl] using hl
    subst h; rfl
  | c :: t', h, l, hl => by
    by_cases hc : c = '\n'
    · subst hc
      have heq : splitNl ('\n' :: t') = [] :: splitNl t' := by simp [splitNl]
      rw [heq] at hl
      rcases List.mem_cons.mp hl with rfl | hl
      · rfl
      · exact rstrip_fixed_of_wsok t' (wsok_tail h) l hl
    · cases hs : splitNl t' with
      | nil => exact absurd hs (splitNl_ne_nil t')
      | cons l' ls' =>
        have heq : splitNl (c :: t') = (c :: l') :: ls' := by
          simp [splitNl, hc, hs]
        rw [heq] at hl
        rcases List.mem_cons.mp hl with rfl | hl
        · have hpr' : pyRstrip l' = l' :=
            rstrip_fixed_of_wsok t' (wsok_tail h) l'
              (hs ▸ List.mem_cons_self l' ls')
          rw [pyRstrip_cons, hpr']
          cases hl' : l' with
          | cons e l'' => simp [hl']
          | nil =>
            -- the line after `c` is empty: `c` is followed by `'\n'` (or
            -- is last), so `wsokB` forbids it being whitespace
            have hws : isPySpace c = false := by
              cases t' with
              | nil =>
                simp only [wsokB, Bool.not_eq_true', Bool.and_eq_false_iff,
                  Bool.not_eq_false', decide_eq_true_eq] at h
                rcases h with h | h
                · exact h
                · exact absurd h hc
              | cons d t'' =>
                have hd : d = '\n' := by
                  by_contra hd
                  cases hs2 : splitNl t'' with
                  | nil => exact absurd hs2 (splitNl_ne_nil t'')
                  | cons a b =>
                    have : splitNl (d :: t'') = (d :: a) :: b := by
                      simp [splitNl, hd, hs2]
                    rw [this] at hs
                    injection hs with h1 _
                    rw [hl'] at h1
                    exact List.cons_ne_nil d a h1
                  -- contradiction: head line would be `d :: _`, not `[]`
                have hh := wsok_head h
                rw [hd] at hh
                simp only [decide_eq_true_eq, Bool.and_eq_false_iff,
                  Bool.not_eq_false', decide_eq_false_iff_not] at hh
                rcases hh with (hh | hh) | hh
                · exact hh
                · exact absurd hh hc
                · exact absurd trivial hh
            simp [hws]
        · exact rstrip_fixed_of_wsok t' (wsok_tail h) l
            (hs ▸ List.mem_cons.mpr (Or.inr hl))

theorem wsok_line : ∀ (l : List Char), '\n' ∉ l → pyRstrip l = l →
    wsokB l = true
  | [], _, _ => rfl
  | [c], _, hr => by
    have hws := rstrip_fixed_single hr
    simp [wsokB, hws]
  | c :: c2 :: l', hn, hr => by
    have hc2 : ¬ c2 = '\n' := fun he => hn (by simp [he])
    have htail := rstrip_fixed_tail hr
    have ih := wsok_line (c2 :: l') (fun hm => hn (by simp [List.mem_cons.mp hm]))
      htail
    simp [wsokB, hc2, ih]

theorem wsok_append_line : ∀ (l u : List Char), '\n' ∉ l → pyRstrip l = l →
    wsokB ('\n' :: u) = true → wsokB (l ++ '\n' :: u) = true
  | [], u, _, _, hu => hu
  | [c], u, _, hr, hu => by
    have hws := rstrip_fixed_single hr
    simp [wsokB, hws, hu]
  | c :: c2 :: l', u, hn, hr, hu => by
    have hc2 : ¬ c2 = '\n' := fun he => hn (by simp [he])
    have htail := rstrip_fixed_tail hr
    have ih := wsok_append_line (c2 :: l') u
      (fun hm => hn (by simp [List.mem_cons.mp hm])) htail hu
    rw [List.cons_append] at ih ⊢
    rw [List.cons_append]
    simp only [wsokB, Bool.and_eq_true, Bool.not_eq_true']
    refine ⟨?_, ih⟩
    simp [hc2]

theorem wsok_joinNl : ∀ (ls : List (List Char)),
    (∀ l ∈ ls, '\n' ∉ l ∧ pyRstrip l = l) → wsokB (joinNl ls) = true
  | [], _ => rfl
  | [l], h => wsok_line l (h l (by simp)).1 (h l (by simp)).2
  | l :: l2 :: rest, h => by
    have ih := wsok_joinNl (l2 :: rest)
      (fun x hx => h x (List.mem_cons.mpr (Or.inr hx)))
    have hj : joinNl (l :: l2 :: rest) = l ++ '\n' :: joinNl (l2 :: rest) :=
      rfl
    rw [hj]
    exact wsok_append_line l _ (h l (by simp)).1 (h l (by simp)).2
      (wsok_cons_nl ih)

theorem wsok_rstripLines (s : List Char) : wsokB (rstripLines s) = true := by
  rw [rstripLines]
  apply wsok_joinNl
  intro l hl
  rcases List.mem_map.mp hl with ⟨l0, hl0, rfl⟩
  refine ⟨?_, pyRstrip_idem l0⟩
  intro hmem
  have hbr := (pySplitlines_lines s l0 hl0 '\n' (mem_pyRstrip hmem)).2
  exact absurd hbr (by decide)

theorem wsok_collapseGo : ∀ (t : List Char), wsokB t = true →
    ∀ (k : Nat), wsokB (collapseGo k t) = true
  | [], _, k => by rw [show collapseGo k [] = [] from rfl]; rfl
  | c :: rest, h, k => by
    have hrest := wsok_tail h
    by_cases hc : c = '\n'
    · subst hc
      by_cases hk : 2 ≤ k
      · rw [collapseGo_nl_high hk]
        exact wsok_collapseGo rest hrest (k + 1)
      · rw [collapseGo_nl_low hk]
        exact wsok_cons_nl (wsok_collapseGo rest hrest (k + 1))
    · rw [collapseGo_cons_ne hc]
      have hX := wsok_collapseGo rest hrest 0
      cases rest with
      | nil =>
        rw [show collapseGo 0 ([] : List Char) = [] from rfl]
        exact h
      | cons c2 rest' =>
        by_cases hc2 : c2 = '\n'
        · subst hc2
          rw [collapseGo_nl_low (by omega)] at hX ⊢
          have hh := wsok_head h
          simp only [wsokB, Bool.and_eq_true, Bool.not_eq_true']
          exact ⟨hh, hX⟩
        · rw [collapseGo_cons_ne hc2] at hX ⊢
          have hh := wsok_head h
          simp only [wsokB, Bool.and_eq_true, Bool.not_eq_true']
          refine ⟨?_, hX⟩
          simp [hc2]

theorem wsok_lstripNl : ∀ (t : List Char), wsokB t = true →
    wsokB (lstripNl t) = true
  | [], _ => rfl
  | c :: rest, h => by
    by_cases hc : c = '\n'
    · rw [show lstripNl (c :: rest) = lstripNl rest by
        simp [lstripNl, List.dropWhile_cons, hc]]
      exact wsok_lstripNl rest (wsok_tail h)
    · rw [show lstripNl (c :: rest) = c :: rest by
        simp [lstripNl, List.dropWhile_cons, hc]]
      exact h

theorem wsok_rstripNlEnd : ∀ (t : List Char), wsokB t = true →
    wsokB (rstripNlEnd t) = true
  | [], _ => rfl
  | c :: rest, h => by
    have ih := wsok_rstripNlEnd rest (wsok_tail h)
    rw [rstripNlEnd_cons]
    split
    · rfl
    next hb =>
      cases hR : rstripNlEnd rest with
      | nil =>
        rw [hR] at hb
        simp only [List.isEmpty_nil, Bool.true_and, decide_eq_true_eq] at hb
        cases rest with
        | nil => exact h
        | cons d rest' =>
          have hd : d = '\n' := rstripNlEnd_nil_all _ hR d (by simp)
          have hh := wsok_head h
          rw [hd] at hh
          simp only [decide_eq_true_eq, Bool.and_eq_false_iff,
            Bool.not_eq_false', decide_eq_false_iff_not] at hh
          rcases hh with (hh | hh) | hh
          · simp [wsokB, hh]
          · exact absurd hh hb
          · exact absurd trivial hh
      | cons d X =>
        obtain ⟨rest', hrest, hX⟩ := rstripNlEnd_peel hR
        rw [hR] at ih
        have hh := wsok_head (hrest ▸ h)
        simp only [wsokB, Bool.and_eq_true, Bool.not_eq_true']
        exact ⟨hh, ih⟩

theorem noHeadNl_lstripNl : ∀ (t : List Char), noHeadNl (lstripNl t) = true
  | [] => rfl
  | c :: rest => by
    by_cases hc : c = '\n'
    · rw [show lstripNl (c :: rest) = lstripNl rest by
        simp [lstripNl, List.dropWhile_cons, hc]]
      exact noHeadNl_lstripNl rest
    · rw [show lstripNl (c :: rest) = c :: rest by
        simp [lstripNl, List.dropWhile_cons, hc]]
      simp [noHeadNl, hc]

theorem noHeadNl_rstripNlEnd {t : List Char} (h : noHeadNl t = true) :
    noHeadNl (rstripNlEnd t) = true := by
  cases hR : rstripNlEnd t with
  | nil => rfl
  | cons d X =>
    obtain ⟨t', ht, _⟩ := rstripNlEnd_peel hR
    rw [ht] at h
    exact h

theorem lstripNl_id_of_noHeadNl {t : List Char} (h : noHeadNl t = true) :
    lstripNl t = t := by
  cases t with
  | nil => rfl
  | cons c rest =>
    simp only [noHeadNl, Bool.not_eq_true', decide_eq_false_iff_not] at h
    simp [lstripNl, List.dropWhile_cons, h]

theorem noTriple_collapseGo :
    ∀ (t : List Char),
      (∀ k, 2 ≤ k → noTriple (collapseGo k t) = true ∧
        countHeadNl (collapseGo k t) = 0) ∧
      (noTriple (collapseGo 1 t) = true ∧ countHeadNl (collapseGo 1 t) ≤ 1) ∧
      (noTriple (collapseGo 0 t) = true ∧ countHeadNl (collapseGo 0 t) ≤ 2)
  | [] => by
    refine ⟨fun k _ => ?_, ⟨?_, ?_⟩, ⟨?_, ?_⟩⟩ <;>
      simp [show ∀ k, collapseGo k [] = [] from fun _ => rfl, noTriple,
        countHeadNl]
  | c :: rest => by
    have ih := noTriple_collapseGo rest
    by_cases hc : c = '\n'
    · subst hc
      refine ⟨fun k hk => ?_, ?_, ?_⟩
      · rw [collapseGo_nl_high hk]
        exact ih.1 (k + 1) (by omega)
      · rw [show collapseGo 1 ('\n' :: rest) = '\n' :: collapseGo 2 rest from
          collapseGo_nl_low (by omega) rest]
        obtain ⟨hnt, hch⟩ := ih.1 2 (by omega)
        refine ⟨noTriple_cons_nl_of_head (by omega) hnt, ?_⟩
        rw [countHeadNl_cons_nl, hch]
      · rw [show collapseGo 0 ('\n' :: rest) = '\n' :: collapseGo 1 rest from
          collapseGo_nl_low (by omega) rest]
        obtain ⟨hnt, hch⟩ := ih.2.1
        refine ⟨noTriple_cons_nl_of_head hch hnt, ?_⟩
        rw [countHeadNl_cons_nl]
        omega
    · obtain ⟨hnt0, _⟩ := ih.2.2
      have key : ∀ k, noTriple (collapseGo k (c :: rest)) = true ∧
          countHeadNl (collapseGo k (c :: rest)) = 0 := by
        intro k
        rw [collapseGo_cons_ne hc]
        exact ⟨noTriple_cons_of_ne hc hnt0, countHeadNl_cons_ne hc _⟩
      refine ⟨fun k _ => key k, ⟨(key 1).1, ?_⟩, ⟨(key 0).1, ?_⟩⟩
      · rw [(key 1).2]; omega
      · rw [(key 0).2]; omega

theorem noTriple_lstripNl : ∀ (t : List Char), noTriple t = true →
    noTriple (lstripNl t) = true
  | [], _ => rfl
  | c :: rest, h => by
    by_cases hc : c = '\n'
    · rw [show lstripNl (c :: rest) = lstripNl rest by
        simp [lstripNl, List.dropWhile_cons, hc]]
      exact noTriple_lstripNl rest (noTriple_tail h)
    · rw [show lstripNl (c :: rest) = c :: rest by
        simp [lstripNl, List.dropWhile_cons, hc]]
      exact h

theorem noTriple_rstripNlEnd : ∀ (t : List Char), noTriple t = true →
    noTriple (rstripNlEnd t) = true
  | [], _ => rfl
  | c :: rest, h => by
    have ih := noTriple_rstripNlEnd rest (noTriple_tail h)
    rw [rstripNlEnd_cons]
    split
    · rfl
    next hb =>
      cases hR : rstripNlEnd rest with
      | nil => rfl
      | cons d X =>
        cases X with
        | nil => rfl
        | cons e X' =>
          obtain ⟨rest', hrest, hX⟩ := rstripNlEnd_peel hR
          obtain ⟨rest'', hrest', hX'⟩ := rstripNlEnd_peel hX
          rw [hR] at ih
          have hw : ((c = '\n' : Bool) && (d = '\n') && (e = '\n')) = false := by
            rw [hrest, hrest'] at h
            by_cases h1 : c = '\n'
            · by_cases h2 : d = '\n'
              · by_cases h3 : e = '\n'
                · exfalso; simp [noTriple, h1, h2, h3] at h
                · simp [h3]
              · simp [h2]
            · simp [h1]
          simp only [noTriple, Bool.and_eq_true, Bool.not_eq_true']
          exact ⟨hw, ih⟩

theorem collapseGo_id_of_noTriple :
    ∀ (t : List Char), noTriple t = true →
      collapseGo 0 t = t ∧
      (countHeadNl t ≤ 1 → collapseGo 1 t = t) ∧
      (countHeadNl t = 0 → collapseGo 2 t = t)
  | [], _ => ⟨rfl, fun _ => rfl, fun _ => rfl⟩
  | c :: rest, h => by
    by_cases hc : c = '\n'
    · subst hc
      obtain ⟨ih0, ih1, ih2⟩ := collapseGo_id_of_noTriple rest (noTriple_tail h)
      have hcnt : countHeadNl rest ≤ 1 := by
        cases rest with
        | nil => simp [countHeadNl]
        | cons x r' =>
          by_cases hx : x = '\n'
          · subst hx
            rw [countHeadNl_cons_nl]
            cases r' with
            | nil => simp [countHeadNl]
            | cons y r'' =>
              by_cases hy : y = '\n'
              · exfalso
                subst hy
                simp [noTriple] at h
              · rw [countHeadNl_cons_ne hy]
          · rw [countHeadNl_cons_ne hx]; omega
      refine ⟨?_, ?_, ?_⟩
      · rw [collapseGo_nl_low (by omega), ih1 hcnt]
      · intro hhead
        rw [countHeadNl_cons_nl] at hhead
        rw [collapseGo_nl_low (by omega), ih2 (by omega)]
      · intro hhead
        rw [countHeadNl_cons_nl] at hhead
        omega
    · obtain ⟨ih0, _, _⟩ := collapseGo_id_of_noTriple rest (noTriple_tail h)
      have heq : ∀ k, collapseGo k (c :: rest) = c :: rest := fun k => by
        rw [collapseGo_cons_ne hc, ih0]
      exact ⟨heq 0, fun _ => heq 1, fun _ => heq 2⟩

theorem map_self {α : Type} (f : α → α) :
    ∀ (ls : List α), (∀ l ∈ ls, f l = l) → ls.map f = ls
  | [], _ => rfl
  | x :: rest, h => by
    rw [List.map_cons, h x (by simp),
      map_self f rest (fun y hy => h y (List.mem_cons.mpr (Or.inr hy)))]

theorem mem_collapseBlankRuns {t : List Char} {c : Char}
    (hc : c ∈ collapseBlankRuns t) : c ∈ t := mem_collapseGo 0 t c hc

theorem scrubEmph_noop {h0 : Char} {t0 : List Char} (s : List Char)
    (h : ∀ c ∈ s, c ≠ h0) : scrubEmph (h0 :: t0) s = s :=
  scrubEmphGo_id s.length s h

theorem collapseEmptyLinks_noop (s : List Char) (h : ∀ c ∈ s, c ≠ '[') :
    collapseEmptyLinks s = s :=
  collapseLinksGo_id s.length s h

theorem scrubGoogleImages_noop (s : List Char) (h : ∀ c ∈ s, c ≠ '[') :
    scrubGoogleImages s = s :=
  scrubImagesGo_id s.length s h

theorem scrubPipeRows_noop (s : List Char) (h : ∀ c ∈ s, c ≠ '|') :
    scrubPipeRows s = s :=
  scrubPipeRowsGo_id s.length true s h

theorem normalizeHrules_noop (s : List Char)
    (h : ∀ c ∈ s, isRuleChar c = false) : normalizeHrules s = s :=
  normalizeHrulesGo_id s.length true s h

theorem tame_rstripLines {s : List Char} (hs : ∀ c ∈ s, tameChar c = true) :
    ∀ c ∈ rstripLines s, tameChar c = true := by
  intro c hc
  rw [rstripLines] at hc
  rcases mem_joinNl _ c hc with rfl | ⟨l, hl, hcl⟩
  · decide
  · rcases List.mem_map.mp hl with ⟨l0, hl0, rfl⟩
    exact hs c (pySplitlines_lines s l0 hl0 c (mem_pyRstrip hcl)).1

theorem tame_coreClean {s : List Char} (hs : ∀ c ∈ s, tameChar c = true) :
    ∀ c ∈ coreClean s, tameChar c = true := by
  intro c hc
  rw [coreClean] at hc
  exact tame_rstripLines hs c
    (mem_collapseBlankRuns (mem_lstripNl (mem_rstripNlEnd hc)))

/-- On text without the trigger characters, `pull_content._clean_markdown`
reduces to its whitespace core followed by the final `+ '\n'`. -/
theorem cleanPull_tame (s : List Char) (hs : ∀ c ∈ s, tameChar c = true) :
    cleanMarkdownPull s = coreClean s ++ ['\n'] := by
  have h1 : s.map (fun c => if c = '\u00A0' then ' ' else c) = s :=
    map_id_of_ne s (fun c hc => (tameChar_props (hs c hc)).2.2.2.2.2.2.1)
  have h2 : s.filter (fun c => c ≠ '\u200B') = s :=
    filter_id_of_ne s (fun c hc => (tameChar_props (hs c hc)).2.2.2.2.2.2.2.1)
  have h3 : s.filter (fun c => c ≠ '\uFEFF') = s :=
    filter_id_of_ne s (fun c hc => (tameChar_props (hs c hc)).2.2.2.2.2.2.2.2)
  have hm5 : ∀ c ∈ collapseBlankRuns (rstripLines s), tameChar c = true :=
    fun c hc => tame_rstripLines hs c (mem_collapseBlankRuns hc)
  have h6 : scrubEmph ['*', '*'] (collapseBlankRuns (rstripLines s)) =
      collapseBlankRuns (rstripLines s) :=
    scrubEmph_noop _ (fun c hc => (tameChar_props (hm5 c hc)).1)
  have h7 : scrubEmph ['_'] (collapseBlankRuns (rstripLines s)) =
      collapseBlankRuns (rstripLines s) :=
    scrubEmph_noop _ (fun c hc => (tameChar_props (hm5 c hc)).2.1)
  have h8 : scrubEmph ['*'] (collapseBlankRuns (rstripLines s)) =
      collapseBlankRuns (rstripLines s) :=
    scrubEmph_noop _ (fun c hc => (tameChar_props (hm5 c hc)).1)
  have h9 : collapseEmptyLinks (collapseBlankRuns (rstripLines s)) =
      collapseBlankRuns (rstripLines s) :=
    collapseEmptyLinks_noop _ (fun c hc => (tameChar_props (hm5 c hc)).2.2.1)
  have h10 : scrubGoogleImages (collapseBlankRuns (rstripLines s)) =
      collapseBlankRuns (rstripLines s) :=
    scrubGoogleImages_noop _ (fun c hc => (tameChar_props (hm5 c hc)).2.2.1)
  have h11 : scrubPipeRows (collapseBlankRuns (rstripLines s)) =
      collapseBlankRuns (rstripLines s) :=
    scrubPipeRows_noop _ (fun c hc => (tameChar_props (hm5 c hc)).2.2.2.1)
  have h12 : normalizeHrules (collapseBlankRuns (rstripLines s)) =
      collapseBlankRuns (rstripLines s) :=
    normalizeHrules_noop _ (fun c hc => (tameChar_props (hm5 c hc)).2.2.2.2.1)
  show rstripNlEnd (lstripNl (normalizeHrules (scrubPipeRows (scrubGoogleImages
      (collapseEmptyLinks (scrubEmph ['*'] (scrubEmph ['_'] (scrubEmph ['*', '*']
      (collapseBlankRuns (rstripLines (((s.map (fun c => if c = '\u00A0' then ' '
      else c)).filter (fun c => c ≠ '\u200B')).filter
      (fun c => c ≠ '\uFEFF')))))))))))) ++ ['\n'] = coreClean s ++ ['\n']
  rw [h1, h2, h3, h6, h7, h8, h9, h10, h11, h12]
  rfl

/-- On text without the trigger characters, `convert._clean_markdown`
reduces to the same whitespace core followed by the final `+ '\n'`. -/
theorem cleanIngest_tame (s : List Char) (hs : ∀ c ∈ s, tameChar c = true) :
    cleanMarkdownIngest s = coreClean s ++ ['\n'] := by
  have hm2 : ∀ c ∈ collapseBlankRuns (rstripLines s), tameChar c = true :=
    fun c hc => tame_rstripLines hs c (mem_collapseBlankRuns hc)
  have h3 : scrubEmph ['*', '*'] (collapseBlankRuns (rstripLines s)) =
      collapseBlankRuns (rstripLines s) :=
    scrubEmph_noop _ (fun c hc => (tameChar_props (hm2 c hc)).1)
  have h4 : scrubEmph ['_', '_'] (collapseBlankRuns (rstripLines s)) =
      collapseBlankRuns (rstripLines s) :=
    scrubEmph_noop _ (fun c hc => (tameChar_props (hm2 c hc)).2.1)
  have h5 : collapseEmptyLinks (collapseBlankRuns (rstripLines s)) =
      collapseBlankRuns (rstripLines s) :=
    collapseEmptyLinks_noop _ (fun c hc => (tameChar_props (hm2 c hc)).2.2.1)
  have h6 : normalizeHrules (collapseBlankRuns (rstripLines s)) =
      collapseBlankRuns (rstripLines s) :=
    normalizeHrules_noop _ (fun c hc => (tameChar_props (hm2 c hc)).2.2.2.2.1)
  show rstripNlEnd (lstripNl (normalizeHrules (collapseEmptyLinks
      (scrubEmph ['_', '_'] (scrubEmph ['*', '*']
      (collapseBlankRuns (rstripLines s))))))) ++ ['\n'] =
    coreClean s ++ ['\n']
  rw [h3, h4, h5, h6]
  rfl

/-- The whitespace core is a fixed point of one more cleanup round: its
output, followed by the final `'\n'`, is mapped back to itself. -/
theorem coreClean_fixed (s : List Char) (hs : ∀ c ∈ s, tameChar c = true) :
    coreClean (coreClean s ++ ['\n']) = coreClean s := by
  have ht := tame_coreClean hs
  have honly : onlyNlBreaks (coreClean s) := fun c hc hb =>
    (tameChar_props (ht c hc)).2.2.2.2.2.1 hb
  have hwsok : wsokB (coreClean s) = true :=
    wsok_rstripNlEnd _ (wsok_lstripNl _ (wsok_collapseGo _ (wsok_rstripLines s) 0))
  have hnt : noTriple (coreClean s) = true :=
    noTriple_rstripNlEnd _ (noTriple_lstripNl _
      (noTriple_collapseGo (rstripLines s)).2.2.1)
  have hhead : noHeadNl (coreClean s) = true :=
    noHeadNl_rstripNlEnd (noHeadNl_lstripNl _)
  have htail : noTailNl (coreClean s) = true := noTailNl_rstripNlEnd _
  conv_lhs => rw [coreClean]
  rw [rstripLines, pySplitlines_append_nl _ honly,
    map_self pyRstrip _ (rstrip_fixed_of_wsok _ hwsok), joinNl_splitNl,
    collapseBlankRuns, (collapseGo_id_of_noTriple _ hnt).1,
    lstripNl_id_of_noHeadNl hhead, rstripNlEnd_id_of_noTailNl _ htail]

/-- C4 (amended): neither `_clean_markdown` variant is idempotent in
general (see `c4_counterexample`), but both are idempotent on text
consisting of newline, tab and printable ASCII without the markup
characters `*`, `_`, `[`, `|` and `-` (the `tameChar` alphabet): a second
application of either transform returns its input unchanged. -/
theorem c4_restricted_idempotent (s : List Char)
    (hs : ∀ c ∈ s, tameChar c = true) :
    cleanMarkdownPull (cleanMarkdownPull s) = cleanMarkdownPull s ∧
    cleanMarkdownIngest (cleanMarkdownIngest s) = cleanMarkdownIngest s := by
  have htu : ∀ c ∈ coreClean s ++ ['\n'], tameChar c = true := by
    intro c hc
    rcases List.mem_append.mp hc with hc | hc
    · exact tame_coreClean hs c hc
    · simp only [List.mem_singleton] at hc
      subst hc
      decide
  have hcore := coreClean_fixed s hs
  constructor
  · rw [cleanPull_tame s hs, cleanPull_tame _ htu, hcore]
  · rw [cleanIngest_tame s hs, cleanIngest_tame _ htu, hcore]

/-- Witness for C4: a concrete tame input on which both cleanup variants
are idempotent. -/
theorem c4_restricted_idempotent_witness :
    (∀ c ∈ ("a b\n\n\nc d.\n").toList, tameChar c = true) ∧
    (cleanMarkdownPull (cleanMarkdownPull ("a b\n\n\nc d.\n").toList) =
        cleanMarkdownPull ("a b\n\n\nc d.\n").toList ∧
      cleanMarkdownIngest (cleanMarkdownIngest ("a b\n\n\nc d.\n").toList) =
        cleanMarkdownIngest ("a b\n\n\nc d.\n").toList) :=
  ⟨by decide, c4_restricted_idempotent _ (by decide)⟩

/-! ### C1: import resolution of `gdoc/push.py`

`push.py` line 10 reads `from .styles import HTML_TEMPLATE, PAGE_STYLE,
get_styles`.  A `from … import` statement succeeds only if every imported
name is an attribute of the target module.  The names below transcribe,
in order, the top-level bindings created by executing `gdoc/styles.py`
(its two imports, seven data dictionaries, the template string and four
functions). -/

def stylesModuleNames : List String :=
  ["json", "Path", "LAYOUT", "HEADINGS", "BODY", "CODE", "TABLE",
   "BLOCKQUOTE", "CSS_VARS", "HTML_TEMPLATE", "_deep_merge", "get_styles",
   "get_css_vars", "hex_to_rgb"]

/-- The names `push.py` line 10 imports from `gdoc/styles.py`. -/
def pushStylesImportNames : List String :=
  ["HTML_TEMPLATE", "PAGE_STYLE", "get_styles"]

/-- Whether the `from .styles import …` statement of `push.py` resolves:
every requested name must exist in the styles module. -/
def pushStylesImportOk : Bool :=
  pushStylesImportNames.all (fun n => stylesModuleNames.contains n)

/-- C1: the claimed push scenario cannot perform any call at all:
importing `llmtk.gdoc.push` raises `ImportError`, because line 10 asks
`gdoc/styles.py` for `PAGE_STYLE`, a name that module never defines
(while the other two requested names do exist).  `push_to_gdoc` and
`md_to_html` are therefore unreachable, so no HTML import call, no
styling batch call and no history append happen for the input
`"# Title\n\nSome *text*.\n"` (or any other input). -/
theorem c1_push_import_fails :
    pushStylesImportOk = false ∧
    stylesModuleNames.contains "HTML_TEMPLATE" = true ∧
    stylesModuleNames.contains "get_styles" = true ∧
    stylesModuleNames.contains "PAGE_STYLE" = false := by
  refine ⟨?_, ?_, ?_, ?_⟩ <;> decide

/-! ### The Phase-2 styling pass (`gdoc/post_process.py`)

The document read from the Docs API is modelled with typed structures
carrying exactly the fields the code reads (with the `.get` defaults
already applied); the style configuration stays a dynamic `JEntries`
dict, so that user overrides — including malformed ones — flow through
unchanged.  Fallible computations return `Except Unit`, the error case
standing for a raised Python exception. -/

/-- Python truthiness of a JSON value. -/
def jTruthy : JVal → Bool
  | .obj .nil => false
  | .obj _ => true
  | .arr .nil => false
  | .arr _ => true
  | .str s => !s.isEmpty
  | .num q => !(q = 0)
  | .bool b => b
  | .null => false

/-- `d.get(k, dflt)`. -/
def dictGet (e : JEntries) (k : String) (dflt : JVal) : JVal :=
  (lookupKey e k).getD dflt

/-- `d.get(k)` combined with an `is not None` test. -/
def getNotNone (e : JEntries) (k : String) : Option JVal :=
  match lookupKey e k with
  | some .null => none
  | some v => some v
  | none => none

/-- Calling a dict method (`.get`, `.copy`, iteration) on a value raises
`AttributeError` unless it is a dict. -/
def asObj : JVal → Except Unit JEntries
  | .obj o => .ok o
  | _ => .error ()

def entriesOfList : List (String × JVal) → JEntries
  | [] => .nil
  | (k, v) :: rest => .cons k v (entriesOfList rest)

/-- `','.join(fields)`. -/
def joinComma (fields : List String) : String := String.intercalate "," fields

/-- Python `str.strip()` (both ends, full whitespace class). -/
def pyStripWs (s : List Char) : List Char :=
  ((s.dropWhile isPySpace).reverse.dropWhile isPySpace).reverse

def hexVal (c : Char) : Option Nat :=
  if '0' ≤ c ∧ c ≤ '9' then some (c.toNat - '0'.toNat)
  else if 'a' ≤ c ∧ c ≤ 'f' then some (c.toNat - 'a'.toNat + 10)
  else if 'A' ≤ c ∧ c ≤ 'F' then some (c.toNat - 'A'.toNat + 10)
  else none

/-- Digit loop of `int(s, 16)`: a single underscore may follow a digit
(or the `0x` prefix); the literal must end in a digit.  `allowUnd` says
an underscore may appear here; `lastDigit` says the previous character
was a digit. -/
def parseHexDigits : List Char → Nat → Bool → Bool → Option Nat
  | [], acc, _, lastDigit => if lastDigit then some acc else none
  | c :: rest, acc, allowUnd, _ =>
    if c = '_' then
      if allowUnd then parseHexDigits rest acc false false else none
    else
      match hexVal c with
      | some d => parseHexDigits rest (acc * 16 + d) true true
      | none => none

/-- Python `int(s, 16)` on ASCII input: optional surrounding whitespace,
optional sign, optional `0x`/`0X` prefix, hex digits with single
underscores between them; `ValueError` otherwise. -/
def pyIntHex (s : List Char) : Except Unit Int :=
  let t := pyStripWs s
  let signed : Bool × List Char :=
    match t with
    | '+' :: r => (false, r)
    | '-' :: r => (true, r)
    | _ => (false, t)
  let prefixed : Bool × List Char :=
    match signed.2 with
    | '0' :: c :: r => if c = 'x' ∨ c = 'X' then (true, r) else (false, signed.2)
    | _ => (false, signed.2)
  match parseHexDigits prefixed.2 0 prefixed.1 false with
  | some n => .ok (if signed.1 then -(n : Int) else (n : Int))
  | none => .error ()

/-- `styles.hex_to_rgb` (lines 338-346): `'#RRGGBB'` to an RgbColor dict
of 0-1 rationals; raises (`.error`) when a two-character slice is not a
hex literal. -/
def hex_to_rgb (hexColor : List Char) : Except Unit JVal := do
  let h := hexColor.dropWhile (· = '#')
  let r ← pyIntHex (h.take 2)
  let g ← pyIntHex ((h.drop 2).take 2)
  let b ← pyIntHex ((h.drop 4).take 2)
  return .obj (entriesOfList
    [("red", .num (Rat.divInt r 255)), ("green", .num (Rat.divInt g 255)),
     ("blue", .num (Rat.divInt b 255))])

/-- `hex_to_rgb` applied to a configuration value: `.lstrip` on a
non-string raises. -/
def hexToRgbV : JVal → Except Unit JVal
  | .str s => hex_to_rgb s.toList
  | _ => .error ()

/-- `value * 100` for a dynamic value (`line_spacing * 100`): numbers and
bools multiply, strings and lists repeat, anything else raises. -/
def jlAppend : JList → JList → JList
  | .nil, l => l
  | .cons v r, l => .cons v (jlAppend r l)

def jlRepeat : Nat → JList → JList
  | 0, _ => .nil
  | n + 1, l => jlAppend l (jlRepeat n l)

def jMul100 : JVal → Except Unit JVal
  | .num q => .ok (.num (Rat.mul q 100))
  | .bool b => .ok (.num (if b then 100 else 0))
  | .str s => .ok (.str (String.join (List.replicate 100 s)))
  | .arr l => .ok (.arr (jlRepeat 100 l))
  | _ => .error ()

/-- A text run: `content` and the font family reached through
`textStyle.weightedFontFamily.fontFamily`, with the chain of `.get`
defaults collapsed to `""`. -/
structure DTextRun where
  content : String
  fontFamily : String
  deriving Repr, DecidableEq

/-- A paragraph: named style, `indentStart.magnitude` (0 when absent) and
its elements (`none` = an element without a `textRun`). -/
structure DPara where
  namedStyleType : Option String
  indentMagnitude : ℚ
  elements : List (Option DTextRun)
  deriving Repr, DecidableEq

/-- A table cell: its content range and its content elements (`some` =
a paragraph with its range). -/
structure DCell where
  startIndex : Int
  endIndex : Int
  content : List (Option (Int × Int))
  deriving Repr, DecidableEq

structure DRow where
  cells : List DCell
  deriving Repr, DecidableEq

/-- A body element: paragraph (with its range), table, or anything else. -/
inductive DElement where
  | para (startIndex endIndex : Int) (p : DPara)
  | table (startIndex : Int) (rows : List DRow)
  | other
  deriving Repr, DecidableEq

/-- A batchUpdate request, typed by kind; style payloads stay dynamic
dicts and `fields` keeps the comma-joined field list. -/
inductive DocRequest where
  | updateDocumentStyle (docStyle : JEntries) (fields : String)
  | updateTextStyle (startIndex endIndex : Int) (textStyle : JEntries)
      (fields : String)
  | updateParagraphStyle (startIndex endIndex : Int) (paraStyle : JEntries)
      (fields : String)
  | updateTableCellStyle (tableStart : Int) (rowIndex columnIndex : Nat)
      (cellStyle : JEntries) (fields : String)
  | pinTableHeaderRows (tableStart : Int) (count : Nat)
  deriving Repr

/-- `_get_text_runs` (lines 198-204). -/
def getTextRuns (elements : List (Option DTextRun)) : List DTextRun :=
  elements.filterMap id

def monoMarkers : List String := ["mono", "courier", "consolas", "menlo"]

/-- The per-run test of `_looks_like_code`: non-blank content, a present
font family, and a monospace marker inside its lowercased name. -/
def runIsMono (run : DTextRun) : Bool :=
  !(pyStripWs run.content.toList).isEmpty &&
  (!run.fontFamily.isEmpty &&
    monoMarkers.any (fun m => containsSub run.fontFamily.toLower.toList m.toList))

/-- `_looks_like_code` (lines 207-218). -/
def looksLikeCode (runs : List DTextRun) : Bool := runs.any runIsMono

/-- `_style_heading` (lines 221-280). -/
def styleHeading (startI endI : Int) (cfg : JEntries) :
    Except Unit (List DocRequest) := do
  let mut requests : List DocRequest := []
  let mut textStyle : List (String × JVal) := []
  let mut textFields : List String := []
  if jTruthy (dictGet cfg "font" .null) then
    textStyle := textStyle ++ [("weightedFontFamily", .obj (entriesOfList
      [("fontFamily", dictGet cfg "font" .null),
       ("weight", .num (if jTruthy (dictGet cfg "bold" (.bool true))
         then 700 else 400))]))]
    textFields := textFields ++ ["weightedFontFamily"]
  if jTruthy (dictGet cfg "size" .null) then
    textStyle := textStyle ++ [("fontSize", .obj (entriesOfList
      [("magnitude", dictGet cfg "size" .null), ("unit", .str "PT")]))]
    textFields := textFields ++ ["fontSize"]
  if jTruthy (dictGet cfg "color" .null) then
    let rgb ← hexToRgbV (dictGet cfg "color" .null)
    textStyle := textStyle ++ [("foregroundColor", .obj (entriesOfList
      [("color", .obj (entriesOfList [("rgbColor", rgb)]))]))]
    textFields := textFields ++ ["foregroundColor"]
  if let some bv := getNotNone cfg "bold" then
    textStyle := textStyle ++ [("bold", bv)]
    textFields := textFields ++ ["bold"]
  if !textStyle.isEmpty then
    requests := requests ++ [.updateTextStyle startI endI
      (entriesOfList textStyle) (joinComma textFields)]
  let mut paraStyle : List (String × JVal) := []
  let mut paraFields : List String := []
  if let some v := getNotNone cfg "space_before" then
    paraStyle := paraStyle ++ [("spaceAbove", .obj (entriesOfList
      [("magnitude", v), ("unit", .str "PT")]))]
    paraFields := paraFields ++ ["spaceAbove"]
  if let some v := getNotNone cfg "space_after" then
    paraStyle := paraStyle ++ [("spaceBelow", .obj (entriesOfList
      [("magnitude", v), ("unit", .str "PT")]))]
    paraFields := paraFields ++ ["spaceBelow"]
  if !paraStyle.isEmpty then
    requests := requests ++ [.updateParagraphStyle startI endI
      (entriesOfList paraStyle) (joinComma paraFields)]
  return requests

/-- `_style_body_paragraph` (lines 283-339). -/
def styleBodyParagraph (startI endI : Int) (cfg : JEntries) :
    Except Unit (List DocRequest) := do
  let mut requests : List DocRequest := []
  let mut textStyle : List (String × JVal) := []
  let mut textFields : List String := []
  if jTruthy (dictGet cfg "font" .null) then
    textStyle := textStyle ++ [("weightedFontFamily", .obj (entriesOfList
      [("fontFamily", dictGet cfg "font" .null), ("weight", .num 400)]))]
    textFields := textFields ++ ["weightedFontFamily"]
  if jTruthy (dictGet cfg "size" .null) then
    textStyle := textStyle ++ [("fontSize", .obj (entriesOfList
      [("magnitude", dictGet cfg "size" .null), ("unit", .str "PT")]))]
    textFields := textFields ++ ["fontSize"]
  if jTruthy (dictGet cfg "color" .null) then
    let rgb ← hexToRgbV (dictGet cfg "color" .null)
    textStyle := textStyle ++ [("foregroundColor", .obj (entriesOfList
      [("color", .obj (entriesOfList [("rgbColor", rgb)]))]))]
    textFields := textFields ++ ["foregroundColor"]
  if !textStyle.isEmpty then
    requests := requests ++ [.updateTextStyle startI endI
      (entriesOfList textStyle) (joinComma textFields)]
  let mut paraStyle : List (String × JVal) := []
  let mut paraFields : List String := []
  if jTruthy (dictGet cfg "line_spacing" .null) then
    let ls ← jMul100 (dictGet cfg "line_spacing" .null)
    paraStyle := paraStyle ++ [("lineSpacing", ls)]
    paraFields := paraFields ++ ["lineSpacing"]
  if let some v := getNotNone cfg "space_after" then
    paraStyle := paraStyle ++ [("spaceBelow", .obj (entriesOfList
      [("magnitude", v), ("unit", .str "PT")]))]
    paraFields := paraFields ++ ["spaceBelow"]
  if !paraStyle.isEmpty then
    requests := requests ++ [.updateParagraphStyle startI endI
      (entriesOfList paraStyle) (joinComma paraFields)]
  return requests

/-- `_style_code_paragraph` (lines 342-381). -/
def styleCodeParagraph (startI endI : Int) (cfg : JEntries) :
    Except Unit (List DocRequest) := do
  let mut requests : List DocRequest := []
  let mut textStyle : List (String × JVal) := []
  let mut textFields : List String := []
  if jTruthy (dictGet cfg "font" .null) then
    textStyle := textStyle ++ [("weightedFontFamily", .obj (entriesOfList
      [("fontFamily", dictGet cfg "font" .null), ("weight", .num 400)]))]
    textFields := textFields ++ ["weightedFontFamily"]
  if jTruthy (dictGet cfg "size" .null) then
    textStyle := textStyle ++ [("fontSize", .obj (entriesOfList
      [("magnitude", dictGet cfg "size" .null), ("unit", .str "PT")]))]
    textFields := textFields ++ ["fontSize"]
  if jTruthy (dictGet cfg "color" .null) then
    let rgb ← hexToRgbV (dictGet cfg "color" .null)
    textStyle := textStyle ++ [("foregroundColor", .obj (entriesOfList
      [("color", .obj (entriesOfList [("rgbColor", rgb)]))]))]
    textFields := textFields ++ ["foregroundColor"]
  if jTruthy (dictGet cfg "background" .null) then
    let rgb ← hexToRgbV (dictGet cfg "background" .null)
    textStyle := textStyle ++ [("backgroundColor", .obj (entriesOfList
      [("color", .obj (entriesOfList [("rgbColor", rgb)]))]))]
    textFields := textFields ++ ["backgroundColor"]
  if !textStyle.isEmpty then
    requests := requests ++ [.updateTextStyle startI endI
      (entriesOfList textStyle) (joinComma textFields)]
  return requests

/-- `_style_blockquote` (lines 384-436). -/
def styleBlockquote (startI endI : Int) (cfg : JEntries) :
    Except Unit (List DocRequest) := do
  let mut requests : List DocRequest := []
  let mut textStyle : List (String × JVal) := []
  let mut textFields : List String := []
  if jTruthy (dictGet cfg "color" .null) then
    let rgb ← hexToRgbV (dictGet cfg "color" .null)
    textStyle := textStyle ++ [("foregroundColor", .obj (entriesOfList
      [("color", .obj (entriesOfList [("rgbColor", rgb)]))]))]
    textFields := textFields ++ ["foregroundColor"]
  if let some iv := getNotNone cfg "italic" then
    textStyle := textStyle ++ [("italic", iv)]
    textFields := textFields ++ ["italic"]
  if !textStyle.isEmpty then
    requests := requests ++ [.updateTextStyle startI endI
      (entriesOfList textStyle) (joinComma textFields)]
  let mut paraStyle : List (String × JVal) := []
  let mut paraFields : List String := []
  if let some v := getNotNone cfg "indent" then
    paraStyle := paraStyle ++ [("indentStart", .obj (entriesOfList
      [("magnitude", v), ("unit", .str "PT")]))]
    paraFields := paraFields ++ ["indentStart"]
  if let some v := getNotNone cfg "space_before" then
    paraStyle := paraStyle ++ [("spaceAbove", .obj (entriesOfList
      [("magnitude", v), ("unit", .str "PT")]))]
    paraFields := paraFields ++ ["spaceAbove"]
  if let some v := getNotNone cfg "space_after" then
    paraStyle := paraStyle ++ [("spaceBelow", .obj (entriesOfList
      [("magnitude", v), ("unit", .str "PT")]))]
    paraFields := paraFields ++ ["spaceBelow"]
  if !paraStyle.isEmpty then
    requests := requests ++ [.updateParagraphStyle startI endI
      (entriesOfList paraStyle) (joinComma paraFields)]
  return requests

/-- `_build_document_style_requests` (lines 93-137). -/
def buildDocumentStyleRequests (styles : JEntries) :
    Except Unit (List DocRequest) := do
  let layout ← asObj (dictGet styles "layout" (.obj .nil))
  let margins ← asObj (dictGet layout "margins" (.obj .nil))
  let pageless := jTruthy (dictGet layout "pageless" (.bool false))
  let mut docStyle : List (String × JVal) := []
  let mut fields : List String := []
  if let some v := getNotNone margins "top" then
    docStyle := docStyle ++ [("marginTop", .obj (entriesOfList
      [("magnitude", v), ("unit", .str "PT")]))]
    fields := fields ++ ["marginTop"]
  if let some v := getNotNone margins "bottom" then
    docStyle := docStyle ++ [("marginBottom", .obj (entriesOfList
      [("magnitude", v), ("unit", .str "PT")]))]
    fields := fields ++ ["marginBottom"]
  if let some v := getNotNone margins "left" then
    docStyle := docStyle ++ [("marginLeft", .obj (entriesOfList
      [("magnitude", v), ("unit", .str "PT")]))]
    fields := fields ++ ["marginLeft"]
  if let some v := getNotNone margins "right" then
    docStyle := docStyle ++ [("marginRight", .obj (entriesOfList
      [("magnitude", v), ("unit", .str "PT")]))]
    fields := fields ++ ["marginRight"]
  let pageWidth := dictGet layout "page_width" (.num 612)
  let pageHeight := if pageless then JVal.num 100000
    else dictGet layout "page_height" (.num 792)
  docStyle := docStyle ++ [("pageSize", .obj (entriesOfList
    [("width", .obj (entriesOfList
        [("magnitude", pageWidth), ("unit", .str "PT")])),
     ("height", .obj (entriesOfList
        [("magnitude", pageHeight), ("unit", .str "PT")]))]))]
  fields := fields ++ ["pageSize"]
  if fields.isEmpty then return []
  return [.updateDocumentStyle (entriesOfList docStyle) (joinComma fields)]

/-- `_HEADING_MAP` (lines 26-33). -/
def headingKey : String → Option String
  | "HEADING_1" => some "h1"
  | "HEADING_2" => some "h2"
  | "HEADING_3" => some "h3"
  | "HEADING_4" => some "h4"
  | "HEADING_5" => some "h5"
  | "HEADING_6" => some "h6"
  | _ => none

/-- `_build_paragraph_requests` (lines 144-195). -/
def buildParagraphRequests (startI endI : Int) (p : DPara)
    (styles : JEntries) : Except Unit (List DocRequest) :=
  let namedStyle := p.namedStyleType.getD "NORMAL_TEXT"
  if startI ≥ endI then .ok []
  else
    match headingKey namedStyle with
    | some hk =>
      match asObj (dictGet styles "headings" (.obj .nil)) with
      | .error e => .error e
      | .ok headings =>
        let hcfgV := dictGet headings hk (.obj .nil)
        if jTruthy hcfgV then
          match asObj hcfgV with
          | .error e => .error e
          | .ok hcfg => styleHeading startI endI hcfg
        else .ok []
    | none =>
      if namedStyle = "NORMAL_TEXT" then
        if looksLikeCode (getTextRuns p.elements) then
          if jTruthy (dictGet styles "code" (.obj .nil)) then
            asObj (dictGet styles "code" (.obj .nil)) >>=
              styleCodeParagraph startI endI
          else .ok []
        else if 20 < p.indentMagnitude then
          if jTruthy (dictGet styles "blockquote" (.obj .nil)) then
            asObj (dictGet styles "blockquote" (.obj .nil)) >>=
              styleBlockquote startI endI
          else .ok []
        else
          if jTruthy (dictGet styles "body" (.obj .nil)) then
            asObj (dictGet styles "body" (.obj .nil)) >>=
              styleBodyParagraph startI endI
          else .ok []
      else .ok []

/-- `list.index(x)`: position of the first equal element (the call sites
below always pass a member, so the out-of-range case is unreachable). -/
def pyIndex {α : Type} [DecidableEq α] : List α → α → Nat
  | [], _ => 0
  | x :: rest, a => if x = a then 0 else pyIndex rest a + 1

/-- Background segment of the per-cell loop body (lines 469-473). -/
def cellBackground (tableCfg : JEntries) (isHeader : Bool) :
    Except Unit (List (String × JVal) × List String) :=
  if isHeader && jTruthy (dictGet tableCfg "header_background" .null) then do
    let rgb ← hexToRgbV (dictGet tableCfg "header_background" .null)
    return ([("backgroundColor", .obj (entriesOfList
      [("color", .obj (entriesOfList [("rgbColor", rgb)]))]))],
      ["backgroundColor"])
  else .ok ([], [])

/-- Padding segment (lines 475-483). -/
def cellPadding (tableCfg : JEntries) : List (String × JVal) × List String :=
  match getNotNone tableCfg "cell_padding" with
  | some pv =>
    let padding := JVal.obj (entriesOfList
      [("magnitude", pv), ("unit", .str "PT")])
    ([("paddingTop", padding), ("paddingBottom", padding),
      ("paddingLeft", padding), ("paddingRight", padding)],
     ["paddingTop", "paddingBottom", "paddingLeft", "paddingRight"])
  | none => ([], [])

/-- Border segment (lines 485-497). -/
def cellBorders (tableCfg : JEntries) :
    Except Unit (List (String × JVal) × List String) :=
  if jTruthy (dictGet tableCfg "border_color" .null) &&
      jTruthy (dictGet tableCfg "border_width" .null) then do
    let rgb ← hexToRgbV (dictGet tableCfg "border_color" .null)
    let border := JVal.obj (entriesOfList
      [("color", .obj (entriesOfList
         [("color", .obj (entriesOfList [("rgbColor", rgb)]))])),
       ("width", .obj (entriesOfList
         [("magnitude", dictGet tableCfg "border_width" .null),
          ("unit", .str "PT")])),
       ("dashStyle", .str "SOLID")])
    return ([("borderTop", border), ("borderBottom", border),
      ("borderLeft", border), ("borderRight", border)],
      ["borderTop", "borderBottom", "borderLeft", "borderRight"])
  else .ok ([], [])

/-- Text-style segment of the cell loop (lines 514-525). -/
def cellTextStyle (tableCfg : JEntries) (isHeader : Bool) :
    List (String × JVal) × List String :=
  let fs : List (String × JVal) × List String :=
    if jTruthy (dictGet tableCfg "font_size" .null) then
      ([("fontSize", .obj (entriesOfList
         [("magnitude", dictGet tableCfg "font_size" .null),
          ("unit", .str "PT")]))], ["fontSize"])
    else ([], [])
  let hb : List (String × JVal) × List String :=
    if isHeader && jTruthy (dictGet tableCfg "header_bold" .null) then
      ([("bold", .bool true)], ["bold"])
    else ([], [])
  (fs.1 ++ hb.1, fs.2 ++ hb.2)

/-- The `for content_elem in cell.get('content', [])` loop
(lines 529-543). -/
def cellTextLoop (content : List (Option (Int × Int))) (ts : JEntries)
    (tf : String) : List DocRequest :=
  match content with
  | [] => []
  | some (ps, pe) :: rest =>
    (if ps < pe then [DocRequest.updateTextStyle ps pe ts tf] else []) ++
      cellTextLoop rest ts tf
  | none :: rest => cellTextLoop rest ts tf

/-- The body of `for cell in cells` in `_build_table_requests`
(lines 458-543); `cells` is the whole row, needed for
`cells.index(cell)`. -/
def buildCellRequests (tableStart : Int) (tableCfg : JEntries)
    (rowIdx : Nat) (cells : List DCell) (cell : DCell) :
    Except Unit (List DocRequest) :=
  if cell.startIndex ≥ cell.endIndex then .ok []
  else
    let isHeader := decide (rowIdx = 0)
    match cellBackground tableCfg isHeader with
    | .error e => .error e
    | .ok bg =>
      let pad := cellPadding tableCfg
      match cellBorders tableCfg with
      | .error e => .error e
      | .ok bord =>
        let cellStyle := bg.1 ++ pad.1 ++ bord.1
        let cellFields := bg.2 ++ pad.2 ++ bord.2
        let styleReq : List DocRequest :=
          if cellStyle.isEmpty then []
          else [.updateTableCellStyle tableStart rowIdx (pyIndex cells cell)
            (entriesOfList cellStyle) (joinComma cellFields)]
        let tsf := cellTextStyle tableCfg isHeader
        let textReqs : List DocRequest :=
          if tsf.1.isEmpty then []
          else cellTextLoop cell.content (entriesOfList tsf.1)
            (joinComma tsf.2)
        .ok (styleReq ++ textReqs)

def buildCellsGo (tableStart : Int) (tableCfg : JEntries) (rowIdx : Nat)
    (cells : List DCell) : List DCell → Except Unit (List DocRequest)
  | [] => .ok []
  | cell :: rest =>
    match buildCellRequests tableStart tableCfg rowIdx cells cell with
    | .error e => .error e
    | .ok r =>
      match buildCellsGo tableStart tableCfg rowIdx cells rest with
      | .error e => .error e
      | .ok rs => .ok (r ++ rs)

def buildRowsGo (tableStart : Int) (tableCfg : JEntries) :
    Nat → List DRow → Except Unit (List DocRequest)
  | _, [] => .ok []
  | rowIdx, row :: rest =>
    match buildCellsGo tableStart tableCfg rowIdx row.cells row.cells with
    | .error e => .error e
    | .ok r =>
      match buildRowsGo tableStart tableCfg (rowIdx + 1) rest with
      | .error e => .error e
      | .ok rs => .ok (r ++ rs)

/-- `_build_table_requests` (lines 443-554). -/
def buildTableRequests (tableStart : Int) (rows : List DRow)
    (styles : JEntries) : Except Unit (List DocRequest) := do
  let tableCfgV := dictGet styles "table" (.obj .nil)
  if !jTruthy tableCfgV then return []
  let tableCfg ← asObj tableCfgV
  let body ← buildRowsGo tableStart tableCfg 0 rows
  let pin : List DocRequest :=
    if jTruthy (dictGet tableCfg "pin_header_rows" .null) && !rows.isEmpty
    then [.pinTableHeaderRows tableStart 1]
    else []
  return body ++ pin

/-- The `for element in content` walk of `post_process` (lines 66-74). -/
def buildElementsGo (styles : JEntries) :
    List DElement → Except Unit (List DocRequest)
  | [] => .ok []
  | .para s e p :: rest =>
    match buildParagraphRequests s e p styles with
    | .error er => .error er
    | .ok r =>
      match buildElementsGo styles rest with
      | .error er => .error er
      | .ok rs => .ok (r ++ rs)
  | .table s rows :: rest =>
    match buildTableRequests s rows styles with
    | .error er => .error er
    | .ok r =>
      match buildElementsGo styles rest with
      | .error er => .error er
      | .ok rs => .ok (r ++ rs)
  | .other :: rest => buildElementsGo styles rest

/-- Everything `post_process` computes between the document read and the
batchUpdate call (lines 57-74) — none of it inside a `try`. -/
def buildAllRequests (styles : JEntries) (doc : List DElement) :
    Except Unit (List DocRequest) := do
  let docReqs ← buildDocumentStyleRequests styles
  let rest ← buildElementsGo styles doc
  return docReqs ++ rest

/-- Observable outcome of one `post_process` call. -/
inductive PPOutcome where
  | warnedConnect
  | warnedRead
  | noRequests
  | applied (reqs : List DocRequest)
  | warnedBatch (reqs : List DocRequest)
  | raised
  deriving Repr

def ppRaised : PPOutcome → Bool
  | .raised => true
  | _ => false

/-- `post_process` (lines 40-86): the Docs-API connection, the document
read and the batchUpdate are the three `try`-wrapped effects, passed in
as oracles; request building runs outside any `try`, so its exceptions
reach the caller (`.raised`). -/
def postProcess (styles : JEntries) (connect : Except Unit Unit)
    (docRead : Except Unit (List DElement))
    (batch : List DocRequest → Except Unit Unit) : PPOutcome :=
  match connect with
  | .error _ => .warnedConnect
  | .ok _ =>
    match docRead with
    | .error _ => .warnedRead
    | .ok doc =>
      match buildAllRequests styles doc with
      | .error _ => .raised
      | .ok reqs =>
        if reqs.isEmpty then .noRequests
        else
          match batch reqs with
          | .error _ => .warnedBatch reqs
          | .ok _ => .applied reqs

/-! ### The default style dictionaries of `gdoc/styles.py` (lines 31-171),
as pure JSON values (the view of the module-level dicts). -/

def marginsEntries : JEntries := entriesOfList
  [("top", .num 36), ("bottom", .num 36),
   ("left", .num 54), ("right", .num 54)]

def defaultLayout : JEntries := entriesOfList
  [("pageless", .bool true),
   ("margins", .obj marginsEntries),
   ("page_width", .num 612), ("page_height", .num 792)]

/-- One `HEADINGS` entry (all six share the key order
font/size/color/bold/space_before/space_after). -/
def headingEntries (font : String) (size : ℚ) (color : String)
    (sb sa : ℚ) : JEntries := entriesOfList
  [("font", .str font), ("size", .num size), ("color", .str color),
   ("bold", .bool true), ("space_before", .num sb), ("space_after", .num sa)]

def defaultHeadings : JEntries := entriesOfList
  [("h1", .obj (headingEntries "Inter" 24 "#111111" 20 6)),
   ("h2", .obj (headingEntries "Inter" 18 "#111111" 16 4)),
   ("h3", .obj (headingEntries "Inter" 14 "#333333" 12 4)),
   ("h4", .obj (headingEntries "Inter" 12 "#333333" 10 2)),
   ("h5", .obj (headingEntries "Inter" 11 "#555555" 8 2)),
   ("h6", .obj (headingEntries "Inter" 10 "#6a737d" 8 2))]

def defaultBody : JEntries := entriesOfList
  [("font", .str "Inter"), ("size", .num 11), ("color", .str "#1a1a1a"),
   ("line_spacing", .num (Rat.divInt 23 20)), ("space_after", .num 6)]

def defaultCode : JEntries := entriesOfList
  [("font", .str "Roboto Mono"), ("size", .num (Rat.divInt 19 2)),
   ("color", .str "#24292e"), ("background", .str "#f6f8fa")]

def defaultTable : JEntries := entriesOfList
  [("header_background", .str "#f6f8fa"), ("header_bold", .bool true),
   ("cell_padding", .num 4), ("border_color", .str "#d0d7de"),
   ("border_width", .num (Rat.divInt 1 2)), ("font_size", .num 9),
   ("pin_header_rows", .bool true)]

def defaultBlockquote : JEntries := entriesOfList
  [("color", .str "#6a737d"), ("italic", .bool true), ("indent", .num 36),
   ("space_before", .num 4), ("space_after", .num 4)]

def defaultCssVars : JEntries := entriesOfList
  [("font_family", .str "'Inter', 'Helvetica Neue', Arial, sans-serif"),
   ("code_font", .str "'Roboto Mono', 'SF Mono', 'Consolas', monospace"),
   ("body_font_size", .str "11pt"),
   ("body_line_height", .str "1.6"),
   ("body_color", .str "#1a1a1a"),
   ("heading_color", .str "#111111"),
   ("code_bg", .str "#f6f8fa"),
   ("code_border", .str "#e1e4e8"),
   ("code_color", .str "#24292e"),
   ("blockquote_border", .str "#dfe2e5"),
   ("blockquote_color", .str "#6a737d"),
   ("link_color", .str "#1a73e8"),
   ("table_border", .str "#d0d7de"),
   ("table_header_bg", .str "#f6f8fa"),
   ("table_alt_bg", .str "#fafbfc"),
   ("hr_color", .str "#d0d7de")]

/-- The value of the `styles` dict built by `get_styles` before the
override merge (lines 308-316), seen as pure JSON. -/
def defaultStylesEntries : JEntries := entriesOfList
  [("layout", .obj defaultLayout), ("headings", .obj defaultHeadings),
   ("body", .obj defaultBody), ("code", .obj defaultCode),
   ("table", .obj defaultTable), ("blockquote", .obj defaultBlockquote),
   ("css_vars", .obj defaultCssVars)]

/-! ### C5: exception policy of `post_process` -/

/-- C5 (amended): the three `try`-wrapped effects of `post_process`
(connecting, reading the document, applying the batch) are indeed caught
and reported as warnings, but request *building* runs outside every
`try`, so an exception raised there — e.g. `hex_to_rgb`'s `ValueError`
on a malformed color string — propagates to the caller: the pass raises
if and only if the connection and the read succeed and request building
fails. -/
theorem c5_exception_policy (styles : JEntries) (connect : Except Unit Unit)
    (docRead : Except Unit (List DElement))
    (batch : List DocRequest → Except Unit Unit) :
    postProcess styles connect docRead batch = .raised ↔
      connect = .ok () ∧
      ∃ doc, docRead = .ok doc ∧ buildAllRequests styles doc = .error () := by
  cases connect with
  | error e => simp [postProcess]
  | ok u =>
    cases u
    cases docRead with
    | error e => simp [postProcess]
    | ok doc =>
      cases h : buildAllRequests styles doc with
      | error e =>
        cases e
        constructor
        · intro _
          exact ⟨rfl, doc, rfl, h⟩
        · intro _
          simp [postProcess, h]
      | ok reqs =>
        simp only [postProcess, h]
        constructor
        · intro hcontra
          split at hcontra
          · exact absurd hcontra (by simp)
          · split at hcontra <;> exact absurd hcontra (by simp)
        · rintro ⟨_, doc', hdoc, hbuild⟩
          injection hdoc with hdoc
          subst hdoc
          rw [h] at hbuild
          exact absurd hbuild (by simp)

/-- The override `{"body": {"color": "xyz"}}` — a well-formed
`styles.json` with a malformed color string. -/
def c5Override : JEntries := entriesOfList
  [("body", .obj (entriesOfList [("color", .str "xyz")]))]

/-- A one-paragraph document (plain body text). -/
def c5Doc : List DElement :=
  [.para 1 7 ⟨some "NORMAL_TEXT", 0, [some ⟨"hello\n", ""⟩]⟩]

/-- Counterexample to C5 as stated: with the user override
`{"body": {"color": "xyz"}}` merged into the defaults exactly as
`get_styles` does, styling the document raises `ValueError` out of
`post_process` (outcome `.raised`), although with the default
configuration the same document is styled without incident. -/
theorem c5_counterexample :
    hex_to_rgb "xyz".toList = .error () ∧
    ppRaised (postProcess (deepMergeEntries defaultStylesEntries c5Override)
      (.ok ()) (.ok c5Doc) (fun _ => .ok ())) = true ∧
    ppRaised (postProcess defaultStylesEntries
      (.ok ()) (.ok c5Doc) (fun _ => .ok ())) = false := by
  refine ⟨rfl, by decide, by decide⟩

/-! ### C6: paragraph classification -/

/-- C6: for a non-empty `NORMAL_TEXT` paragraph the classification is a
deterministic function of the indent magnitude and the fonts of its
non-blank text runs, with code detection taking priority: if any
non-blank run's font family contains a monospace marker the paragraph is
styled as code — for every indent, including indents above the 20-point
blockquote threshold; if no run does and the indent exceeds 20 it is
styled as a blockquote; otherwise as body text. -/
theorem c6_paragraph_classification (startI endI : Int) (p : DPara)
    (styles : JEntries)
    (hns : p.namedStyleType.getD "NORMAL_TEXT" = "NORMAL_TEXT")
    (hne : startI < endI) :
    ((∃ run ∈ getTextRuns p.elements, runIsMono run = true) →
      buildParagraphRequests startI endI p styles =
        (if jTruthy (dictGet styles "code" (.obj .nil)) then
          asObj (dictGet styles "code" (.obj .nil)) >>=
            styleCodeParagraph startI endI
        else .ok [])) ∧
    ((∀ run ∈ getTextRuns p.elements, runIsMono run = false) →
      20 < p.indentMagnitude →
      buildParagraphRequests startI endI p styles =
        (if jTruthy (dictGet styles "blockquote" (.obj .nil)) then
          asObj (dictGet styles "blockquote" (.obj .nil)) >>=
            styleBlockquote startI endI
        else .ok [])) ∧
    ((∀ run ∈ getTextRuns p.elements, runIsMono run = false) →
      ¬ 20 < p.indentMagnitude →
      buildParagraphRequests startI endI p styles =
        (if jTruthy (dictGet styles "body" (.obj .nil)) then
          asObj (dictGet styles "body" (.obj .nil)) >>=
            styleBodyParagraph startI endI
        else .ok [])) := by
  have hlt : ¬ startI ≥ endI := by omega
  have hhk : headingKey "NORMAL_TEXT" = none := rfl
  refine ⟨?_, ?_, ?_⟩
  · intro hmono
    have hcode : looksLikeCode (getTextRuns p.elements) = true := by
      rw [looksLikeCode, List.any_eq_true]
      obtain ⟨run, hr, hm⟩ := hmono
      exact ⟨run, hr, hm⟩
    rw [buildParagraphRequests]
    rw [hns, if_neg hlt, hhk]
    simp only [if_pos rfl, hcode, if_true]
  · intro hmono hind
    have hcode : looksLikeCode (getTextRuns p.elements) = false := by
      rw [looksLikeCode]
      rw [List.any_eq_false]
      intro run hr
      simp [hmono run hr]
    rw [buildParagraphRequests]
    rw [hns, if_neg hlt, hhk]
    simp only [if_pos rfl, hcode, Bool.false_eq_true, if_false,
      if_pos hind]
    simp
  · intro hmono hind
    have hcode : looksLikeCode (getTextRuns p.elements) = false := by
      rw [looksLikeCode]
      rw [List.any_eq_false]
      intro run hr
      simp [hmono run hr]
    rw [buildParagraphRequests]
    rw [hns, if_neg hlt, hhk]
    simp only [if_pos rfl, hcode, Bool.false_eq_true, if_false,
      if_neg hind]
    simp

/-- Witness for C6: a 40-point-indented paragraph ("Roboto Mono" run),
the claim's own example: classified code despite the blockquote-level
indent, under the default configuration. -/
theorem c6_paragraph_classification_witness :
    ((DPara.mk (some "NORMAL_TEXT") 40
        [some (DTextRun.mk "x = 1" "Roboto Mono")]).namedStyleType.getD
        "NORMAL_TEXT" = "NORMAL_TEXT") ∧
    ((1 : Int) < 7) ∧
    (((∃ run ∈ getTextRuns (DPara.mk (some "NORMAL_TEXT") 40
        [some (DTextRun.mk "x = 1" "Roboto Mono")]).elements,
        runIsMono run = true) →
      buildParagraphRequests 1 7 (DPara.mk (some "NORMAL_TEXT") 40
          [some (DTextRun.mk "x = 1" "Roboto Mono")]) defaultStylesEntries =
        (if jTruthy (dictGet defaultStylesEntries "code" (.obj .nil)) then
          asObj (dictGet defaultStylesEntries "code" (.obj .nil)) >>=
            styleCodeParagraph 1 7
        else .ok [])) ∧
    ((∀ run ∈ getTextRuns (DPara.mk (some "NORMAL_TEXT") 40
        [some (DTextRun.mk "x = 1" "Roboto Mono")]).elements,
        runIsMono run = false) →
      20 < (DPara.mk (some "NORMAL_TEXT") 40
        [some (DTextRun.mk "x = 1" "Roboto Mono")]).indentMagnitude →
      buildParagraphRequests 1 7 (DPara.mk (some "NORMAL_TEXT") 40
          [some (DTextRun.mk "x = 1" "Roboto Mono")]) defaultStylesEntries =
        (if jTruthy (dictGet defaultStylesEntries "blockquote" (.obj .nil))
        then
          asObj (dictGet defaultStylesEntries "blockquote" (.obj .nil)) >>=
            styleBlockquote 1 7
        else .ok [])) ∧
    ((∀ run ∈ getTextRuns (DPara.mk (some "NORMAL_TEXT") 40
        [some (DTextRun.mk "x = 1" "Roboto Mono")]).elements,
        runIsMono run = false) →
      ¬ 20 < (DPara.mk (some "NORMAL_TEXT") 40
        [some (DTextRun.mk "x = 1" "Roboto Mono")]).indentMagnitude →
      buildParagraphRequests 1 7 (DPara.mk (some "NORMAL_TEXT") 40
          [some (DTextRun.mk "x = 1" "Roboto Mono")]) defaultStylesEntries =
        (if jTruthy (dictGet defaultStylesEntries "body" (.obj .nil)) then
          asObj (dictGet defaultStylesEntries "body" (.obj .nil)) >>=
            styleBodyParagraph 1 7
        else .ok []))) :=
  ⟨by decide, by decide,
    c6_paragraph_classification 1 7
      (DPara.mk (some "NORMAL_TEXT") 40
        [some (DTextRun.mk "x = 1" "Roboto Mono")])
      defaultStylesEntries (by decide) (by decide)⟩

/-! ### C9: table cell mutations address structural coordinates -/

/-- The `(rowIndex, columnIndex)` coordinates of the cell-style mutations
in a request list. -/
def cellCoords : List DocRequest → List (Nat × Nat)
  | [] => []
  | .updateTableCellStyle _ r c _ _ :: rest => (r, c) :: cellCoords rest
  | _ :: rest => cellCoords rest

/-- Positions `(rowIdx, colIdx)` of the cells with a non-empty content
range, scanning a row from column `colIdx`. -/
def rowNonemptyCoords (rowIdx : Nat) : Nat → List DCell → List (Nat × Nat)
  | _, [] => []
  | colIdx, cell :: rest =>
    (if cell.startIndex < cell.endIndex then [(rowIdx, colIdx)] else []) ++
      rowNonemptyCoords rowIdx (colIdx + 1) rest

def tableNonemptyCoords : Nat → List DRow → List (Nat × Nat)
  | _, [] => []
  | rowIdx, row :: rest =>
    rowNonemptyCoords rowIdx 0 row.cells ++
      tableNonemptyCoords (rowIdx + 1) rest

/-- The cells of an API-read table row in order: each cell's range is
consistent and ends before the next cell's range begins. -/
def cellsChain : List DCell → Bool
  | [] => true
  | [c] => decide (c.startIndex ≤ c.endIndex)
  | c1 :: c2 :: rest =>
    decide (c1.startIndex ≤ c1.endIndex) &&
    decide (c1.endIndex ≤ c2.startIndex) && cellsChain (c2 :: rest)

theorem cellCoords_append : ∀ (a b : List DocRequest),
    cellCoords (a ++ b) = cellCoords a ++ cellCoords b
  | [], b => rfl
  | r :: rest, b => by
    cases r <;> simp [cellCoords, cellCoords_append rest b]

theorem cellCoords_cellTextLoop :
    ∀ (content : List (Option (Int × Int))) (ts : JEntries) (tf : String),
      cellCoords (cellTextLoop content ts tf) = []
  | [], _, _ => rfl
  | some (ps, pe) :: rest, ts, tf => by
    by_cases h : ps < pe
    · simp [cellTextLoop, h, cellCoords, cellCoords_cellTextLoop rest ts tf]
    · simp [cellTextLoop, h, cellCoords_cellTextLoop rest ts tf]
  | none :: rest, ts, tf => by
    simp [cellTextLoop, cellCoords_cellTextLoop rest ts tf]

theorem cellsChain_first {c : DCell} {rest : List DCell}
    (h : cellsChain (c :: rest) = true) : c.startIndex ≤ c.endIndex := by
  cases rest with
  | nil => simpa [cellsChain] using h
  | cons c2 r =>
    simp only [cellsChain, Bool.and_eq_true, decide_eq_true_eq] at h
    exact h.1.1

theorem cellsChain_tail {c : DCell} {rest : List DCell}
    (h : cellsChain (c :: rest) = true) : cellsChain rest = true := by
  cases rest with
  | nil => rfl
  | cons c2 r =>
    simp only [cellsChain, Bool.and_eq_true] at h
    exact h.2

theorem cellsChain_head_le : ∀ {c : DCell} {rest : List DCell},
    cellsChain (c :: rest) = true → ∀ x ∈ rest, c.endIndex ≤ x.startIndex := by
  intro c rest
  induction rest generalizing c with
  | nil => intro _ x hx; simp at hx
  | cons c2 r ih =>
    intro h x hx
    have h' := h
    simp only [cellsChain, Bool.and_eq_true, decide_eq_true_eq] at h'
    rcases List.mem_cons.mp hx with rfl | hx
    · exact h'.1.2
    · have h2 := ih h'.2 x hx
      have h3 := cellsChain_first h'.2
      omega

theorem pyIndex_of_chain : ∀ (cells : List DCell) (k : Nat) (cell : DCell),
    cellsChain cells = true → cells.get? k = some cell →
    cell.startIndex < cell.endIndex → pyIndex cells cell = k
  | [], k, cell, _, hget, _ => by simp at hget
  | c :: rest, 0, cell, _, hget, _ => by
    simp only [List.get?_cons_zero, Option.some.injEq] at hget
    subst hget
    simp [pyIndex]
  | c :: rest, k + 1, cell, hchain, hget, hlt => by
    simp only [List.get?_cons_succ] at hget
    have hmem : cell ∈ rest := List.get?_mem hget
    have hne : c ≠ cell := by
      intro he
      have hle := cellsChain_head_le hchain cell hmem
      rw [he] at hle
      omega
    rw [pyIndex, if_neg hne,
      pyIndex_of_chain rest k cell (cellsChain_tail hchain) hget hlt]

theorem buildCell_default_empty (t : Int) (rowIdx : Nat)
    (cells : List DCell) (cell : DCell)
    (h : ¬ cell.startIndex < cell.endIndex) :
    buildCellRequests t defaultTable rowIdx cells cell = .ok [] := by
  rw [buildCellRequests, if_pos (by omega)]

theorem buildCell_default_nonempty (t : Int) (rowIdx : Nat)
    (cells : List DCell) (cell : DCell)
    (h : cell.startIndex < cell.endIndex) :
    ∃ css cf ts tf, buildCellRequests t defaultTable rowIdx cells cell =
      .ok (.updateTableCellStyle t rowIdx (pyIndex cells cell) css cf ::
        cellTextLoop cell.content ts tf) := by
  rw [buildCellRequests, if_neg (by omega)]
  by_cases hr : rowIdx = 0
  · subst hr
    exact ⟨_, _, _, _, rfl⟩
  · rw [show (decide (rowIdx = 0)) = false from decide_eq_false hr]
    exact ⟨_, _, _, _, rfl⟩

theorem buildCellsGo_coords (t : Int) (rowIdx : Nat) (cells : List DCell)
    (hchain : cellsChain cells = true) :
    ∀ (suffix : List DCell) (k : Nat), cells.drop k = suffix →
      ∃ reqs, buildCellsGo t defaultTable rowIdx cells suffix = .ok reqs ∧
        cellCoords reqs = rowNonemptyCoords rowIdx k suffix
  | [], k, _ => ⟨[], rfl, rfl⟩
  | cell :: rest, k, hdrop => by
    have hget : cells.get? k = some cell := by
      have h0 : (cells.drop k).get? 0 = some cell := by rw [hdrop]; rfl
      rw [List.get?_drop] at h0
      simpa using h0
    have hrest : cells.drop (k + 1) = rest := by
      rw [← List.tail_drop, hdrop]
      rfl
    obtain ⟨reqs2, hgo2, hco2⟩ :=
      buildCellsGo_coords t rowIdx cells hchain rest (k + 1) hrest
    by_cases hcell : cell.startIndex < cell.endIndex
    · obtain ⟨css, cf, ts, tf, hone⟩ :=
        buildCell_default_nonempty t rowIdx cells cell hcell
      have hidx := pyIndex_of_chain cells k cell hchain hget hcell
      refine ⟨(.updateTableCellStyle t rowIdx (pyIndex cells cell) css cf ::
        cellTextLoop cell.content ts tf) ++ reqs2, ?_, ?_⟩
      · simp [buildCellsGo, hone, hgo2]
      · rw [cellCoords_append]
        simp only [cellCoords, cellCoords_cellTextLoop, hco2, hidx]
        simp [rowNonemptyCoords, hcell]
    · have hone := buildCell_default_empty t rowIdx cells cell hcell
      refine ⟨reqs2, ?_, ?_⟩
      · simp [buildCellsGo, hone, hgo2]
      · rw [hco2]
        simp [rowNonemptyCoords, hcell]

theorem buildRowsGo_coords : ∀ (rows : List DRow) (rowIdx : Nat) (t : Int),
    (∀ row ∈ rows, cellsChain row.cells = true) →
    ∃ reqs, buildRowsGo t defaultTable rowIdx rows = .ok reqs ∧
      cellCoords reqs = tableNonemptyCoords rowIdx rows
  | [], _, _, _ => ⟨[], rfl, rfl⟩
  | row :: rest, rowIdx, t, hrows => by
    obtain ⟨reqs1, hgo1, hco1⟩ :=
      buildCellsGo_coords t rowIdx row.cells (hrows row (by simp))
        row.cells 0 rfl
    obtain ⟨reqs2, hgo2, hco2⟩ :=
      buildRowsGo_coords rest (rowIdx + 1) t
        (fun r hr => hrows r (List.mem_cons.mpr (Or.inr hr)))
    refine ⟨reqs1 ++ reqs2, ?_, ?_⟩
    · simp [buildRowsGo, hgo1, hgo2]
    · rw [cellCoords_append, hco1, hco2]
      rfl

/-- C9: under the default configuration, for any ordered table the
emitted cell-style mutations are addressed exactly by the structural
coordinates `(rowIndex, columnIndex)` of the cells with a non-empty
content range, in order — one mutation per non-empty cell, its column
index equal to the cell's own position in its row (`cells.index(cell)`
resolves to the cell itself), and none at all for cells whose range is
empty. -/
theorem c9_cell_mutation_coordinates (t : Int) (rows : List DRow)
    (hrows : ∀ row ∈ rows, cellsChain row.cells = true) :
    ∃ reqs, buildTableRequests t rows defaultStylesEntries = .ok reqs ∧
      cellCoords reqs = tableNonemptyCoords 0 rows := by
  obtain ⟨reqs, hgo, hco⟩ := buildRowsGo_coords rows 0 t hrows
  have h1 : buildTableRequests t rows defaultStylesEntries =
      (buildRowsGo t defaultTable 0 rows) >>= (fun body =>
        .ok (body ++ (if !rows.isEmpty then
          [DocRequest.pinTableHeaderRows t 1] else []))) := rfl
  refine ⟨reqs ++ (if !rows.isEmpty then
    [DocRequest.pinTableHeaderRows t 1] else []), ?_, ?_⟩
  · rw [h1, hgo]
    rfl
  · rw [cellCoords_append, hco]
    cases rows with
    | nil => rfl
    | cons r rest => simp [cellCoords]

/-- Witness for C9: a two-row table (second cell of the first row
empty); the mutations address `(0,0)`, `(0,2)` and `(1,0)`. -/
theorem c9_cell_mutation_coordinates_witness :
    (∀ row ∈ [DRow.mk [DCell.mk 1 5 [some (2, 4)], DCell.mk 5 5 [],
        DCell.mk 5 9 []], DRow.mk [DCell.mk 10 12 []]],
      cellsChain row.cells = true) ∧
    (∃ reqs, buildTableRequests 0
        [DRow.mk [DCell.mk 1 5 [some (2, 4)], DCell.mk 5 5 [],
          DCell.mk 5 9 []], DRow.mk [DCell.mk 10 12 []]]
        defaultStylesEntries = .ok reqs ∧
      cellCoords reqs = tableNonemptyCoords 0
        [DRow.mk [DCell.mk 1 5 [some (2, 4)], DCell.mk 5 5 [],
          DCell.mk 5 9 []], DRow.mk [DCell.mk 10 12 []]]) :=
  ⟨by decide, c9_cell_mutation_coordinates 0 _ (by decide)⟩

/-! ### C10: the heap model of style resolution

Python dicts are mutable heap objects.  `Store` is the heap — a list of
dict objects, an address being an index — and `HVal` a dict value:
either an immediate non-dict JSON value or a reference to another dict.
The module-level defaults of `styles.py` live at fixed addresses in
`defaultStore`.  All operations below only ever *append* to the store
(`alloc`); the frame theorems make this precise. -/

inductive HVal where
  | pv (v : JVal)
  | ref (a : Nat)
  deriving Repr

abbrev HObj := List (String × HVal)
abbrev Store := List HObj

/-- Create a new dict object; returns its address. -/
def alloc (σ : Store) (o : HObj) : Store × Nat := (σ ++ [o], σ.length)

def hLookup : HObj → String → Option HVal
  | [], _ => none
  | (k', v) :: rest, k => if k = k' then some v else hLookup rest k

def hSetKey : HObj → String → HVal → HObj
  | [], k, v => [(k, v)]
  | (k', v') :: rest, k, v =>
    if k = k' then (k', v) :: rest else (k', v') :: hSetKey rest k v

/-- An immediate value is never a dict (dicts live in the store), so
`isinstance(·, dict)` is exactly "is a `ref`". -/
def wfHVal : HVal → Bool
  | .pv (.obj _) => false
  | _ => true

def wfObj (o : HObj) : Bool := o.all (fun kv => wfHVal kv.2)

def wfStore (σ : Store) : Bool := σ.all wfObj

mutual

/-- Read the JSON tree rooted at a heap value (`fuel` bounds the
dereferencing depth). -/
def viewV : Nat → Store → HVal → Option JVal
  | _, _, .pv v => some v
  | 0, _, .ref _ => none
  | fuel + 1, σ, .ref a =>
    match σ.get? a with
    | none => none
    | some o =>
      match viewO fuel σ o with
      | none => none
      | some es => some (.obj es)

def viewO : Nat → Store → HObj → Option JEntries
  | _, _, [] => some .nil
  | 0, _, _ :: _ => none
  | fuel + 1, σ, (k, v) :: rest =>
    match viewV fuel σ v, viewO fuel σ rest with
    | some jv, some es => some (.cons k jv es)
    | _, _ => none

end

/-- The heap value at `h` reads back as the JSON tree `v`. -/
def viewedAs (σ : Store) (h : HVal) (v : JVal) : Prop :=
  ∃ fuel, viewV fuel σ h = some v

mutual

/-- `_deep_merge(base, overrides)` over the heap: `result = base.copy()`
starts from `base`'s entry list, the loop mutates the (local, fresh)
result, which is allocated as a new dict at the end.  Existing store
entries are never written. -/
def deepMergeH : Nat → Store → Nat → Nat → Option (Store × Nat)
  | 0, _, _, _ => none
  | fuel + 1, σ, b, o =>
    match σ.get? b, σ.get? o with
    | some base, some ovr =>
      match mergeLoopH fuel σ base ovr with
      | none => none
      | some (σ1, resE) => some (alloc σ1 resE)
    | _, _ => none

/-- `for key, value in overrides.items(): …` — the dict branch requires
`key in result`, `result[key]` a dict and `value` a dict. -/
def mergeLoopH : Nat → Store → HObj → HObj → Option (Store × HObj)
  | _, σ, result, [] => some (σ, result)
  | 0, _, _, _ :: _ => none
  | fuel + 1, σ, result, (k, v) :: rest =>
    match hLookup result k, v with
    | some (.ref ra), .ref va =>
      match deepMergeH fuel σ ra va with
      | none => none
      | some (σ1, na) =>
        mergeLoopH fuel σ1 (hSetKey result k (.ref na)) rest
    | _, _ => mergeLoopH fuel σ (hSetKey result k v) rest

end

mutual

/-- Store a freshly parsed JSON value (`json.loads` output shares
nothing): objects become new dicts, other values are immediate. -/
def allocVal : Store → JVal → Store × HVal
  | σ, .obj es =>
    let so := allocObj σ es
    let sa := alloc so.1 so.2
    (sa.1, .ref sa.2)
  | σ, .arr l => (σ, .pv (.arr l))
  | σ, .str s => (σ, .pv (.str s))
  | σ, .num q => (σ, .pv (.num q))
  | σ, .bool b => (σ, .pv (.bool b))
  | σ, .null => (σ, .pv .null)

def allocObj : Store → JEntries → Store × HObj
  | σ, .nil => (σ, [])
  | σ, .cons k v rest =>
    let sv := allocVal σ v
    let sr := allocObj sv.1 rest
    (sr.1, (k, sv.2) :: sr.2)

end

/-- `d.copy()` for the dict at address `a`: a new object with the same
entry list (a *shallow* copy — nested dicts stay shared). -/
def copyAt (σ : Store) (a : Nat) : Option (Store × Nat) :=
  match σ.get? a with
  | none => none
  | some o => some (alloc σ o)

/-- `{k: v.copy() for k, v in d.items()}` — the headings comprehension;
`.copy()` on a non-dict value raises. -/
def copyEach : Store → HObj → Option (Store × HObj)
  | σ, [] => some (σ, [])
  | σ, (k, .ref a) :: rest =>
    match σ.get? a with
    | none => none
    | some o =>
      let sa := alloc σ o
      match copyEach sa.1 rest with
      | none => none
      | some (σ2, entries) => some (σ2, (k, .ref sa.2) :: entries)
  | _, (_, .pv _) :: _ => none

/-- A flat dict (no nested dicts) as a heap object. -/
def hobjOfPure : JEntries → HObj
  | .nil => []
  | .cons k v rest => (k, .pv v) :: hobjOfPure rest

/-- The heap after importing `styles.py`: the module-level default dicts
at fixed addresses — `LAYOUT["margins"]` at 0, `LAYOUT` at 1, `h1`-`h6`
at 2-7, `HEADINGS` at 8, then `BODY`, `CODE`, `TABLE`, `BLOCKQUOTE`,
`CSS_VARS` at 9-13. -/
def defaultStore : Store :=
  [hobjOfPure marginsEntries,
   [("pageless", .pv (.bool true)), ("margins", .ref 0),
    ("page_width", .pv (.num 612)), ("page_height", .pv (.num 792))],
   hobjOfPure (headingEntries "Inter" 24 "#111111" 20 6),
   hobjOfPure (headingEntries "Inter" 18 "#111111" 16 4),
   hobjOfPure (headingEntries "Inter" 14 "#333333" 12 4),
   hobjOfPure (headingEntries "Inter" 12 "#333333" 10 2),
   hobjOfPure (headingEntries "Inter" 11 "#555555" 8 2),
   hobjOfPure (headingEntries "Inter" 10 "#6a737d" 8 2),
   [("h1", .ref 2), ("h2", .ref 3), ("h3", .ref 4),
    ("h4", .ref 5), ("h5", .ref 6), ("h6", .ref 7)],
   hobjOfPure defaultBody,
   hobjOfPure defaultCode,
   hobjOfPure defaultTable,
   hobjOfPure defaultBlockquote,
   hobjOfPure defaultCssVars]

/-- `get_styles` (lines 301-326) over the heap: the seven `.copy()`
calls and the headings comprehension build the fresh `styles` dict (its
sub-dicts still sharing grandchildren with the defaults, e.g.
`LAYOUT["margins"]`), then the optional override is deep-merged. -/
def getStylesH (σ : Store) (ovr : Option Nat) (fuel : Nat) :
    Option (Store × Nat) :=
  match copyAt σ 1 with
  | none => none
  | some (σ1, layoutC) =>
    match σ1.get? 8 with
    | none => none
    | some headingsO =>
      match copyEach σ1 headingsO with
      | none => none
      | some (σ2, hcopies) =>
        let s3 := alloc σ2 hcopies
        match copyAt s3.1 9 with
        | none => none
        | some (σ4, bodyC) =>
          match copyAt σ4 10 with
          | none => none
          | some (σ5, codeC) =>
            match copyAt σ5 11 with
            | none => none
            | some (σ6, tableC) =>
              match copyAt σ6 12 with
              | none => none
              | some (σ7, bqC) =>
                match copyAt σ7 13 with
                | none => none
                | some (σ8, cssC) =>
                  let s9 := alloc σ8
                    [("layout", .ref layoutC), ("headings", .ref s3.2),
                     ("body", .ref bodyC), ("code", .ref codeC),
                     ("table", .ref tableC), ("blockquote", .ref bqC),
                     ("css_vars", .ref cssC)]
                  match ovr with
                  | none => some (s9.1, s9.2)
                  | some oa => deepMergeH fuel s9.1 s9.2 oa

/-- A full `get_styles` call with an override file whose parsed JSON is
`ovr`: `json.loads` allocates a fresh tree, then `get_styles` runs. -/
def getStylesFromOverride (σ : Store) (ovr : Option JEntries)
    (fuel : Nat) : Option (Store × Nat) :=
  match ovr with
  | none => getStylesH σ none fuel
  | some oe =>
    let sv := allocVal σ (.obj oe)
    match sv.2 with
    | .ref oa => getStylesH sv.1 (some oa) fuel
    | .pv _ => none

/-! Frame lemmas: every operation only appends to the store. -/

mutual

theorem deepMergeH_frame : ∀ (fuel : Nat) (σ : Store) (b o : Nat)
    (σ' : Store) (n : Nat), deepMergeH fuel σ b o = some (σ', n) →
    ∃ ext, σ' = σ ++ ext
  | 0, σ, b, o, σ', n, h => by simp [deepMergeH] at h
  | fuel + 1, σ, b, o, σ', n, h => by
    simp only [deepMergeH] at h
    split at h
    next base ovr hb ho =>
      split at h
      · exact absurd h (by simp)
      next σ1 resE hloop =>
        obtain ⟨ext1, hext1⟩ :=
          mergeLoopH_frame fuel σ base ovr σ1 resE hloop
        simp only [alloc, Option.some.injEq, Prod.mk.injEq] at h
        exact ⟨ext1 ++ [resE], by rw [← h.1, hext1, List.append_assoc]⟩
    next => exact absurd h (by simp)

theorem mergeLoopH_frame : ∀ (fuel : Nat) (σ : Store) (res entries : HObj)
    (σ' : Store) (res' : HObj),
    mergeLoopH fuel σ res entries = some (σ', res') → ∃ ext, σ' = σ ++ ext
  | fuel, σ, res, [], σ', res', h => by
    have : σ = σ' := by
      cases fuel <;> simpa [mergeLoopH] using congrArg (·.map Prod.fst) h
    exact ⟨[], by simp [← this]⟩
  | 0, σ, res, e :: rest, σ', res', h => by simp [mergeLoopH] at h
  | fuel + 1, σ, res, (k, v) :: rest, σ', res', h => by
    simp only [mergeLoopH] at h
    split at h
    next =>
      split at h
      · exact absurd h (by simp)
      next σ1 na hmerge =>
        obtain ⟨ext1, hext1⟩ := deepMergeH_frame fuel σ _ _ σ1 na hmerge
        obtain ⟨ext2, hext2⟩ := mergeLoopH_frame fuel σ1 _ rest σ' res' h
        exact ⟨ext1 ++ ext2, by rw [hext2, hext1, List.append_assoc]⟩
    next =>
      exact mergeLoopH_frame fuel σ _ rest σ' res' h

end

theorem copyAt_frame {σ : Store} {a : Nat} {σ' : Store} {n : Nat}
    (h : copyAt σ a = some (σ', n)) : ∃ ext, σ' = σ ++ ext := by
  simp only [copyAt] at h
  split at h
  · exact absurd h (by simp)
  next o hget =>
    simp only [alloc, Option.some.injEq, Prod.mk.injEq] at h
    exact ⟨[o], h.1.symm⟩

theorem copyEach_frame : ∀ (entries : HObj) (σ : Store) (σ' : Store)
    (res : HObj), copyEach σ entries = some (σ', res) → ∃ ext, σ' = σ ++ ext
  | [], σ, σ', res, h => by
    simp only [copyEach, Option.some.injEq, Prod.mk.injEq] at h
    exact ⟨[], by simp [← h.1]⟩
  | (k, .ref a) :: rest, σ, σ', res, h => by
    simp only [copyEach] at h
    split at h
    · exact absurd h (by simp)
    next o hget =>
      split at h
      · exact absurd h (by simp)
      next σ2 entries2 hrest =>
        obtain ⟨ext2, hext2⟩ := copyEach_frame rest (σ ++ [o]) σ2 entries2
          (by simpa [alloc] using hrest)
        simp only [Option.some.injEq, Prod.mk.injEq] at h
        exact ⟨[o] ++ ext2, by rw [← h.1, hext2, List.append_assoc]⟩
  | (k, .pv w) :: rest, σ, σ', res, h => by simp [copyEach] at h

mutual

theorem allocVal_frame : ∀ (v : JVal) (σ : Store),
    ∃ ext, (allocVal σ v).1 = σ ++ ext
  | .obj es, σ => by
    obtain ⟨e1, he1⟩ := allocObj_frame es σ
    exact ⟨e1 ++ [(allocObj σ es).2], by
      simp [allocVal, alloc, he1, List.append_assoc]⟩
  | .arr l, σ => ⟨[], by simp [allocVal]⟩
  | .str s, σ => ⟨[], by simp [allocVal]⟩
  | .num q, σ => ⟨[], by simp [allocVal]⟩
  | .bool b, σ => ⟨[], by simp [allocVal]⟩
  | .null, σ => ⟨[], by simp [allocVal]⟩

theorem allocObj_frame : ∀ (es : JEntries) (σ : Store),
    ∃ ext, (allocObj σ es).1 = σ ++ ext
  | .nil, σ => ⟨[], by simp [allocObj]⟩
  | .cons k v rest, σ => by
    obtain ⟨e1, he1⟩ := allocVal_frame v σ
    obtain ⟨e2, he2⟩ := allocObj_frame rest (allocVal σ v).1
    exact ⟨e1 ++ e2, by
      rw [show (allocObj σ (.cons k v rest)).1
          = (allocObj (allocVal σ v).1 rest).1 from rfl,
        he2, he1, List.append_assoc]⟩

end

theorem store_ext_trans {ρ τ υ : Store} (h1 : ∃ e, τ = ρ ++ e)
    (h2 : ∃ e, υ = τ ++ e) : ∃ e, υ = ρ ++ e := by
  obtain ⟨a, ha⟩ := h1
  obtain ⟨b, hb⟩ := h2
  exact ⟨a ++ b, by rw [hb, ha, List.append_assoc]⟩

theorem alloc_ext (σ : Store) (o : HObj) : ∃ e, (alloc σ o).1 = σ ++ e :=
  ⟨[o], rfl⟩

theorem getStylesH_frame {σ : Store} {ovr : Option Nat} {fuel : Nat}
    {σ' : Store} {r : Nat} (h : getStylesH σ ovr fuel = some (σ', r)) :
    ∃ ext, σ' = σ ++ ext := by
  simp only [getStylesH] at h
  split at h
  · exact absurd h (by simp)
  next σ1 layoutC h1 =>
    split at h
    · exact absurd h (by simp)
    next headingsO h8 =>
      split at h
      · exact absurd h (by simp)
      next σ2 hcopies h2 =>
        split at h
        · exact absurd h (by simp)
        next σ4 bodyC h4 =>
          split at h
          · exact absurd h (by simp)
          next σ5 codeC h5 =>
            split at h
            · exact absurd h (by simp)
            next σ6 tableC h6 =>
              split at h
              · exact absurd h (by simp)
              next σ7 bqC h7 =>
                split at h
                · exact absurd h (by simp)
                next σ8 cssC h9 =>
                  obtain ⟨e1, he1⟩ := copyAt_frame h1
                  obtain ⟨e2, he2⟩ := copyEach_frame _ _ _ _ h2
                  obtain ⟨e4, he4⟩ := copyAt_frame h4
                  obtain ⟨e5, he5⟩ := copyAt_frame h5
                  obtain ⟨e6, he6⟩ := copyAt_frame h6
                  obtain ⟨e7, he7⟩ := copyAt_frame h7
                  obtain ⟨e9, he9⟩ := copyAt_frame h9
                  have hchain : σ8 = σ ++ (e1 ++ (e2 ++ ([hcopies] ++
                      (e4 ++ (e5 ++ (e6 ++ (e7 ++ e9))))))) := by
                    subst he9 he7 he6 he5 he4 he2 he1
                    simp [alloc, List.append_assoc]
                  split at h
                  · simp only [Option.some.injEq, Prod.mk.injEq] at h
                    refine store_ext_trans ⟨_, hchain⟩ ?_
                    rw [← h.1]
                    exact alloc_ext σ8 _
                  next oa =>
                    obtain ⟨em, hem⟩ := deepMergeH_frame fuel _ _ oa σ' r h
                    exact store_ext_trans
                      (store_ext_trans ⟨_, hchain⟩ (alloc_ext σ8 _))
                      ⟨em, hem⟩

theorem getStylesFromOverride_frame {σ : Store} {ovr : Option JEntries}
    {fuel : Nat} {σ' : Store} {r : Nat}
    (h : getStylesFromOverride σ ovr fuel = some (σ', r)) :
    ∃ ext, σ' = σ ++ ext := by
  cases ovr with
  | none =>
    simp only [getStylesFromOverride] at h
    exact getStylesH_frame h
  | some oe =>
    simp only [getStylesFromOverride] at h
    split at h
    next oa heq =>
      obtain ⟨e1, he1⟩ := getStylesH_frame h
      obtain ⟨e0, he0⟩ := allocVal_frame (.obj oe) σ
      exact ⟨e0 ++ e1, by rw [he1, he0, List.append_assoc]⟩
    next => exact absurd h (by simp)

/-! Views are stable under store extension and view-fuel increase. -/

mutual

theorem viewV_ext : ∀ (fuel : Nat) (σ ext : Store) (hv : HVal) (v : JVal),
    viewV fuel σ hv = some v → viewV fuel (σ ++ ext) hv = some v
  | fuel, σ, ext, .pv w, v, h => by cases fuel <;> exact h
  | 0, σ, ext, .ref a, v, h => by simp [viewV] at h
  | fuel + 1, σ, ext, .ref a, v, h => by
    simp only [viewV] at h
    split at h
    · exact absurd h (by simp)
    next o hget =>
      split at h
      · exact absurd h (by simp)
      next es hes =>
        have hlt : a < σ.length := by
          by_contra hge
          rw [List.get?_eq_none.mpr (by omega)] at hget
          exact Option.noConfusion hget
        have hget' : (σ ++ ext).get? a = some o := by
          rw [List.get?_append hlt]
          exact hget
        have hes' := viewO_ext fuel σ ext o es hes
        simp only [viewV, hget', hes']
        exact h

theorem viewO_ext : ∀ (fuel : Nat) (σ ext : Store) (o : HObj)
    (es : JEntries), viewO fuel σ o = some es →
    viewO fuel (σ ++ ext) o = some es
  | fuel, σ, ext, [], es, h => by cases fuel <;> exact h
  | 0, σ, ext, kv :: rest, es, h => by simp [viewO] at h
  | fuel + 1, σ, ext, (k, v) :: rest, es, h => by
    simp only [viewO] at h
    split at h
    next jv es2 hjv hes2 =>
      have h1 := viewV_ext fuel σ ext v jv hjv
      have h2 := viewO_ext fuel σ ext rest es2 hes2
      simp only [viewO, h1, h2]
      exact h
    next => exact absurd h (by simp)

end

mutual

theorem viewV_mono : ∀ (fuel : Nat) (σ : Store) (hv : HVal) (v : JVal),
    viewV fuel σ hv = some v → viewV (fuel + 1) σ hv = some v
  | fuel, σ, .pv w, v, h => by cases fuel <;> exact h
  | 0, σ, .ref a, v, h => by simp [viewV] at h
  | fuel + 1, σ, .ref a, v, h => by
    simp only [viewV] at h
    split at h
    · exact absurd h (by simp)
    next o hget =>
      split at h
      · exact absurd h (by simp)
      next es hes =>
        have hes' := viewO_mono fuel σ o es hes
        simp only [viewV, hget, hes']
        exact h

theorem viewO_mono : ∀ (fuel : Nat) (σ : Store) (o : HObj) (es : JEntries),
    viewO fuel σ o = some es → viewO (fuel + 1) σ o = some es
  | fuel, σ, [], es, h => by cases fuel <;> exact h
  | 0, σ, kv :: rest, es, h => by simp [viewO] at h
  | fuel + 1, σ, (k, v) :: rest, es, h => by
    simp only [viewO] at h
    split at h
    next jv es2 hjv hes2 =>
      have h1 := viewV_mono fuel σ v jv hjv
      have h2 := viewO_mono fuel σ rest es2 hes2
      simp only [viewO, h1, h2]
      exact h
    next => exact absurd h (by simp)

end

theorem viewV_le {f1 f2 : Nat} (h12 : f1 ≤ f2) {σ : Store} {hv : HVal}
    {v : JVal} (h : viewV f1 σ hv = some v) : viewV f2 σ hv = some v := by
  induction h12 with
  | refl => exact h
  | step _ ih => exact viewV_mono _ σ hv v ih

theorem viewO_le {f1 f2 : Nat} (h12 : f1 ≤ f2) {σ : Store} {o : HObj}
    {es : JEntries} (h : viewO f1 σ o = some es) : viewO f2 σ o = some es := by
  induction h12 with
  | refl => exact h
  | step _ ih => exact viewO_mono _ σ o es ih

theorem wfStore_get {σ : Store} {a : Nat} {o : HObj}
    (hwf : wfStore σ = true) (h : σ.get? a = some o) : wfObj o = true := by
  rw [wfStore, List.all_eq_true] at hwf
  exact hwf o (List.get?_mem h)

theorem wfStore_append {σ : Store} {o : HObj} (hwf : wfStore σ = true)
    (ho : wfObj o = true) : wfStore (σ ++ [o]) = true := by
  rw [wfStore, List.all_eq_true] at hwf ⊢
  intro x hx
  rcases List.mem_append.mp hx with hx | hx
  · exact hwf x hx
  · simp only [List.mem_singleton] at hx
    subst hx
    exact ho

theorem wfObj_lookup : ∀ {res : HObj} {k : String} {hv : HVal},
    wfObj res = true → hLookup res k = some hv → wfHVal hv = true := by
  intro res
  induction res with
  | nil => intro k hv _ h; simp [hLookup] at h
  | cons kv rest ih =>
    intro k hv hwf h
    obtain ⟨k', v'⟩ := kv
    rw [wfObj, List.all_cons, Bool.and_eq_true] at hwf
    simp only [hLookup] at h
    split at h
    · injection h with h
      subst h
      exact hwf.1
    · exact ih hwf.2 h

theorem wfObj_setKey : ∀ {res : HObj} {k : String} {hv : HVal},
    wfObj res = true → wfHVal hv = true →
    wfObj (hSetKey res k hv) = true := by
  intro res
  induction res with
  | nil =>
    intro k hv _ hh
    simp [hSetKey, wfObj, hh]
  | cons kv rest ih =>
    intro k hv hwf hh
    obtain ⟨k', v'⟩ := kv
    rw [wfObj, List.all_cons, Bool.and_eq_true] at hwf
    by_cases hk : k = k'
    · simp only [hSetKey, if_pos hk]
      simp [wfObj, hh, hwf.2]
    · simp only [hSetKey, if_neg hk]
      have hrec := @ih k hv hwf.2 hh
      rw [wfObj, List.all_cons, Bool.and_eq_true]
      exact ⟨hwf.1, hrec⟩

theorem viewedAs_ref_elim {σ : Store} {b : Nat} {w : JVal}
    (h : viewedAs σ (.ref b) w) :
    ∃ base f bv, σ.get? b = some base ∧ viewO f σ base = some bv ∧
      w = .obj bv := by
  obtain ⟨fuel, hf⟩ := h
  cases fuel with
  | zero => simp [viewV] at hf
  | succ f =>
    simp only [viewV] at hf
    split at hf
    · exact absurd hf (by simp)
    next base hget =>
      split at hf
      · exact absurd hf (by simp)
      next bv hbv =>
        injection hf with hf
        exact ⟨base, f, bv, hget, hbv, hf.symm⟩

theorem viewO_nil_fuel (fuel : Nat) (σ : Store) :
    viewO fuel σ [] = some .nil := by cases fuel <;> rfl

theorem viewO_lookup : ∀ (fuel : Nat) (σ : Store) (res : HObj)
    (resV : JEntries) (k : String), viewO fuel σ res = some resV →
    ((hLookup res k = none ∧ lookupKey resV k = none) ∨
      (∃ hv jv, hLookup res k = some hv ∧ lookupKey resV k = some jv ∧
        ∃ f2, viewV f2 σ hv = some jv))
  | fuel, σ, [], resV, k, h => by
    rw [viewO_nil_fuel] at h
    injection h with h
    exact Or.inl ⟨rfl, by rw [← h]; rfl⟩
  | 0, σ, kv :: rest, resV, k, h => by simp [viewO] at h
  | fuel + 1, σ, (k', v) :: rest, resV, k, h => by
    simp only [viewO] at h
    split at h
    next jv es2 hjv hes2 =>
      injection h with h
      subst h
      by_cases hk : k = k'
      · exact Or.inr ⟨v, jv, by simp [hLookup, hk], by simp [lookupKey, hk],
          ⟨fuel, hjv⟩⟩
      · rcases viewO_lookup fuel σ rest es2 k hes2 with
          ⟨h1, h2⟩ | ⟨hv, jv2, h1, h2, hf⟩
        · exact Or.inl ⟨by simp [hLookup, hk, h1],
            by simp [lookupKey, hk, h2]⟩
        · exact Or.inr ⟨hv, jv2, by simp [hLookup, hk, h1],
            by simp [lookupKey, hk, h2], hf⟩
    next => exact absurd h (by simp)

theorem viewO_setKey : ∀ (res : HObj) (fuel : Nat) (σ : Store)
    (resV : JEntries) (k : String) (hv : HVal) (jv : JVal) (f2 : Nat),
    viewO fuel σ res = some resV → viewV f2 σ hv = some jv →
    ∃ f3, viewO f3 σ (hSetKey res k hv) = some (setKey resV k jv)
  | [], fuel, σ, resV, k, hv, jv, f2, h, hview => by
    rw [viewO_nil_fuel] at h
    injection h with h
    subst h
    refine ⟨f2 + 1, ?_⟩
    have hnil : viewO f2 σ [] = some .nil := viewO_nil_fuel f2 σ
    simp only [hSetKey, setKey, viewO, hview, hnil]
  | (k', v') :: rest, fuel, σ, resV, k, hv, jv, f2, h, hview => by
    cases fuel with
    | zero => simp [viewO] at h
    | succ f =>
      simp only [viewO] at h
      split at h
      next jv' es' hjv' hes' =>
        injection h with h
        subst h
        by_cases hk : k = k'
        · refine ⟨max f2 f + 1, ?_⟩
          have h1 : viewV (max f2 f) σ hv = some jv :=
            viewV_le (le_max_left _ _) hview
          have h2 : viewO (max f2 f) σ rest = some es' :=
            viewO_le (le_max_right _ _) hes'
          rw [show hSetKey ((k', v') :: rest) k hv = (k', hv) :: rest by
            simp [hSetKey, hk]]
          rw [show setKey (.cons k' jv' es') k jv = .cons k' jv es' by
            simp [setKey, hk]]
          simp only [viewO, h1, h2]
        · obtain ⟨f3, hf3⟩ :=
            viewO_setKey rest f σ es' k hv jv f2 hes' hview
          refine ⟨max f f3 + 1, ?_⟩
          have h1 : viewV (max f f3) σ v' = some jv' :=
            viewV_le (le_max_left _ _) hjv'
          have h2 : viewO (max f f3) σ (hSetKey rest k hv)
              = some (setKey es' k jv) := viewO_le (le_max_right _ _) hf3
          rw [show hSetKey ((k', v') :: rest) k hv
              = (k', v') :: hSetKey rest k hv by simp [hSetKey, hk]]
          rw [show setKey (.cons k' jv' es') k jv
              = .cons k' jv' (setKey es' k jv) by simp [setKey, hk]]
          simp only [viewO, h1, h2]
      next => exact absurd h (by simp)

theorem mergeResultFor_base_not_obj {bjv : JVal}
    (h : ∀ be, bjv ≠ .obj be) (jv : JVal) :
    mergeResultFor (some bjv) jv = jv := by
  cases bjv
  case obj be => exact absurd rfl (h be)
  all_goals cases jv <;> rfl

theorem mergeResultFor_none (jv : JVal) : mergeResultFor none jv = jv := by
  cases jv <;> rfl

theorem wfHVal_pv_not_obj {w : JVal} (h : wfHVal (.pv w) = true) :
    ∀ be, w ≠ .obj be := by
  intro be he
  subst he
  simp [wfHVal] at h

theorem isObjVal_eq_false {v : JVal} (h : ∀ be, v ≠ .obj be) :
    isObjVal v = false := by
  cases v
  case obj be => exact absurd rfl (h be)
  all_goals rfl

/-! The central refinement: the heap merge computes, up to views, the
pure `_deep_merge` of C7. -/

mutual

theorem deepMergeH_view : ∀ (fuel : Nat) (σ : Store) (b o : Nat)
    (σ' : Store) (n : Nat) (bv ov : JEntries),
    wfStore σ = true →
    deepMergeH fuel σ b o = some (σ', n) →
    viewedAs σ (.ref b) (.obj bv) → viewedAs σ (.ref o) (.obj ov) →
    wfStore σ' = true ∧ viewedAs σ' (.ref n) (.obj (deepMergeEntries bv ov))
  | 0, σ, b, o, σ', n, bv, ov, hwf, hmerge, _, _ => by
    simp [deepMergeH] at hmerge
  | fuel + 1, σ, b, o, σ', n, bv, ov, hwf, hmerge, hbv, hov => by
    obtain ⟨base, fb, bv', hgetb, hviewb, heqb⟩ := viewedAs_ref_elim hbv
    obtain ⟨ovrO, fo, ov', hgeto, hviewo, heqo⟩ := viewedAs_ref_elim hov
    injection heqb with heqb
    injection heqo with heqo
    subst heqb heqo
    simp only [deepMergeH, hgetb, hgeto] at hmerge
    split at hmerge
    · exact absurd hmerge (by simp)
    next σ1 resE hloop =>
      simp only [alloc, Option.some.injEq, Prod.mk.injEq] at hmerge
      obtain ⟨hσ', hn⟩ := hmerge
      subst hσ' hn
      obtain ⟨hwf1, hwfres, f, hviewres⟩ :=
        mergeLoopH_view fuel σ base ovrO σ1 resE bv ov hwf
          (wfStore_get hwf hgetb) (wfStore_get hwf hgeto) hloop
          ⟨fb, hviewb⟩ ⟨fo, hviewo⟩
      refine ⟨wfStore_append hwf1 hwfres, f + 1, ?_⟩
      have hgetn : (σ1 ++ [resE]).get? σ1.length = some resE :=
        List.get?_concat_length σ1 resE
      have hve := viewO_ext f σ1 [resE] resE _ hviewres
      simp only [viewV, hgetn, hve]

theorem mergeLoopH_view : ∀ (fuel : Nat) (σ : Store) (res entries : HObj)
    (σ' : Store) (res' : HObj) (resV entV : JEntries),
    wfStore σ = true → wfObj res = true → wfObj entries = true →
    mergeLoopH fuel σ res entries = some (σ', res') →
    (∃ f, viewO f σ res = some resV) →
    (∃ f, viewO f σ entries = some entV) →
    wfStore σ' = true ∧ wfObj res' = true ∧
      ∃ f, viewO f σ' res' = some (deepMergeEntries resV entV)
  | fuel, σ, res, [], σ', res', resV, entV, hwf, hwfr, _, h, hres, hent => by
    have hh : (some (σ, res) : Option (Store × HObj)) = some (σ', res') := by
      cases fuel <;> exact h
    injection hh with hh
    injection hh with h1 h2
    subst h1 h2
    obtain ⟨fe, hfe⟩ := hent
    rw [viewO_nil_fuel] at hfe
    injection hfe with hfe
    subst hfe
    exact ⟨hwf, hwfr, hres⟩
  | 0, σ, res, e :: rest, σ', res', resV, entV, _, _, _, h, _, _ => by
    simp [mergeLoopH] at h
  | fuel + 1, σ, res, (k, v) :: rest, σ', res', resV, entV, hwf, hwfr,
      hwfe, h, hres, hent => by
    -- decompose the override entry's view
    obtain ⟨fe, hfe⟩ := hent
    cases fe with
    | zero => simp [viewO] at hfe
    | succ fe' =>
    simp only [viewO] at hfe
    split at hfe
    case h_2 => exact absurd hfe (by simp)
    case h_1 jv restV hjv hrestv =>
    injection hfe with hfe
    subst hfe
    have hwfv : wfHVal v = true := by
      rw [wfObj, List.all_cons, Bool.and_eq_true] at hwfe
      exact hwfe.1
    have hwfrest : wfObj rest = true := by
      rw [wfObj, List.all_cons, Bool.and_eq_true] at hwfe
      exact hwfe.2
    obtain ⟨fr, hfr⟩ := hres
    -- deepMergeEntries resV (cons k jv restV) steps through mergeStep
    rw [show deepMergeEntries resV (.cons k jv restV)
        = deepMergeEntries (mergeStep resV k jv) restV from rfl]
    rw [mergeStep_eq]
    cases hL : hLookup res k with
    | some hv0 =>
      cases hv0 with
      | ref ra =>
        cases v with
        | ref va =>
          -- the dict-dict branch: recursive merge
          simp only [mergeLoopH, hL] at h
          split at h
          · exact absurd h (by simp)
          next σ1 na hsub =>
            -- base sub-dict view
            rcases viewO_lookup fr σ res resV k hfr with
              ⟨hl0, _⟩ | ⟨hv1, bjv, hl1, hlk, f0, hviewhv⟩
            · rw [hL] at hl0; exact absurd hl0 (by simp)
            rw [hL] at hl1
            injection hl1 with hl1
            subst hl1
            obtain ⟨ba, fba, be, hgba, hvba, hbe⟩ :=
              viewedAs_ref_elim ⟨f0, hviewhv⟩
            subst hbe
            obtain ⟨oa, foa, oe, hgoa, hvoa, hoe⟩ :=
              viewedAs_ref_elim ⟨fe', hjv⟩
            subst hoe
            obtain ⟨hwf1, hviewna⟩ :=
              deepMergeH_view fuel σ ra va σ1 na be oe hwf hsub
                ⟨f0, hviewhv⟩ ⟨fe', hjv⟩
            obtain ⟨ext1, hext1⟩ := deepMergeH_frame fuel σ ra va σ1 na hsub
            -- lift the result and remaining-override views into σ1
            have hfr1 : viewO fr σ1 res = some resV := by
              rw [hext1]; exact viewO_ext fr σ ext1 res resV hfr
            have hrest1 : viewO fe' σ1 rest = some restV := by
              rw [hext1]; exact viewO_ext fe' σ ext1 rest restV hrestv
            obtain ⟨fna, hfna⟩ := hviewna
            obtain ⟨f3, hf3⟩ :=
              viewO_setKey res fr σ1 resV k (.ref na)
                (.obj (deepMergeEntries be oe)) fna hfr1 hfna
            obtain ⟨hwf', hwfres', f', hview'⟩ :=
              mergeLoopH_view fuel σ1 (hSetKey res k (.ref na)) rest σ'
                res' (setKey resV k (.obj (deepMergeEntries be oe))) restV
                hwf1 (wfObj_setKey hwfr rfl) hwfrest h ⟨f3, hf3⟩
                ⟨fe', hrest1⟩
            refine ⟨hwf', hwfres', f', ?_⟩
            rw [show mergeResultFor (lookupKey resV k) (JVal.obj oe)
                = .obj (deepMergeEntries be oe) by rw [hlk]; rfl]
            exact hview'
        | pv w =>
          -- value is not a dict: plain assignment
          simp only [mergeLoopH, hL] at h
          have hjv' : jv = w := by
            rw [show viewV fe' σ (.pv w) = some w from by
              cases fe' <;> rfl] at hjv
            injection hjv with hjv
            exact hjv.symm
          subst hjv'
          obtain ⟨f3, hf3⟩ :=
            viewO_setKey res fr σ resV k (.pv jv) jv fe' hfr hjv
          obtain ⟨hwf', hwfres', f', hview'⟩ :=
            mergeLoopH_view fuel σ (hSetKey res k (.pv jv)) rest σ' res'
              (setKey resV k jv) restV hwf (wfObj_setKey hwfr hwfv)
              hwfrest h ⟨f3, hf3⟩ ⟨fe', hrestv⟩
          refine ⟨hwf', hwfres', f', ?_⟩
          rw [mergeResultFor_of_not_obj _ _
            (isObjVal_eq_false (wfHVal_pv_not_obj hwfv))]
          exact hview'
      | pv w0 =>
        -- base entry is not a dict: plain assignment
        simp only [mergeLoopH, hL] at h
        rcases viewO_lookup fr σ res resV k hfr with
          ⟨hl0, _⟩ | ⟨hv1, bjv, hl1, hlk, f0, hviewhv⟩
        · rw [hL] at hl0; exact absurd hl0 (by simp)
        rw [hL] at hl1
        injection hl1 with hl1
        subst hl1
        have hbjv : bjv = w0 := by
          rw [show viewV f0 σ (.pv w0) = some w0 from by
            cases f0 <;> rfl] at hviewhv
          injection hviewhv with hh
          exact hh.symm
        subst hbjv
        have hwNotObj : ∀ be, bjv ≠ JVal.obj be :=
          wfHVal_pv_not_obj (wfObj_lookup hwfr hL)
        obtain ⟨f3, hf3⟩ := viewO_setKey res fr σ resV k v jv fe' hfr hjv
        obtain ⟨hwf', hwfres', f', hview'⟩ :=
          mergeLoopH_view fuel σ (hSetKey res k v) rest σ' res'
            (setKey resV k jv) restV hwf (wfObj_setKey hwfr hwfv)
            hwfrest h ⟨f3, hf3⟩ ⟨fe', hrestv⟩
        refine ⟨hwf', hwfres', f', ?_⟩
        rw [hlk, mergeResultFor_base_not_obj hwNotObj]
        exact hview'
    | none =>
      simp only [mergeLoopH, hL] at h
      rcases viewO_lookup fr σ res resV k hfr with
        ⟨_, hlk⟩ | ⟨hv1, bjv, hl1, _, _, _⟩
      swap
      · rw [hL] at hl1; exact absurd hl1 (by simp)
      obtain ⟨f3, hf3⟩ := viewO_setKey res fr σ resV k v jv fe' hfr hjv
      obtain ⟨hwf', hwfres', f', hview'⟩ :=
        mergeLoopH_view fuel σ (hSetKey res k v) rest σ' res'
          (setKey resV k jv) restV hwf (wfObj_setKey hwfr hwfv)
          hwfrest h ⟨f3, hf3⟩ ⟨fe', hrestv⟩
      refine ⟨hwf', hwfres', f', ?_⟩
      rw [hlk, mergeResultFor_none]
      exact hview'

end

theorem viewedAs_ext {σ τ : Store} {hv : HVal} {w : JVal}
    (hext : ∃ e, τ = σ ++ e) (h : viewedAs σ hv w) : viewedAs τ hv w := by
  obtain ⟨e, rfl⟩ := hext
  obtain ⟨f, hf⟩ := h
  exact ⟨f, viewV_ext f σ e hv w hf⟩

theorem viewObjAs_ext {σ τ : Store} {o : HObj} {es : JEntries}
    (hext : ∃ e, τ = σ ++ e) (h : ∃ f, viewO f σ o = some es) :
    ∃ f, viewO f τ o = some es := by
  obtain ⟨e, rfl⟩ := hext
  obtain ⟨f, hf⟩ := h
  exact ⟨f, viewO_ext f σ e o es hf⟩

theorem viewedAs_alloc {σ : Store} {o : HObj} {es : JEntries}
    (h : ∃ f, viewO f σ o = some es) :
    viewedAs (alloc σ o).1 (.ref (alloc σ o).2) (.obj es) := by
  obtain ⟨f, hf⟩ := h
  refine ⟨f + 1, ?_⟩
  have hg : (σ ++ [o]).get? σ.length = some o := List.get?_concat_length σ o
  have hv := viewO_ext f σ [o] o es hf
  simp only [alloc, viewV, hg, hv]

theorem viewO_build {σ : Store} (k : String) (v : HVal) (rest : HObj)
    {jv : JVal} {es : JEntries} {f1 f2 : Nat}
    (h1 : viewV f1 σ v = some jv) (h2 : viewO f2 σ rest = some es) :
    viewO (max f1 f2 + 1) σ ((k, v) :: rest) = some (.cons k jv es) := by
  have ha := viewV_le (le_max_left f1 f2) h1
  have hb := viewO_le (le_max_right f1 f2) h2
  simp only [viewO, ha, hb]

theorem copyAt_view {σ σ' : Store} {a n : Nat} {w : JVal}
    (h : copyAt σ a = some (σ', n)) (hv : viewedAs σ (.ref a) w) :
    viewedAs σ' (.ref n) w := by
  obtain ⟨base, f, bv, hget, hbv, heq⟩ := viewedAs_ref_elim hv
  subst heq
  simp only [copyAt, hget, Option.some.injEq] at h
  have h1 : (alloc σ base).1 = σ' := congrArg Prod.fst h
  have h2 : (alloc σ base).2 = n := congrArg Prod.snd h
  rw [← h1, ← h2]
  exact viewedAs_alloc ⟨f, hbv⟩

theorem copyAt_wf {σ σ' : Store} {a n : Nat} (hwf : wfStore σ = true)
    (h : copyAt σ a = some (σ', n)) : wfStore σ' = true := by
  simp only [copyAt] at h
  split at h
  · exact absurd h (by simp)
  next o hget =>
    simp only [alloc, Option.some.injEq, Prod.mk.injEq] at h
    rw [← h.1]
    exact wfStore_append hwf (wfStore_get hwf hget)

theorem copyEach_wf : ∀ (entries : HObj) (σ σ' : Store) (res : HObj),
    wfStore σ = true → copyEach σ entries = some (σ', res) →
    wfStore σ' = true ∧ wfObj res = true
  | [], σ, σ', res, hwf, h => by
    simp only [copyEach, Option.some.injEq, Prod.mk.injEq] at h
    rw [← h.1, ← h.2]
    exact ⟨hwf, rfl⟩
  | (k, .ref a) :: rest, σ, σ', res, hwf, h => by
    simp only [copyEach] at h
    split at h
    · exact absurd h (by simp)
    next o hget =>
      split at h
      · exact absurd h (by simp)
      next σ2 entries2 hrest =>
        simp only [Option.some.injEq, Prod.mk.injEq] at h
        have hwf1 : wfStore (alloc σ o).1 = true :=
          wfStore_append hwf (wfStore_get hwf hget)
        obtain ⟨hwf2, hwfe2⟩ := copyEach_wf rest (alloc σ o).1 σ2 entries2
          hwf1 hrest
        refine ⟨by rw [← h.1]; exact hwf2, ?_⟩
        rw [← h.2]
        show (wfHVal (.ref (alloc σ o).2) && wfObj entries2) = true
        rw [Bool.and_eq_true]
        exact ⟨rfl, hwfe2⟩
  | (k, .pv w) :: rest, σ, σ', res, hwf, h => by simp [copyEach] at h

theorem copyEach_view : ∀ (entries : HObj) (σ σ' : Store) (res : HObj)
    (eV : JEntries), copyEach σ entries = some (σ', res) →
    (∃ f, viewO f σ entries = some eV) →
    ∃ f, viewO f σ' res = some eV
  | [], σ, σ', res, eV, h, hview => by
    simp only [copyEach, Option.some.injEq, Prod.mk.injEq] at h
    obtain ⟨f, hf⟩ := hview
    rw [viewO_nil_fuel] at hf
    injection hf with hf
    subst hf
    rw [← h.1, ← h.2]
    exact ⟨0, viewO_nil_fuel 0 σ⟩
  | (k, .ref a) :: rest, σ, σ', res, eV, h, hview => by
    simp only [copyEach] at h
    split at h
    · exact absurd h (by simp)
    next o hget =>
      split at h
      · exact absurd h (by simp)
      next σ2 entries2 hrest =>
        simp only [Option.some.injEq, Prod.mk.injEq] at h
        obtain ⟨f, hf⟩ := hview
        cases f with
        | zero => simp [viewO] at hf
        | succ f' =>
          simp only [viewO] at hf
          split at hf
          case h_2 => exact absurd hf (by simp)
          case h_1 jv restV hjv hrestv =>
          injection hf with hf
          subst hf
          -- the copied sub-dict has the same view as the original
          obtain ⟨base, fb, bv, hget2, hbv, heq⟩ :=
            viewedAs_ref_elim ⟨f', hjv⟩
          rw [hget] at hget2
          injection hget2 with hget2
          subst hget2
          subst heq
          have hcopyview : viewedAs (alloc σ o).1 (.ref (alloc σ o).2)
              (.obj bv) := viewedAs_alloc ⟨fb, hbv⟩
          obtain ⟨e2, he2⟩ := copyEach_frame rest (alloc σ o).1 σ2
            entries2 hrest
          have hcopyview2 : viewedAs σ2 (.ref (alloc σ o).2) (.obj bv) :=
            viewedAs_ext ⟨e2, he2⟩ hcopyview
          have hrestview : ∃ f, viewO f (alloc σ o).1 rest = some restV :=
            ⟨f', by
              have := viewO_ext f' σ [o] rest restV hrestv
              simpa [alloc] using this⟩
          obtain ⟨f2, hf2⟩ :=
            copyEach_view rest (alloc σ o).1 σ2 entries2 restV hrest
              hrestview
          obtain ⟨f3, hf3⟩ := hcopyview2
          rw [← h.1, ← h.2]
          exact ⟨max f3 f2 + 1, viewO_build k _ entries2 hf3 hf2⟩
  | (k, .pv w) :: rest, σ, σ', res, eV, h, hview => by simp [copyEach] at h

theorem viewV_pv (f : Nat) (σ : Store) (w : JVal) :
    viewV f σ (.pv w) = some w := by cases f <;> rfl

mutual

theorem allocVal_view : ∀ (v : JVal) (σ : Store),
    ∃ f, viewV f (allocVal σ v).1 (allocVal σ v).2 = some v
  | .obj es, σ => by
    obtain ⟨f, hf⟩ := allocObj_view es σ
    refine ⟨f + 1, ?_⟩
    show viewV (f + 1) ((allocObj σ es).1 ++ [(allocObj σ es).2])
      (.ref (allocObj σ es).1.length) = some (.obj es)
    have hg : ((allocObj σ es).1 ++ [(allocObj σ es).2]).get?
        (allocObj σ es).1.length = some (allocObj σ es).2 :=
      List.get?_concat_length _ _
    have hv := viewO_ext f (allocObj σ es).1 [(allocObj σ es).2]
      (allocObj σ es).2 es hf
    simp only [viewV, hg, hv]
  | .arr l, σ => ⟨0, rfl⟩
  | .str s, σ => ⟨0, rfl⟩
  | .num q, σ => ⟨0, rfl⟩
  | .bool b, σ => ⟨0, rfl⟩
  | .null, σ => ⟨0, rfl⟩

theorem allocObj_view : ∀ (es : JEntries) (σ : Store),
    ∃ f, viewO f (allocObj σ es).1 (allocObj σ es).2 = some es
  | .nil, σ => ⟨0, rfl⟩
  | .cons k v rest, σ => by
    obtain ⟨fv, hfv⟩ := allocVal_view v σ
    obtain ⟨fr, hfr⟩ := allocObj_view rest (allocVal σ v).1
    obtain ⟨e, he⟩ := allocObj_frame rest (allocVal σ v).1
    have hfv' : viewV fv (allocObj (allocVal σ v).1 rest).1
        (allocVal σ v).2 = some v := by
      rw [he]; exact viewV_ext fv _ e _ v hfv
    exact ⟨max fv fr + 1, viewO_build k _ _ hfv' hfr⟩

end

mutual

theorem allocVal_wf : ∀ (v : JVal) (σ : Store), wfStore σ = true →
    wfStore (allocVal σ v).1 = true ∧ wfHVal (allocVal σ v).2 = true
  | .obj es, σ, hwf => by
    obtain ⟨hwf1, hwfo⟩ := allocObj_wf es σ hwf
    exact ⟨wfStore_append hwf1 hwfo, rfl⟩
  | .arr l, σ, hwf => ⟨hwf, rfl⟩
  | .str s, σ, hwf => ⟨hwf, rfl⟩
  | .num q, σ, hwf => ⟨hwf, rfl⟩
  | .bool b, σ, hwf => ⟨hwf, rfl⟩
  | .null, σ, hwf => ⟨hwf, rfl⟩

theorem allocObj_wf : ∀ (es : JEntries) (σ : Store), wfStore σ = true →
    wfStore (allocObj σ es).1 = true ∧ wfObj (allocObj σ es).2 = true
  | .nil, σ, hwf => ⟨hwf, rfl⟩
  | .cons k v rest, σ, hwf => by
    obtain ⟨hwf1, hwfv⟩ := allocVal_wf v σ hwf
    obtain ⟨hwf2, hwfr⟩ := allocObj_wf rest (allocVal σ v).1 hwf1
    refine ⟨hwf2, ?_⟩
    show (wfHVal (allocVal σ v).2 && wfObj (allocObj (allocVal σ v).1 rest).2)
      = true
    rw [Bool.and_eq_true]
    exact ⟨hwfv, hwfr⟩

end

/-! Concrete views of the module-level defaults in `defaultStore`. -/

theorem defaultStore_wf : wfStore defaultStore = true := rfl

theorem view_defaultLayout :
    viewV 20 defaultStore (.ref 1) = some (.obj defaultLayout) := rfl

theorem view_defaultHeadingsObj :
    viewO 20 defaultStore
      [("h1", .ref 2), ("h2", .ref 3), ("h3", .ref 4),
       ("h4", .ref 5), ("h5", .ref 6), ("h6", .ref 7)]
      = some defaultHeadings := rfl

theorem view_defaultBody :
    viewV 20 defaultStore (.ref 9) = some (.obj defaultBody) := rfl

theorem view_defaultCode :
    viewV 20 defaultStore (.ref 10) = some (.obj defaultCode) := rfl

theorem view_defaultTable :
    viewV 20 defaultStore (.ref 11) = some (.obj defaultTable) := rfl

theorem view_defaultBlockquote :
    viewV 20 defaultStore (.ref 12) = some (.obj defaultBlockquote) := rfl

theorem view_defaultCssVars :
    viewV 20 defaultStore (.ref 13) = some (.obj defaultCssVars) := rfl

/-- On any store extending the module defaults, a successful
`get_styles` run with an override dict viewing as `ov` leaves the store
well-formed and returns a dict viewing as the pure
`_deep_merge(defaults, ov)`. -/
theorem getStylesH_view_merge {ext0 : Store} {oa : Nat} {fuel : Nat}
    {σ' : Store} {r : Nat} {ov : JEntries}
    (hwf : wfStore (defaultStore ++ ext0) = true)
    (hov : viewedAs (defaultStore ++ ext0) (.ref oa) (.obj ov))
    (h : getStylesH (defaultStore ++ ext0) (some oa) fuel = some (σ', r)) :
    wfStore σ' = true ∧
      viewedAs σ' (.ref r) (.obj (deepMergeEntries defaultStylesEntries ov)) := by
  simp only [getStylesH] at h
  split at h
  · exact absurd h (by simp)
  next σ1 layoutC h1 =>
    split at h
    · exact absurd h (by simp)
    next headingsO h8 =>
      split at h
      · exact absurd h (by simp)
      next σ2 hcopies h2 =>
        split at h
        · exact absurd h (by simp)
        next σ4 bodyC h4 =>
          split at h
          · exact absurd h (by simp)
          next σ5 codeC h5 =>
            split at h
            · exact absurd h (by simp)
            next σ6 tableC h6 =>
              split at h
              · exact absurd h (by simp)
              next σ7 bqC h7 =>
                split at h
                · exact absurd h (by simp)
                next σ8 cssC h9 =>
                  have hm : deepMergeH fuel
                      (alloc σ8 [("layout", .ref layoutC),
                        ("headings", .ref (alloc σ2 hcopies).2),
                        ("body", .ref bodyC), ("code", .ref codeC),
                        ("table", .ref tableC), ("blockquote", .ref bqC),
                        ("css_vars", .ref cssC)]).1
                      (alloc σ8 [("layout", .ref layoutC),
                        ("headings", .ref (alloc σ2 hcopies).2),
                        ("body", .ref bodyC), ("code", .ref codeC),
                        ("table", .ref tableC), ("blockquote", .ref bqC),
                        ("css_vars", .ref cssC)]).2 oa = some (σ', r) := h
                  -- single-step frame facts
                  have E1 := copyAt_frame h1
                  have E2 := copyEach_frame _ _ _ _ h2
                  have E3 := alloc_ext σ2 hcopies
                  have E4 := copyAt_frame h4
                  have E5 := copyAt_frame h5
                  have E6 := copyAt_frame h6
                  have E7 := copyAt_frame h7
                  have E9 := copyAt_frame h9
                  have E10 := alloc_ext σ8
                    [("layout", .ref layoutC),
                     ("headings", .ref (alloc σ2 hcopies).2),
                     ("body", .ref bodyC), ("code", .ref codeC),
                     ("table", .ref tableC), ("blockquote", .ref bqC),
                     ("css_vars", .ref cssC)]
                  -- composite frames up to σ8
                  have U7 : ∃ e, σ8 = σ7 ++ e := E9
                  have U6 : ∃ e, σ8 = σ6 ++ e := store_ext_trans E7 U7
                  have U5 : ∃ e, σ8 = σ5 ++ e := store_ext_trans E6 U6
                  have U4 : ∃ e, σ8 = σ4 ++ e := store_ext_trans E5 U5
                  have U3 : ∃ e, σ8 = (alloc σ2 hcopies).1 ++ e :=
                    store_ext_trans E4 U4
                  have U2 : ∃ e, σ8 = σ2 ++ e := store_ext_trans E3 U3
                  have U1 : ∃ e, σ8 = σ1 ++ e := store_ext_trans E2 U2
                  -- frames from the original and default stores
                  have D1 : ∃ e, σ1 = defaultStore ++ e :=
                    store_ext_trans ⟨ext0, rfl⟩ E1
                  have D3 : ∃ e, (alloc σ2 hcopies).1 = defaultStore ++ e :=
                    store_ext_trans D1 (store_ext_trans E2 E3)
                  have D4 : ∃ e, σ4 = defaultStore ++ e :=
                    store_ext_trans D3 E4
                  have D5 : ∃ e, σ5 = defaultStore ++ e :=
                    store_ext_trans D4 E5
                  have D6 : ∃ e, σ6 = defaultStore ++ e :=
                    store_ext_trans D5 E6
                  have D7 : ∃ e, σ7 = defaultStore ++ e :=
                    store_ext_trans D6 E7
                  -- well-formedness along the chain
                  have hwf1 : wfStore σ1 = true := copyAt_wf hwf h1
                  have hwfHO : wfObj headingsO = true := wfStore_get hwf1 h8
                  obtain ⟨hwf2, hwfhc⟩ :=
                    copyEach_wf headingsO σ1 σ2 hcopies hwf1 h2
                  have hwf3 : wfStore (alloc σ2 hcopies).1 = true :=
                    wfStore_append hwf2 hwfhc
                  have hwf4 : wfStore σ4 = true := copyAt_wf hwf3 h4
                  have hwf5 : wfStore σ5 = true := copyAt_wf hwf4 h5
                  have hwf6 : wfStore σ6 = true := copyAt_wf hwf5 h6
                  have hwf7 : wfStore σ7 = true := copyAt_wf hwf6 h7
                  have hwf8 : wfStore σ8 = true := copyAt_wf hwf7 h9
                  have hwf9 : wfStore (alloc σ8
                      [("layout", .ref layoutC),
                       ("headings", .ref (alloc σ2 hcopies).2),
                       ("body", .ref bodyC), ("code", .ref codeC),
                       ("table", .ref tableC), ("blockquote", .ref bqC),
                       ("css_vars", .ref cssC)]).1 = true :=
                    wfStore_append hwf8 rfl
                  -- the headings dict at address 8 is the module literal
                  have hgets8 : σ1.get? 8 = some
                      [("h1", .ref 2), ("h2", .ref 3), ("h3", .ref 4),
                       ("h4", .ref 5), ("h5", .ref 6), ("h6", .ref 7)] := by
                    obtain ⟨e, he⟩ := D1
                    rw [he, List.get?_append
                      (by decide : 8 < defaultStore.length)]
                    rfl
                  rw [hgets8] at h8
                  injection h8 with h8eq
                  subst h8eq
                  -- views of the seven copies at their creation stores
                  have hLv : viewedAs σ1 (.ref layoutC) (.obj defaultLayout) :=
                    copyAt_view h1 (viewedAs_ext ⟨ext0, rfl⟩
                      ⟨20, view_defaultLayout⟩)
                  have hHc := copyEach_view _ σ1 σ2 hcopies defaultHeadings h2
                    (viewObjAs_ext D1 ⟨20, view_defaultHeadingsObj⟩)
                  have hHd : viewedAs (alloc σ2 hcopies).1
                      (.ref (alloc σ2 hcopies).2) (.obj defaultHeadings) :=
                    viewedAs_alloc hHc
                  have hBv : viewedAs σ4 (.ref bodyC) (.obj defaultBody) :=
                    copyAt_view h4 (viewedAs_ext D3 ⟨20, view_defaultBody⟩)
                  have hCv : viewedAs σ5 (.ref codeC) (.obj defaultCode) :=
                    copyAt_view h5 (viewedAs_ext D4 ⟨20, view_defaultCode⟩)
                  have hTv : viewedAs σ6 (.ref tableC) (.obj defaultTable) :=
                    copyAt_view h6 (viewedAs_ext D5 ⟨20, view_defaultTable⟩)
                  have hQv : viewedAs σ7 (.ref bqC)
                      (.obj defaultBlockquote) :=
                    copyAt_view h7 (viewedAs_ext D6 ⟨20, view_defaultBlockquote⟩)
                  have hVv : viewedAs σ8 (.ref cssC) (.obj defaultCssVars) :=
                    copyAt_view h9 (viewedAs_ext D7 ⟨20, view_defaultCssVars⟩)
                  -- lift them all to σ8
                  obtain ⟨f1, g1⟩ := viewedAs_ext U1 hLv
                  obtain ⟨f2, g2⟩ := viewedAs_ext U3 hHd
                  obtain ⟨f3, g3⟩ := viewedAs_ext U4 hBv
                  obtain ⟨f4, g4⟩ := viewedAs_ext U5 hCv
                  obtain ⟨f5, g5⟩ := viewedAs_ext U6 hTv
                  obtain ⟨f6, g6⟩ := viewedAs_ext U7 hQv
                  obtain ⟨f7, g7⟩ := hVv
                  -- assemble the view of the styles dict entry list
                  have b7 := viewO_build "css_vars" (.ref cssC) [] g7
                    (viewO_nil_fuel 0 σ8)
                  have b6 := viewO_build "blockquote" (.ref bqC) _ g6 b7
                  have b5 := viewO_build "table" (.ref tableC) _ g5 b6
                  have b4 := viewO_build "code" (.ref codeC) _ g4 b5
                  have b3 := viewO_build "body" (.ref bodyC) _ g3 b4
                  have b2 := viewO_build "headings"
                    (.ref (alloc σ2 hcopies).2) _ g2 b3
                  have b1 := viewO_build "layout" (.ref layoutC) _ g1 b2
                  have hSv : ∃ f, viewO f σ8
                      [("layout", .ref layoutC),
                       ("headings", .ref (alloc σ2 hcopies).2),
                       ("body", .ref bodyC), ("code", .ref codeC),
                       ("table", .ref tableC), ("blockquote", .ref bqC),
                       ("css_vars", .ref cssC)]
                      = some defaultStylesEntries := ⟨_, b1⟩
                  have hstyles := viewedAs_alloc hSv
                  -- lift the override view to the merged store argument
                  have W : ∃ e, (alloc σ8
                      [("layout", .ref layoutC),
                       ("headings", .ref (alloc σ2 hcopies).2),
                       ("body", .ref bodyC), ("code", .ref codeC),
                       ("table", .ref tableC), ("blockquote", .ref bqC),
                       ("css_vars", .ref cssC)]).1
                      = (defaultStore ++ ext0) ++ e :=
                    store_ext_trans E1 (store_ext_trans U1 E10)
                  have hov9 := viewedAs_ext W hov
                  exact deepMergeH_view fuel _ _ oa σ' r
                    defaultStylesEntries ov hwf9 hm hstyles hov9

theorem view_defaultHeadings :
    viewV 20 defaultStore (.ref 8) = some (.obj defaultHeadings) := rfl

/-- A full `get_styles` call with a freshly parsed override `oe`, on any
store extending the module defaults, keeps the store well-formed and
returns a dict reading back as `_deep_merge(defaults, oe)`. -/
theorem getStylesFromOverride_view {ext0 : Store} {oe : JEntries}
    {fuel : Nat} {σ' : Store} {r : Nat}
    (hwf : wfStore (defaultStore ++ ext0) = true)
    (h : getStylesFromOverride (defaultStore ++ ext0) (some oe) fuel
      = some (σ', r)) :
    wfStore σ' = true ∧
      viewedAs σ' (.ref r)
        (.obj (deepMergeEntries defaultStylesEntries oe)) := by
  obtain ⟨e, he⟩ := allocVal_frame (.obj oe) (defaultStore ++ ext0)
  have hm : getStylesH (allocVal (defaultStore ++ ext0) (.obj oe)).1
      (some (allocObj (defaultStore ++ ext0) oe).1.length) fuel
      = some (σ', r) := h
  have hwf' : wfStore (allocVal (defaultStore ++ ext0) (.obj oe)).1
      = true := (allocVal_wf (.obj oe) (defaultStore ++ ext0) hwf).1
  have hov : viewedAs (allocVal (defaultStore ++ ext0) (.obj oe)).1
      (.ref (allocObj (defaultStore ++ ext0) oe).1.length) (.obj oe) :=
    allocVal_view (.obj oe) (defaultStore ++ ext0)
  rw [he, List.append_assoc] at hm hwf' hov
  exact getStylesH_view_merge hwf' hov hm

/-- The override `{"body": {"color": "#000000"}}`. -/
def c10Override : JEntries := entriesOfList
  [("body", .obj (entriesOfList [("color", .str "#000000")]))]

/-- C10: style resolution never mutates the module-level defaults.
(i) `_deep_merge` only allocates: both of its argument dicts read back
unchanged afterwards.  (ii) After any successful `get_styles` run — with
or without an override — on a store extending the imported module, every
module-level object is untouched (`get?` agrees with the initial store
at every default address) and the seven default dicts `LAYOUT`,
`HEADINGS`, `BODY`, `CODE`, `TABLE`, `BLOCKQUOTE`, `CSS_VARS` still read
back as their initial deep values.  (iii) Two successive calls with the
same parsed override file both return dicts reading back as the same
pure configuration `_deep_merge(defaults, override)`. -/
theorem c10_defaults_immutable :
    (∀ (fuel : Nat) (σ : Store) (b o : Nat) (σ' : Store) (n : Nat)
        (bv ov : JVal), deepMergeH fuel σ b o = some (σ', n) →
        viewedAs σ (.ref b) bv → viewedAs σ (.ref o) ov →
        viewedAs σ' (.ref b) bv ∧ viewedAs σ' (.ref o) ov) ∧
    (∀ (ext0 : Store) (ovr : Option JEntries) (fuel : Nat) (σ' : Store)
        (r : Nat),
        getStylesFromOverride (defaultStore ++ ext0) ovr fuel
          = some (σ', r) →
        (∀ i, i < defaultStore.length →
          σ'.get? i = defaultStore.get? i) ∧
        viewedAs σ' (.ref 1) (.obj defaultLayout) ∧
        viewedAs σ' (.ref 8) (.obj defaultHeadings) ∧
        viewedAs σ' (.ref 9) (.obj defaultBody) ∧
        viewedAs σ' (.ref 10) (.obj defaultCode) ∧
        viewedAs σ' (.ref 11) (.obj defaultTable) ∧
        viewedAs σ' (.ref 12) (.obj defaultBlockquote) ∧
        viewedAs σ' (.ref 13) (.obj defaultCssVars)) ∧
    (∀ (ext0 : Store) (oe : JEntries) (fuel1 fuel2 : Nat)
        (σ1 : Store) (r1 : Nat) (σ2 : Store) (r2 : Nat),
        wfStore (defaultStore ++ ext0) = true →
        getStylesFromOverride (defaultStore ++ ext0) (some oe) fuel1
          = some (σ1, r1) →
        getStylesFromOverride σ1 (some oe) fuel2 = some (σ2, r2) →
        viewedAs σ1 (.ref r1)
          (.obj (deepMergeEntries defaultStylesEntries oe)) ∧
        viewedAs σ2 (.ref r2)
          (.obj (deepMergeEntries defaultStylesEntries oe))) := by
  refine ⟨?_, ?_, ?_⟩
  · intro fuel σ b o σ' n bv ov h hb ho
    have hext := deepMergeH_frame fuel σ b o σ' n h
    exact ⟨viewedAs_ext hext hb, viewedAs_ext hext ho⟩
  · intro ext0 ovr fuel σ' r h
    obtain ⟨e, he⟩ := getStylesFromOverride_frame h
    have hext : ∃ e2, σ' = defaultStore ++ e2 :=
      ⟨ext0 ++ e, by rw [he, List.append_assoc]⟩
    refine ⟨?_, viewedAs_ext hext ⟨20, view_defaultLayout⟩,
      viewedAs_ext hext ⟨20, view_defaultHeadings⟩,
      viewedAs_ext hext ⟨20, view_defaultBody⟩,
      viewedAs_ext hext ⟨20, view_defaultCode⟩,
      viewedAs_ext hext ⟨20, view_defaultTable⟩,
      viewedAs_ext hext ⟨20, view_defaultBlockquote⟩,
      viewedAs_ext hext ⟨20, view_defaultCssVars⟩⟩
    intro i hi
    obtain ⟨e2, he2⟩ := hext
    rw [he2]
    exact List.get?_append hi
  · intro ext0 oe fuel1 fuel2 σ1 r1 σ2 r2 hwf h1 h2
    obtain ⟨hwf1, hv1⟩ := getStylesFromOverride_view hwf h1
    obtain ⟨e, he⟩ := getStylesFromOverride_frame h1
    rw [he, List.append_assoc] at h2 hwf1
    obtain ⟨hwf2, hv2⟩ := getStylesFromOverride_view hwf1 h2
    exact ⟨hv1, hv2⟩

set_option maxHeartbeats 1000000 in
/-- C10 witness: two concrete `get_styles` runs with the override
`{"body": {"color": "#000000"}}`, starting from the imported module
store; both results read back as the same merged configuration, and the
defaults at address 1 (`LAYOUT`) are untouched. -/
theorem c10_defaults_immutable_witness :
    ∃ σ1 r1 σ2 r2,
      getStylesFromOverride (defaultStore ++ []) (some c10Override) 40
        = some (σ1, r1) ∧
      getStylesFromOverride σ1 (some c10Override) 40 = some (σ2, r2) ∧
      σ1.get? 1 = defaultStore.get? 1 ∧
      viewedAs σ1 (.ref 1) (.obj defaultLayout) ∧
      viewedAs σ1 (.ref r1)
        (.obj (deepMergeEntries defaultStylesEntries c10Override)) ∧
      viewedAs σ2 (.ref r2)
        (.obj (deepMergeEntries defaultStylesEntries c10Override)) := by
  have hs1 : (getStylesFromOverride (defaultStore ++ [])
      (some c10Override) 40).isSome = true := by decide
  have h1 : getStylesFromOverride (defaultStore ++ []) (some c10Override) 40
      = some ((getStylesFromOverride (defaultStore ++ [])
          (some c10Override) 40).getD ([], 0)) := by
    cases hx : getStylesFromOverride (defaultStore ++ [])
        (some c10Override) 40 with
    | none => rw [hx] at hs1; exact absurd hs1 (by simp)
    | some p => rfl
  have hs2 : (getStylesFromOverride
      ((getStylesFromOverride (defaultStore ++ [])
        (some c10Override) 40).getD ([], 0)).1
      (some c10Override) 40).isSome = true := by decide
  have h2 : getStylesFromOverride
      ((getStylesFromOverride (defaultStore ++ [])
        (some c10Override) 40).getD ([], 0)).1 (some c10Override) 40
      = some ((getStylesFromOverride
          ((getStylesFromOverride (defaultStore ++ [])
            (some c10Override) 40).getD ([], 0)).1
          (some c10Override) 40).getD ([], 0)) := by
    cases hx : getStylesFromOverride
        ((getStylesFromOverride (defaultStore ++ [])
          (some c10Override) 40).getD ([], 0)).1
        (some c10Override) 40 with
    | none => rw [hx] at hs2; exact absurd hs2 (by simp)
    | some p => rfl
  have hmain := c10_defaults_immutable
  obtain ⟨hget, hlay, _⟩ :=
    hmain.2.1 [] (some c10Override) 40 _ _ h1
  obtain ⟨hv1, hv2⟩ := hmain.2.2 [] c10Override 40 40 _ _ _ _
    (by decide) h1 h2
  exact ⟨_, _, _, _, h1, h2, hget 1 (by decide), hlay, hv1, hv2⟩

end LlmTk
